import Mathlib

/-!
# w4on2: synthesis runtime and score player

A shallow embedding of `src/runtime/w4on2.c` and `src/runtime/w4on2.h`.

* `uint8_t`, `uint16_t` and `uint32_t` values are natural numbers; every narrowing
  store of the source is written as an explicit `% 256` or `% 65536`.
* `int32_t` values are integers; C division is `Int.tdiv` (truncation towards zero).
* C arrays are lists, read with `List.getD` and written with `List.set`.
* The `tone` callback is an output: `w4on2_rt_tick` returns the list of the calls it
  makes, each tagged with the channel slot `ch_i` whose loop iteration made it.
* A `const uint8_t *data` argument is the list of the bytes found at the pointer.
-/

namespace W4on2

/-! ## Constants of `w4on2.h` -/

abbrev W4ON2_WASM4_VOLUME_MAX : Nat := 100
abbrev W4ON2_TRACK_COUNT : Nat := 16
abbrev W4ON2_CHANNEL_COUNT : Nat := 4
abbrev W4ON2_MAX_NOTES : Nat := 8
abbrev W4ON2_VOLUME_MAX : Nat := 255
abbrev W4ON2_SUSTAIN_MAX : Nat := 255
abbrev W4ON2_VELOCITY_MAX : Nat := 127

abbrev W4ON2_FMT_LONG_DELTA_ARG2_ID : Nat := 0x00
abbrev W4ON2_FMT_LONG_DELTA_SIZE : Nat := 3
abbrev W4ON2_FMT_LONG_DELTA_NOTES_OFF_ARG2_ID : Nat := 0x01
abbrev W4ON2_FMT_LONG_DELTA_NOTES_OFF_SIZE : Nat := 3
abbrev W4ON2_FMT_SHORT_DELTA_SIZE : Nat := 1
abbrev W4ON2_FMT_SHORT_DELTA_2_START : Nat := 0x02
abbrev W4ON2_FMT_SHORT_DELTA_2_COUNT : Nat := 50
abbrev W4ON2_FMT_SHORT_DELTA_NOTES_OFF_SIZE : Nat := 1
abbrev W4ON2_FMT_SHORT_DELTA_NOTES_OFF_3_START : Nat := 0x34
abbrev W4ON2_FMT_SHORT_DELTA_NOTES_OFF_3_COUNT : Nat := 50
abbrev W4ON2_FMT_NOTE_ON_SIZE : Nat := 1
abbrev W4ON2_FMT_NOTE_ON_4_START : Nat := 0x66
abbrev W4ON2_FMT_NOTE_ON_4_COUNT : Nat := 128
abbrev W4ON2_FMT_NOTES_OFF_ID : Nat := 0xe6
abbrev W4ON2_FMT_NOTES_OFF_SIZE : Nat := 1
abbrev W4ON2_FMT_SET_FLAGS_ARG1_ID : Nat := 0xe7
abbrev W4ON2_FMT_SET_FLAGS_SIZE : Nat := 2
abbrev W4ON2_FMT_SET_VOLUME_ARG1_ID : Nat := 0xe8
abbrev W4ON2_FMT_SET_VOLUME_SIZE : Nat := 2
abbrev W4ON2_FMT_SET_PAN_SIZE : Nat := 1
abbrev W4ON2_FMT_SET_PAN_8_START : Nat := 0xe9
abbrev W4ON2_FMT_SET_PAN_8_COUNT : Nat := 3
abbrev W4ON2_FMT_SET_VELOCITY_ARG1_ID : Nat := 0xec
abbrev W4ON2_FMT_SET_VELOCITY_SIZE : Nat := 2
abbrev W4ON2_FMT_SET_ADSR_ARG4_ID : Nat := 0xed
abbrev W4ON2_FMT_SET_ADSR_SIZE : Nat := 5
abbrev W4ON2_FMT_SET_A_ARG1_ID : Nat := 0xee
abbrev W4ON2_FMT_SET_A_SIZE : Nat := 2
abbrev W4ON2_FMT_SET_D_ARG1_ID : Nat := 0xef
abbrev W4ON2_FMT_SET_D_SIZE : Nat := 2
abbrev W4ON2_FMT_SET_S_ARG1_ID : Nat := 0xf0
abbrev W4ON2_FMT_SET_S_SIZE : Nat := 2
abbrev W4ON2_FMT_SET_R_ARG1_ID : Nat := 0xf1
abbrev W4ON2_FMT_SET_R_SIZE : Nat := 2
abbrev W4ON2_FMT_SET_PITCH_ENV_ARG2_ID : Nat := 0xf2
abbrev W4ON2_FMT_SET_PITCH_ENV_SIZE : Nat := 3
abbrev W4ON2_FMT_SET_ARP_RATE_ARG1_ID : Nat := 0xf3
abbrev W4ON2_FMT_SET_ARP_RATE_SIZE : Nat := 2
abbrev W4ON2_FMT_SET_PORTAMENTO_ARG1_ID : Nat := 0xf4
abbrev W4ON2_FMT_SET_PORTAMENTO_SIZE : Nat := 2
abbrev W4ON2_FMT_SET_VIBRATO_ARG2_ID : Nat := 0xf5
abbrev W4ON2_FMT_SET_VIBRATO_SIZE : Nat := 3

/-! ## Data model (`w4on2_track_t`, `w4on2_channel_t`, `w4on2_rt_t`) -/

/-- Instrument preset of one track (`w4on2_track_t`); `pe_offset` is the only signed field. -/
structure Track where
  flags : Nat
  volume : Nat
  velocity : Nat
  a : Nat
  d : Nat
  s : Nat
  r : Nat
  pe_offset : Int
  pe_duration : Nat
  arp_rate : Nat
  portamento : Nat
  vib_speed : Nat
  vib_depth : Nat
deriving DecidableEq, Repr, Inhabited

/-- Live state of one oscillator slot (`w4on2_channel_t`). -/
structure Channel where
  first_trigger_ticks : Nat
  last_trigger_ticks : Nat
  active_track_i : Nat
  active_key_count : Nat
  note_keys : List Nat
deriving DecidableEq, Repr, Inhabited

/-- One call of the `tone` callback: its four `uint32_t` arguments. -/
structure ToneCall where
  frequency : Nat
  duration : Nat
  volume : Nat
  flags : Nat
deriving DecidableEq, Repr

/-- The mutable part of `w4on2_rt_t`: 16 tracks and 4 channels. -/
structure RT where
  tracks : List Track
  channels : List Channel
deriving DecidableEq, Repr

/-- Conversion `(uint32_t)x` of a 32-bit signed value. -/
def u32 (x : Int) : Nat := (x % 4294967296).toNat

/-- Conversion `(int32_t)x` of a 32-bit unsigned value (two's complement). -/
def i32 (x : Int) : Int :=
  if x % 4294967296 < 2147483648 then x % 4294967296 else x % 4294967296 - 4294967296

/-- Conversion `(int8_t)b` of a byte (two's complement). -/
def i8 (b : Nat) : Int := if b % 256 < 128 then (b % 256 : Nat) else ((b % 256 : Nat) : Int) - 256

/-! ## Envelope helpers -/

/-- Source `w4on2_ramp`: linear interpolation in `int32_t` with truncating division. -/
def w4on2_ramp (ticks duration from_v to_v : Int) : Int :=
  if duration = 0 ∨ ticks ≥ duration then to_v
  else if ticks ≤ 0 then from_v
  else from_v + ((to_v - from_v) * ticks).tdiv duration

/-- Source `w4on2_ramp2add`: adds the ramp at `ticks` to the first accumulator and the ramp at
`ticks + 1` to the second. -/
def w4on2_ramp2add (out1 out2 : Int) (ticks duration from_v to_v : Int) : Int × Int :=
  (out1 + w4on2_ramp ticks duration from_v to_v,
   out2 + w4on2_ramp (ticks + 1) duration from_v to_v)

/-- Source `w4on2_triangle`: the product and quotient are computed in `uint32_t`, the result is
returned as `int32_t`. -/
def w4on2_triangle (phase : Nat) (peak : Int) : Int :=
  if phase < 0x7fff then
    i32 (((u32 (2 * peak) * phase % 4294967296 / 0x7fff : Nat) : Int) - peak)
  else
    i32 (((u32 (2 * peak) * ((0xffff - (phase : Int)) % 4294967296).toNat % 4294967296 / 0x7fff : Nat)
      : Int) - peak)

/-! ## Runtime -/

/-- Source `w4on2_rt_init` (the callback and its user pointer are not part of the model). -/
def w4on2_rt_init : RT :=
  { tracks := List.replicate W4ON2_TRACK_COUNT
      { velocity := W4ON2_VELOCITY_MAX, flags := 0, volume := W4ON2_VOLUME_MAX, a := 0, d := 0,
        s := W4ON2_SUSTAIN_MAX, r := 0, pe_offset := 0, pe_duration := 0, arp_rate := 0,
        portamento := 0, vib_speed := 0, vib_depth := 0 }
    channels := List.replicate W4ON2_CHANNEL_COUNT
      { active_track_i := 0xff, active_key_count := 0, first_trigger_ticks := 0,
        last_trigger_ticks := 0, note_keys := List.replicate W4ON2_MAX_NOTES 0 } }

/-- The `peak_amp` byte computed by `w4on2_rt_tick`. -/
def peak_amp (track : Track) : Nat :=
  (W4ON2_WASM4_VOLUME_MAX * (track.volume * track.velocity))
    / (W4ON2_VOLUME_MAX * W4ON2_VELOCITY_MAX) % 256

/-- The `sus_amp` byte computed by `w4on2_rt_tick`. -/
def sus_amp (track : Track) : Nat :=
  (W4ON2_WASM4_VOLUME_MAX * (track.volume * track.velocity) * track.s)
    / (W4ON2_VOLUME_MAX * W4ON2_VELOCITY_MAX * W4ON2_SUSTAIN_MAX) % 256

/-- The `key_i` byte of `w4on2_rt_tick` (held channel). -/
def key_i (track : Track) (ch : Channel) : Nat :=
  if track.arp_rate > 0 then
    (ch.first_trigger_ticks / track.arp_rate) % ch.active_key_count % 256
  else (ch.active_key_count - 1) % 256

/-- The `key_ticks` value of `w4on2_rt_tick` (`uint16_t`). -/
def key_ticks (track : Track) (ch : Channel) : Nat :=
  if track.arp_rate > 0 ∧ ch.active_key_count ≥ 2 then
    ch.first_trigger_ticks % track.arp_rate % 65536
  else ch.first_trigger_ticks % 65536

/-- The `porta_ticks` value of `w4on2_rt_tick` (`uint16_t`). -/
def porta_ticks (track : Track) (ch : Channel) : Nat :=
  if track.arp_rate > 0 then key_ticks track ch else ch.last_trigger_ticks % 65536

/-- The pair `(from_vol, to_vol)` of `w4on2_rt_tick`. -/
def vols (track : Track) (ch : Channel) : Int × Int :=
  if key_ticks track ch < track.a then
    w4on2_ramp2add 0 0 (key_ticks track ch) track.a 0 (peak_amp track)
  else
    w4on2_ramp2add 0 0 ((key_ticks track ch : Int) - track.a) track.d (peak_amp track)
      (sus_amp track)

/-- The pair `(from_pitch, to_pitch)` of `w4on2_rt_tick`: portamento, pitch envelope, vibrato. -/
def pitches (track : Track) (ch : Channel) : Int × Int :=
  let ki := key_i track ch
  let key := ch.note_keys.getD ki 0
  let prev_key := ch.note_keys.getD ((ki + ch.active_key_count - 1) % ch.active_key_count) 0
  let pt := porta_ticks track ch
  let p1 := w4on2_ramp2add 0 0 pt track.portamento ((prev_key <<< 8 : Nat) : Int)
    ((key <<< 8 : Nat) : Int)
  let p2 := w4on2_ramp2add p1.1 p1.2 (key_ticks track ch) track.pe_duration
    (track.pe_offset * 256) 0
  (p2.1 + w4on2_triangle ((0x3fff + pt * (track.vib_speed <<< 6)) % 4294967296 &&& 0xffff)
      ((track.vib_depth <<< 2 : Nat) : Int),
   p2.2 + w4on2_triangle ((0x3fff + (pt + 1) * (track.vib_speed <<< 6)) % 4294967296 % 0xffff)
      ((track.vib_depth <<< 2 : Nat) : Int))

/-- The `w4_freq_param` word of `w4on2_rt_tick`: both pitches byte-swapped and packed. -/
def w4_freq_param (from_pitch to_pitch : Int) : Nat :=
  ((u32 from_pitch >>> 8 ||| (u32 from_pitch <<< 8) % 4294967296) &&& 0xffff)
    ||| ((((u32 to_pitch >>> 8 ||| (u32 to_pitch <<< 8) % 4294967296) &&& 0xffff) <<< 16)
      % 4294967296)

/-- The tone calls of one iteration of the channel loop of `w4on2_rt_tick`, for a channel whose
`active_track_i` is below 16. -/
def channel_tones (track : Track) (ch : Channel) : List ToneCall :=
  if ch.active_key_count > 0 then
    let v := vols track ch
    let p := pitches track ch
    if v.1 ≠ 0 then
      [{ frequency := w4_freq_param p.1 p.2, duration := 1 <<< 16,
         volume := u32 v.2 ||| (u32 v.1 <<< 8) % 4294967296, flags := track.flags ||| 0x40 }]
    else if v.2 ≠ 0 then
      [{ frequency := w4_freq_param p.1 p.2, duration := 1 <<< 24,
         volume := u32 v.2 ||| (u32 v.2 <<< 8) % 4294967296, flags := track.flags ||| 0x40 }]
    else []
  else if ch.first_trigger_ticks = 0 then
    [{ frequency := ch.note_keys.getD 0 0, duration := track.r <<< 8, volume := sus_amp track,
       flags := track.flags ||| 0x40 }]
  else []

/-- The "tick tock" part of the channel loop: both counters saturate. -/
def channel_advance (ch : Channel) : Channel :=
  let ch1 := if ch.first_trigger_ticks < 0xffff then
    { ch with first_trigger_ticks := ch.first_trigger_ticks + 1 } else ch
  if ch1.last_trigger_ticks < 0xff then
    { ch1 with last_trigger_ticks := ch1.last_trigger_ticks + 1 } else ch1

/-- One iteration of the channel loop of `w4on2_rt_tick`: the new runtime and the tone calls. -/
def w4on2_rt_tick_channel (rt : RT) (ch_i : Nat) : RT × List ToneCall :=
  let ch := rt.channels.getD ch_i default
  if ch.active_track_i ≥ W4ON2_TRACK_COUNT then (rt, [])
  else
    let track := rt.tracks.getD ch.active_track_i default
    ({ rt with channels := rt.channels.set ch_i (channel_advance ch) }, channel_tones track ch)

/-- Source `w4on2_rt_tick`: the channel loop over `ch_i = 0..3`; each tone call is logged with
the `ch_i` of the iteration that made it. -/
def w4on2_rt_tick (rt : RT) : RT × List (Nat × ToneCall) :=
  (List.range W4ON2_CHANNEL_COUNT).foldl
    (fun acc ch_i =>
      let r := w4on2_rt_tick_channel acc.1 ch_i
      (r.1, acc.2 ++ r.2.map (fun c => (ch_i, c))))
    (rt, [])

/-- Source `w4on2_u16be`. -/
def w4on2_u16be (data : List Nat) : Nat :=
  ((data.getD 0 0 <<< 8) % 65536) ||| (data.getD 1 0 % 65536)

/-- The note-overflow loop of `w4on2_rt_feed_event`: `note_keys[i] = note_keys[i + 1]` for
`i = 0..6`. -/
def shift_keys (keys : List Nat) : List Nat :=
  (List.range (W4ON2_MAX_NOTES - 1)).foldl (fun ks i => ks.set i (ks.getD (i + 1) 0)) keys

/-- The NOTE_ON branch of `w4on2_rt_feed_event`, acting on the addressed channel. -/
def note_on (ch : Channel) (track_i cmd : Nat) : Channel :=
  let ch1 := if track_i ≠ ch.active_track_i then
    { ch with active_track_i := track_i, active_key_count := 0 } else ch
  let ch2 := if ch1.active_key_count ≥ W4ON2_MAX_NOTES then
    { ch1 with note_keys := shift_keys ch1.note_keys,
               active_key_count := (ch1.active_key_count - 1) % 256 } else ch1
  let ch3 := if ch2.active_key_count = 0 then { ch2 with first_trigger_ticks := 0 } else ch2
  { ch3 with note_keys := ch3.note_keys.set ch3.active_key_count
               ((cmd - W4ON2_FMT_NOTE_ON_4_START) % 256),
             active_key_count := (ch3.active_key_count + 1) % 256,
             last_trigger_ticks := 0 }

/-- The NOTES_OFF branch of `w4on2_rt_feed_event`, acting on the addressed channel. -/
def notes_off (t : Track) (ch : Channel) : Channel :=
  if ch.active_key_count > 0 then
    let key := if t.arp_rate > 0 then
      ch.note_keys.getD ((ch.first_trigger_ticks / t.arp_rate) % ch.active_key_count) 0
      else ch.note_keys.getD (ch.active_key_count - 1) 0
    { ch with note_keys := ch.note_keys.set 0 key, active_key_count := 0,
              first_trigger_ticks := 0 }
  else ch

/-- Source `w4on2_rt_feed_event`: the new runtime and the returned size. `data` holds the bytes
at the event pointer, `data[0]` being the opcode. -/
def w4on2_rt_feed_event (rt : RT) (track_i : Nat) (data : List Nat) : RT × Nat :=
  let t := rt.tracks.getD track_i default
  let ch_i := t.flags &&& 0x3
  let ch := rt.channels.getD ch_i default
  let setT := fun (t1 : Track) => { rt with tracks := rt.tracks.set track_i t1 }
  let setCh := fun (c1 : Channel) => { rt with channels := rt.channels.set ch_i c1 }
  let cmd := data.getD 0 0
  if cmd = W4ON2_FMT_LONG_DELTA_ARG2_ID then (rt, W4ON2_FMT_LONG_DELTA_SIZE)
  else if cmd = W4ON2_FMT_LONG_DELTA_NOTES_OFF_ARG2_ID then
    (rt, W4ON2_FMT_LONG_DELTA_NOTES_OFF_SIZE)
  else if cmd < W4ON2_FMT_SHORT_DELTA_2_START + W4ON2_FMT_SHORT_DELTA_2_COUNT then
    (rt, W4ON2_FMT_SHORT_DELTA_SIZE)
  else if cmd < W4ON2_FMT_SHORT_DELTA_NOTES_OFF_3_START
      + W4ON2_FMT_SHORT_DELTA_NOTES_OFF_3_COUNT then
    (rt, W4ON2_FMT_SHORT_DELTA_NOTES_OFF_SIZE)
  else if cmd < W4ON2_FMT_NOTE_ON_4_START + W4ON2_FMT_NOTE_ON_4_COUNT then
    (setCh (note_on ch track_i cmd), W4ON2_FMT_NOTE_ON_SIZE)
  else if cmd = W4ON2_FMT_NOTES_OFF_ID then
    (setCh (notes_off t ch), W4ON2_FMT_NOTES_OFF_SIZE)
  else if cmd = W4ON2_FMT_SET_FLAGS_ARG1_ID then
    (setT { t with flags := data.getD 1 0 }, W4ON2_FMT_SET_FLAGS_SIZE)
  else if cmd = W4ON2_FMT_SET_VOLUME_ARG1_ID then
    (setT { t with volume := data.getD 1 0 }, W4ON2_FMT_SET_VOLUME_SIZE)
  else if cmd < W4ON2_FMT_SET_PAN_8_START + W4ON2_FMT_SET_PAN_8_COUNT then
    (setT { t with flags := ((t.flags &&& 0xcf) ||| ((cmd - W4ON2_FMT_SET_PAN_8_START) <<< 4))
              % 256 }, W4ON2_FMT_SET_PAN_SIZE)
  else if cmd = W4ON2_FMT_SET_VELOCITY_ARG1_ID then
    (setT { t with velocity := data.getD 1 0 }, W4ON2_FMT_SET_VELOCITY_SIZE)
  else if cmd = W4ON2_FMT_SET_ADSR_ARG4_ID then
    (setT { t with a := data.getD 1 0, d := data.getD 2 0, s := data.getD 3 0,
                   r := data.getD 4 0 }, W4ON2_FMT_SET_ADSR_SIZE)
  else if cmd = W4ON2_FMT_SET_A_ARG1_ID then
    (setT { t with a := data.getD 1 0 }, W4ON2_FMT_SET_A_SIZE)
  else if cmd = W4ON2_FMT_SET_D_ARG1_ID then
    (setT { t with d := data.getD 1 0 }, W4ON2_FMT_SET_D_SIZE)
  else if cmd = W4ON2_FMT_SET_S_ARG1_ID then
    (setT { t with s := data.getD 1 0 }, W4ON2_FMT_SET_S_SIZE)
  else if cmd = W4ON2_FMT_SET_R_ARG1_ID then
    (setT { t with r := data.getD 1 0 }, W4ON2_FMT_SET_R_SIZE)
  else if cmd = W4ON2_FMT_SET_PITCH_ENV_ARG2_ID then
    (setT { t with pe_offset := i8 (data.getD 1 0), pe_duration := data.getD 2 0 },
      W4ON2_FMT_SET_PITCH_ENV_SIZE)
  else if cmd = W4ON2_FMT_SET_ARP_RATE_ARG1_ID then
    (setT { t with arp_rate := data.getD 1 0 }, W4ON2_FMT_SET_ARP_RATE_SIZE)
  else if cmd = W4ON2_FMT_SET_PORTAMENTO_ARG1_ID then
    (setT { t with portamento := data.getD 1 0 }, W4ON2_FMT_SET_PORTAMENTO_SIZE)
  else if cmd = W4ON2_FMT_SET_VIBRATO_ARG2_ID then
    (setT { t with vib_speed := data.getD 1 0, vib_depth := data.getD 2 0 },
      W4ON2_FMT_SET_VIBRATO_SIZE)
  else (rt, 0)

/-- The size table of section 4.1 of the specification, written from the table. -/
def opcode_table_size (b : Nat) : Nat :=
  if b = 0x00 ∨ b = 0x01 then 3
  else if (0x02 ≤ b ∧ b ≤ 0xe6) ∨ (0xe9 ≤ b ∧ b ≤ 0xeb) then 1
  else if b = 0xe7 ∨ b = 0xe8 ∨ b = 0xec ∨ (0xee ≤ b ∧ b ≤ 0xf1) ∨ b = 0xf3 ∨ b = 0xf4 then 2
  else if b = 0xed then 5
  else if b = 0xf2 ∨ b = 0xf5 then 3
  else 0

/-- Shape of a runtime state: 16 tracks, 4 channels, 8 key slots per channel. -/
def RT.wf (rt : RT) : Prop :=
  rt.tracks.length = W4ON2_TRACK_COUNT ∧ rt.channels.length = W4ON2_CHANNEL_COUNT ∧
    ∀ ch ∈ rt.channels, ch.note_keys.length = W4ON2_MAX_NOTES

instance (rt : RT) : Decidable rt.wf := by
  unfold RT.wf
  infer_instance

/-- States the host can reach: start from `w4on2_rt_init`, then feed events (track index below
16, any bytes) and tick, in any order. -/
inductive Reachable : RT → Prop
  | init : Reachable w4on2_rt_init
  | feed (rt : RT) (track_i : Nat) (data : List Nat) :
      Reachable rt → track_i < W4ON2_TRACK_COUNT →
      Reachable (w4on2_rt_feed_event rt track_i data).1
  | tick (rt : RT) : Reachable rt → Reachable (w4on2_rt_tick rt).1

/-- The tone calls that a tick log attributes to channel slot `c`. -/
def tones_of (c : Nat) (log : List (Nat × ToneCall)) : List ToneCall :=
  (log.filter (fun e => e.1 = c)).map (fun e => e.2)

/-- Running `w4on2_rt_tick` `n` times in a row with no event in between: the final state. -/
def rt_tick_n : Nat → RT → RT
  | 0, rt => rt
  | n + 1, rt => rt_tick_n n (w4on2_rt_tick rt).1

/-- Feeding a list of events to one track, in order. -/
def feed_all (rt : RT) (track_i : Nat) : List (List Nat) → RT
  | [] => rt
  | e :: es => feed_all (w4on2_rt_feed_event rt track_i e).1 track_i es

/-- The state of a channel after one `w4on2_rt_tick`. -/
def tick_channel_state (ch : Channel) : Channel :=
  if ch.active_track_i ≥ W4ON2_TRACK_COUNT then ch else channel_advance ch

/-- The tone calls one `w4on2_rt_tick` makes for a channel. -/
def tick_channel_tones (rt : RT) (ch : Channel) : List ToneCall :=
  if ch.active_track_i ≥ W4ON2_TRACK_COUNT then []
  else channel_tones (rt.tracks.getD ch.active_track_i default) ch

/-- Invariant of the reachable states: the array shapes and the key-count bound. -/
def key_inv (rt : RT) : Prop :=
  rt.wf ∧ ∀ ch ∈ rt.channels, ch.active_key_count ≤ W4ON2_MAX_NOTES

/-- A reachable state in which channel 0 is owned by track 0 and holds the keys 60..67, while
the flags of track 0 have since been pointed at channel 1 by SET_FLAGS. -/
def overflow_state : RT :=
  feed_all w4on2_rt_init 0
    [[0x66 + 60], [0x66 + 61], [0x66 + 62], [0x66 + 63], [0x66 + 64], [0x66 + 65],
     [0x66 + 66], [0x66 + 67], [0xe7, 1]]

/-- The envelope value `V(t)` of the volume ramp as the specification words it: the attack ramp
when `key_ticks < a`, the decay ramp otherwise (the branch is chosen by `key_ticks`, not `t`). -/
def env_V (track : Track) (kt : Nat) (t : Int) : Int :=
  if kt < track.a then w4on2_ramp t track.a 0 (peak_amp track)
  else w4on2_ramp (t - track.a) track.d (peak_amp track) (sus_amp track)

/-- Scenario S2: `a = 10, d = 0, s = 255`, NOTE_ON(60) on track 0, then five ticks. -/
def attack_state : RT :=
  rt_tick_n 5 (feed_all w4on2_rt_init 0 [[0xed, 10, 0, 255, 0], [0x66 + 60]])

/-- Scenario S1: NOTE_ON(69) on track 0 of a fresh runtime. -/
def sustain_state : RT :=
  feed_all w4on2_rt_init 0 [[0xe8, 255], [0xed, 0, 0, 255, 0], [0xec, 127], [0x66 + 69]]

/-- Scenario S3: `arp_rate = 4` and the keys 60, 64, 67 on track 0, then `n` ticks. -/
def arp_state (n : Nat) : RT :=
  rt_tick_n n (feed_all w4on2_rt_init 0 [[0xf3, 4], [0x66 + 60], [0x66 + 64], [0x66 + 67]])

/-! ## Score player (`w4on2_player_track_t`, `w4on2_player_t`) -/

/-- Cursor state of one track (`w4on2_player_track_t`). -/
structure PlayerTrack where
  outer_data_i : Nat
  inner_data_i : Nat
  delay : Nat
deriving DecidableEq, Repr, Inhabited

/-- The player (`w4on2_player_t`): the score bytes and 16 track cursors. -/
structure Player where
  data : List Nat
  tracks : List PlayerTrack
deriving DecidableEq, Repr

/-- One call of `w4on2_rt_feed_event` made by the player: either the event found at offset
`pos` of the score while track `track_i` plays pattern `ptn_i`, or the NOTES_OFF the player
synthesizes when a NOTES_OFF delay runs out. -/
inductive Fed where
  | event (track_i ptn_i pos : Nat)
  | notes_off (track_i : Nat)
deriving DecidableEq, Repr

/-- State threaded through the event loop of one track: the cursors, the runtime, and the
calls of `w4on2_rt_feed_event` the loop has made so far. -/
structure LoopSt where
  pt : PlayerTrack
  rt : RT
  log : List Fed
deriving DecidableEq, Repr

/-- Source `w4on2_player_init`. -/
def w4on2_player_init (data : List Nat) : Player :=
  { data := data
    tracks := List.replicate W4ON2_TRACK_COUNT { outer_data_i := 0, inner_data_i := 0, delay := 0 } }

/-- The header word `sz` of `w4on2_player_tick`. -/
def score_sz (data : List Nat) : Nat :=
  ((data.getD 0 0 <<< 8) % 65536) ||| (data.getD 1 0 % 65536)

/-- The values `(ptn_start, ptn_end)` that `w4on2_player_tick` computes for pattern `ptn_i`. -/
def ptn_bounds (data : List Nat) (ptn_i : Nat) : Nat × Nat :=
  let pattern_count := data.getD 2 0
  let first_track_offset_idx := (4 + pattern_count * 2) % 65536
  let first_track_start := w4on2_u16be (data.drop first_track_offset_idx)
  let ptn_offset_idx := (4 + ptn_i * 2) % 65536
  let ptn_start := w4on2_u16be (data.drop ptn_offset_idx)
  let ptn_end := if (ptn_i : Int) < (pattern_count : Int) - 1 then
    w4on2_u16be (data.drop (ptn_offset_idx + 2)) else first_track_start
  (ptn_start, ptn_end)

/-- The values `(track_start, track_end)` that `w4on2_player_tick` computes for track
`track_i`. -/
def trk_bounds (data : List Nat) (track_i : Nat) : Nat × Nat :=
  let pattern_count := data.getD 2 0
  let track_count := data.getD 3 0
  let track_offset_idx := (4 + pattern_count * 2 + track_i * 2) % 65536
  let track_start := w4on2_u16be (data.drop track_offset_idx)
  let track_end := if (track_i : Int) < (track_count : Int) - 1 then
    w4on2_u16be (data.drop (track_offset_idx + 2)) else score_sz data
  (track_start, track_end)

/-- The common shape of the four delay branches of `w4on2_player_tick`. `ticks` is the delay
the opcode encodes, `size` its encoded size, `off` tells the NOTES_OFF variants. The boolean
of the result is `true` for `continue` and `false` for `break`. -/
def delay_branch (s : LoopSt) (track_i inner ticks size : Nat) (off : Bool) : Bool × LoopSt :=
  if s.pt.delay = 0 then
    (false, { s with pt := { s.pt with inner_data_i := inner, delay := ticks % 65536 } })
  else if (s.pt.delay - 1) % 65536 = 0 then
    (true, { pt := { s.pt with inner_data_i := (inner + size) % 65536, delay := 0 }
             rt := if off then (w4on2_rt_feed_event s.rt track_i [W4ON2_FMT_NOTES_OFF_ID]).1
               else s.rt
             log := if off then s.log ++ [Fed.notes_off track_i] else s.log })
  else
    (false, { s with pt := { s.pt with inner_data_i := inner,
                                       delay := (s.pt.delay - 1) % 65536 } })

/-- The body of the `while` loop of `w4on2_player_tick` for one track. The boolean of the
result is `true` when the loop goes on (`continue`, or the end of the body) and `false` on
`break`. -/
def track_body (data : List Nat) (track_i : Nat) (s : LoopSt) : Bool × LoopSt :=
  let ptn_i := data.getD s.pt.outer_data_i 0
  let ptn_start := (ptn_bounds data ptn_i).1
  let ptn_end := (ptn_bounds data ptn_i).2
  if s.pt.inner_data_i ≥ ptn_end then
    (true, { s with pt := { s.pt with inner_data_i := 0,
                                      outer_data_i := (s.pt.outer_data_i + 1) % 65536 } })
  else
    let inner := if s.pt.inner_data_i = 0 then ptn_start else s.pt.inner_data_i
    let cmd := data.getD inner 0
    if cmd = W4ON2_FMT_LONG_DELTA_ARG2_ID then
      delay_branch s track_i inner
        (w4on2_u16be (data.drop (inner + 1)) + W4ON2_FMT_SHORT_DELTA_2_COUNT + 1)
        W4ON2_FMT_LONG_DELTA_SIZE false
    else if cmd = W4ON2_FMT_LONG_DELTA_NOTES_OFF_ARG2_ID then
      delay_branch s track_i inner
        (w4on2_u16be (data.drop (inner + 1)) + W4ON2_FMT_SHORT_DELTA_NOTES_OFF_3_COUNT + 1)
        W4ON2_FMT_LONG_DELTA_NOTES_OFF_SIZE true
    else if cmd < W4ON2_FMT_SHORT_DELTA_2_START + W4ON2_FMT_SHORT_DELTA_2_COUNT then
      delay_branch s track_i inner (cmd - W4ON2_FMT_SHORT_DELTA_2_START + 1)
        W4ON2_FMT_SHORT_DELTA_SIZE false
    else if cmd < W4ON2_FMT_SHORT_DELTA_NOTES_OFF_3_START
        + W4ON2_FMT_SHORT_DELTA_NOTES_OFF_3_COUNT then
      delay_branch s track_i inner (cmd - W4ON2_FMT_SHORT_DELTA_NOTES_OFF_3_START + 1)
        W4ON2_FMT_SHORT_DELTA_NOTES_OFF_SIZE true
    else
      let r := w4on2_rt_feed_event s.rt track_i (data.drop inner)
      (true, { pt := { s.pt with inner_data_i := (inner + r.2) % 65536 }
               rt := r.1
               log := s.log ++ [Fed.event track_i ptn_i inner] })

/-- The `while (pt->outer_data_i < track_end)` loop of one track, with `fuel` bounding the
number of iterations; `none` when the fuel runs out. -/
def track_loop (data : List Nat) (track_i track_end : Nat) : Nat → LoopSt → Option LoopSt
  | 0, _ => none
  | fuel + 1, s =>
    if s.pt.outer_data_i < track_end then
      match track_body data track_i s with
      | (true, s1) => track_loop data track_i track_end fuel s1
      | (false, s1) => some s1
    else some s

/-- Result of a player tick: the player, the runtime, the returned count and the calls of
`w4on2_rt_feed_event` in the order they were made. -/
structure TickSt where
  p : Player
  rt : RT
  active_tracks : Nat
  log : List Fed
deriving DecidableEq, Repr

/-- The `// init track` step of `w4on2_player_tick`: an outer cursor 0 is set to the track
start. -/
def lazy_pt (data : List Nat) (track_i : Nat) (pt : PlayerTrack) : PlayerTrack :=
  if pt.outer_data_i = 0 then { pt with outer_data_i := (trk_bounds data track_i).1 } else pt

/-- The body of the `for` loop over the tracks in `w4on2_player_tick`. -/
def tick_track (fuel : Nat) (track_i : Nat) (st : TickSt) : Option TickSt :=
  let data := st.p.data
  let pt := st.p.tracks.getD track_i default
  let track_end := (trk_bounds data track_i).2
  let pt1 := lazy_pt data track_i pt
  let active := if pt1.outer_data_i < track_end then (st.active_tracks + 1) % 256
    else st.active_tracks
  match track_loop data track_i track_end fuel { pt := pt1, rt := st.rt, log := [] } with
  | none => none
  | some s => some { p := { st.p with tracks := st.p.tracks.set track_i s.pt }
                     rt := s.rt, active_tracks := active, log := st.log ++ s.log }

/-- The `for` loop over the tracks, as a recursion over the list of the track indices. -/
def tick_tracks (fuel : Nat) : List Nat → TickSt → Option TickSt
  | [], st => some st
  | i :: is, st =>
    match tick_track fuel i st with
    | none => none
    | some st1 => tick_tracks fuel is st1

/-- Source `w4on2_player_tick`; every `while` loop may run `fuel` iterations. -/
def w4on2_player_tick (fuel : Nat) (p : Player) (rt : RT) : Option TickSt :=
  let track_count := p.data.getD 3 0
  tick_tracks fuel (List.range track_count) { p := p, rt := rt, active_tracks := 0, log := [] }

/-- The track that made a call of `w4on2_rt_feed_event`. -/
def Fed.track : Fed → Nat
  | Fed.event track_i _ _ => track_i
  | Fed.notes_off track_i => track_i

/-- The result of tick number `m` (counted from 0) of a run of consecutive
`w4on2_player_tick` calls starting from `p`; `rts m` is the runtime the host passes to tick
`m`. -/
def player_run (fuel : Nat) (rts : Nat → RT) (p : Player) : Nat → Option TickSt
  | 0 => w4on2_player_tick fuel p (rts 0)
  | m + 1 =>
    match player_run fuel rts p m with
    | none => none
    | some st => w4on2_player_tick fuel st.p (rts (m + 1))

/-- Player states reachable from `w4on2_player_init data` by ticks that return, whatever the
runtime passed to each tick. -/
inductive PReach (data : List Nat) : Player → Prop
  | init : PReach data (w4on2_player_init data)
  | tick (p : Player) (rt : RT) (fuel : Nat) (st : TickSt) :
      PReach data p → w4on2_player_tick fuel p rt = some st → PReach data st.p

/-- The bytes from `pos` up to `e` are a sequence of complete events with opcodes in
0x00..0xF5 that ends exactly at `e`. -/
inductive Events (data : List Nat) (e : Nat) : Nat → Prop
  | done : Events data e e
  | step (pos : Nat) : pos < e → data.getD pos 0 ≤ 0xf5 →
      pos + opcode_table_size (data.getD pos 0) ≤ e →
      Events data e (pos + opcode_table_size (data.getD pos 0)) → Events data e pos

/-- Executable check of `Events`: at most `fuel` events from `pos` to `e`. -/
def events_ok (data : List Nat) (e : Nat) : Nat → Nat → Bool
  | 0, pos => pos == e
  | fuel + 1, pos =>
    if pos = e then true
    else decide (pos < e) && decide (data.getD pos 0 ≤ 0xf5)
      && decide (pos + opcode_table_size (data.getD pos 0) ≤ e)
      && events_ok data e fuel (pos + opcode_table_size (data.getD pos 0))

/-- Well-formed score: the array has the size its header states and holds bytes; at most 16
tracks; every track body lies inside the score, after offset 0, and lists valid pattern ids;
every pattern lies inside the score, after offset 0, holds at least one event and is a
sequence of complete events with opcodes in 0x00..0xF5 that ends exactly at the pattern's
end. -/
def score_wf (data : List Nat) : Prop :=
  data.length = score_sz data ∧ (∀ b ∈ data, b < 256) ∧ data.getD 3 0 ≤ W4ON2_TRACK_COUNT ∧
  (∀ i < data.getD 3 0,
    0 < (trk_bounds data i).1 ∧ (trk_bounds data i).1 ≤ (trk_bounds data i).2 ∧
    (trk_bounds data i).2 ≤ data.length ∧
    ∀ o < (trk_bounds data i).2, (trk_bounds data i).1 ≤ o → data.getD o 0 < data.getD 2 0) ∧
  (∀ j < data.getD 2 0,
    0 < (ptn_bounds data j).1 ∧ (ptn_bounds data j).1 < (ptn_bounds data j).2 ∧
    (ptn_bounds data j).2 ≤ data.length ∧
    events_ok data (ptn_bounds data j).2 (ptn_bounds data j).2 (ptn_bounds data j).1 = true)

instance (data : List Nat) : Decidable (score_wf data) := by
  unfold score_wf
  infer_instance

/-- Fuel that is enough for every loop of a tick on a well-formed score. -/
def player_fuel (data : List Nat) : Nat := (data.length + 1) * (data.length + 2)

/-- Invariant of the cursors of track `i` between loop iterations and between ticks. -/
def track_inv (data : List Nat) (i : Nat) (pt : PlayerTrack) : Prop :=
  (pt.outer_data_i = 0 → pt.inner_data_i = 0 ∧ pt.delay = 0) ∧
  (pt.outer_data_i ≠ 0 →
    (trk_bounds data i).1 ≤ pt.outer_data_i ∧ pt.outer_data_i ≤ (trk_bounds data i).2) ∧
  (pt.inner_data_i ≠ 0 →
    pt.outer_data_i < (trk_bounds data i).2 ∧
    (ptn_bounds data (data.getD pt.outer_data_i 0)).1 ≤ pt.inner_data_i ∧
    Events data (ptn_bounds data (data.getD pt.outer_data_i 0)).2 pt.inner_data_i) ∧
  (pt.delay ≠ 0 →
    pt.inner_data_i ≠ 0 ∧
    pt.inner_data_i < (ptn_bounds data (data.getD pt.outer_data_i 0)).2 ∧
    data.getD pt.inner_data_i 0 < 0x66)

/-- Invariant of the player: 16 cursor records, every played track satisfies `track_inv`. -/
def player_inv (data : List Nat) (p : Player) : Prop :=
  p.data = data ∧ p.tracks.length = W4ON2_TRACK_COUNT ∧
  ∀ i < data.getD 3 0, track_inv data i (p.tracks.getD i default)

/-- Termination measure of the event loop of track `i`. -/
def track_measure (data : List Nat) (i : Nat) (pt : PlayerTrack) : Nat :=
  ((trk_bounds data i).2 - pt.outer_data_i) * (data.length + 1)
    + (data.length - pt.inner_data_i)

/-- The outer cursor of a track as the tick sees it after the lazy initialisation. -/
def lazy_outer (data : List Nat) (i : Nat) (pt : PlayerTrack) : Nat :=
  if pt.outer_data_i = 0 then (trk_bounds data i).1 else pt.outer_data_i

/-- Number of tracks whose outer cursor, lazily initialised, is below the track end. -/
def count_active (p : Player) : Nat :=
  ((List.range (p.data.getD 3 0)).filter
    (fun i => decide (lazy_outer p.data i (p.tracks.getD i default) < (trk_bounds p.data i).2))).length

/-- Number of tracks whose outer cursor is below the track end, read off the cursors as they
are stored (the count claim C3 speaks of). -/
def count_below_end (p : Player) : Nat :=
  ((List.range (p.data.getD 3 0)).filter
    (fun i => decide ((p.tracks.getD i default).outer_data_i < (trk_bounds p.data i).2))).length

/-- A score whose only pattern is `NOTE_ON(60), SHORT_DELTA(1)`, played once by one track. -/
def note_delay_score : List Nat := [0, 11, 1, 1, 0, 8, 0, 10, 0x66 + 60, 0x02, 0]

/-- Scenario S5: one pattern `NOTE_ON(60), SHORT_DELTA_NOTES_OFF(10), SET_VOLUME(200),
SHORT_DELTA(1)` played once by one track. -/
def s5_score : List Nat :=
  [0, 14, 1, 1, 0, 8, 0, 13, 0x66 + 60, 0x34 + 9, 0xe8, 200, 0x02, 0]

/-- The host loop of section 2: `n` host ticks, each `w4on2_player_tick` followed by
`w4on2_rt_tick`; the result holds the player and the runtime after the last host tick. -/
def host_run (fuel : Nat) : Nat → Player → RT → Option (Player × RT)
  | 0, p, rt => some (p, rt)
  | n + 1, p, rt =>
    match w4on2_player_tick fuel p rt with
    | none => none
    | some st => host_run fuel n st.p (w4on2_rt_tick st.rt).1

/-- The cursor position the loop body works at: the pattern start on entering a pattern. -/
def eff_inner (data : List Nat) (pt : PlayerTrack) : Nat :=
  if pt.inner_data_i = 0 then (ptn_bounds data (data.getD pt.outer_data_i 0)).1
  else pt.inner_data_i

/-- The number of ticks a delay opcode at `pos` makes the player wait, before the `uint16_t`
truncation. -/
def delay_ticks (data : List Nat) (pos : Nat) : Nat :=
  if data.getD pos 0 ≤ 1 then w4on2_u16be (data.drop (pos + 1)) + 50 + 1
  else if data.getD pos 0 < 0x34 then data.getD pos 0 - 0x02 + 1
  else data.getD pos 0 - 0x34 + 1

/-- Whether the delay opcode `cmd` is a NOTES_OFF variant. -/
def delay_off (cmd : Nat) : Bool := decide (cmd = 1 ∨ 0x34 ≤ cmd)

/-- The effect of a SET event on the addressed track, written from the opcode table of
section 4.1 and the rules of section 4.3 of the specification: each opcode writes the fields it
names from the payload bytes `data[1..]`; SET_PAN rewrites bits 4-5 of `flags`. -/
def set_event_effect (cmd : Nat) (data : List Nat) (t : Track) : Track :=
  if cmd = 0xe7 then { t with flags := data.getD 1 0 }
  else if cmd = 0xe8 then { t with volume := data.getD 1 0 }
  else if 0xe9 ≤ cmd ∧ cmd ≤ 0xeb then
    { t with flags := ((t.flags &&& 0xcf) ||| ((cmd - 0xe9) <<< 4)) % 256 }
  else if cmd = 0xec then { t with velocity := data.getD 1 0 }
  else if cmd = 0xed then
    { t with a := data.getD 1 0, d := data.getD 2 0, s := data.getD 3 0, r := data.getD 4 0 }
  else if cmd = 0xee then { t with a := data.getD 1 0 }
  else if cmd = 0xef then { t with d := data.getD 1 0 }
  else if cmd = 0xf0 then { t with s := data.getD 1 0 }
  else if cmd = 0xf1 then { t with r := data.getD 1 0 }
  else if cmd = 0xf2 then { t with pe_offset := i8 (data.getD 1 0), pe_duration := data.getD 2 0 }
  else if cmd = 0xf3 then { t with arp_rate := data.getD 1 0 }
  else if cmd = 0xf4 then { t with portamento := data.getD 1 0 }
  else if cmd = 0xf5 then { t with vib_speed := data.getD 1 0, vib_depth := data.getD 2 0 }
  else t

/-- Every owned channel is the one its owner's flags address. -/
def osc_aligned (rt : RT) : Prop :=
  ∀ c, c < 4 → (rt.channels.getD c default).active_track_i < 16 →
    (rt.tracks.getD (rt.channels.getD c default).active_track_i default).flags &&& 3 = c

/-- States reachable from `w4on2_rt_init` by feeds (track index below 16, any bytes) and
ticks in which no SET_FLAGS event changes bits 0-1 of the flags of a track that owns a
channel. -/
inductive ReachableAligned : RT → Prop
  | init : ReachableAligned w4on2_rt_init
  | feed (rt : RT) (track_i : Nat) (data : List Nat) :
      ReachableAligned rt → track_i < W4ON2_TRACK_COUNT →
      (data.getD 0 0 = 0xe7 → ∀ c, c < 4 →
        (rt.channels.getD c default).active_track_i = track_i → data.getD 1 0 &&& 3 = c) →
      ReachableAligned (w4on2_rt_feed_event rt track_i data).1
  | tick (rt : RT) : ReachableAligned rt → ReachableAligned (w4on2_rt_tick rt).1

/-- A reachable state in which channels 0 and 1 are both owned by track 0: NOTE_ON(60),
then SET_FLAGS(1), then NOTE_ON(64), all on track 0. -/
def shared_osc_state : RT :=
  feed_all w4on2_rt_init 0 [[0x66 + 60], [0xe7, 1], [0x66 + 64]]

/-- The vibrato term that `w4on2_rt_tick` adds to `to_pitch` (w4on2.c line 124). -/
def vibrato_to (porta_ticks vib_speed vib_depth : Nat) : Int :=
  w4on2_triangle ((0x3fff + (porta_ticks + 1) * (vib_speed <<< 6)) % 4294967296 % 0xffff)
    ((vib_depth <<< 2 : Nat) : Int)

/-- The vibrato term that `w4on2_rt_tick` adds to `from_pitch` (w4on2.c line 123). -/
def vibrato_from (porta_ticks vib_speed vib_depth : Nat) : Int :=
  w4on2_triangle ((0x3fff + porta_ticks * (vib_speed <<< 6)) % 4294967296 &&& 0xffff)
    ((vib_depth <<< 2 : Nat) : Int)

/-- The vibrato formula of section 4.2 of the specification, written from its words:
`triangle((0x3FFF + porta_ticks * (vib_speed * 64)) mod 0x10000, vib_depth * 4)`. -/
def vibrato_spec (porta_ticks vib_speed vib_depth : Nat) : Int :=
  w4on2_triangle ((0x3fff + porta_ticks * (vib_speed * 64)) % 0x10000)
    ((vib_depth * 4 : Nat) : Int)

/-- A reachable state for the vibrato: SET_VIBRATO(64, 32) and NOTE_ON(60) on track 0, then
12 ticks, so that `porta_ticks = 12`. -/
def vibrato_state : RT :=
  rt_tick_n 12 (feed_all w4on2_rt_init 0 [[0xf5, 64, 32], [0x66 + 60]])

/-- A score whose only pattern is `LONG_DELTA(65486), NOTE_ON(60), SHORT_DELTA(1)`, played once
by one track. -/
def long_wrap_score : List Nat :=
  [0, 14, 1, 1, 0, 8, 0, 13, 0x00, 0xff, 0xce, 0x66 + 60, 0x02, 0]

/-- A score whose only pattern is `LONG_DELTA(0), NOTE_ON(60), SHORT_DELTA(1)`, played once by
one track. -/
def long_delay_score : List Nat :=
  [0, 14, 1, 1, 0, 8, 0, 13, 0x00, 0, 0, 0x66 + 60, 0x02, 0]

/-- The bytes of the event at offset `pos` of a score: as many as the size table of section 4.1
gives for its opcode. -/
def event_at (data : List Nat) (pos : Nat) : List Nat :=
  (data.drop pos).take (opcode_table_size (data.getD pos 0))

/-- The `k` events that start at offset `pos`, in stream order. -/
def events_from (data : List Nat) : Nat → Nat → List (List Nat)
  | 0, _ => []
  | k + 1, pos =>
    event_at data pos :: events_from data k (pos + opcode_table_size (data.getD pos 0))

/-- The offset right after the `k` events that start at offset `pos`. -/
def events_end (data : List Nat) : Nat → Nat → Nat
  | 0, pos => pos
  | k + 1, pos => events_end data k (pos + opcode_table_size (data.getD pos 0))

/-- The `k` events that start at offset `pos` are non-delay events (opcodes 0x66..0xF5). -/
def nondelay_run (data : List Nat) : Nat → Nat → Bool
  | 0, _ => true
  | k + 1, pos =>
    decide (0x66 ≤ data.getD pos 0) && decide (data.getD pos 0 ≤ 0xf5)
      && nondelay_run data k (pos + opcode_table_size (data.getD pos 0))

/-- A layout condition weaker than `score_wf`: the array holds the bytes of the score, whose
size the header states, and the score has at most 16 tracks; the header offsets lie inside the
score; every track body lists valid pattern ids; every pattern is a sequence of complete events
with opcodes in 0x00..0xF5 that ends exactly at the pattern's end. Unlike `score_wf`, a pattern
may be empty, an offset may be 0, and the array may be longer than the score. -/
def score_layout (data : List Nat) : Prop :=
  score_sz data ≤ data.length ∧ data.getD 3 0 ≤ W4ON2_TRACK_COUNT ∧
  (∀ i < data.getD 3 0,
    (trk_bounds data i).1 ≤ score_sz data ∧ (trk_bounds data i).2 ≤ score_sz data ∧
    ∀ o < (trk_bounds data i).2, (trk_bounds data i).1 ≤ o → data.getD o 0 < data.getD 2 0) ∧
  (∀ j < data.getD 2 0,
    (ptn_bounds data j).2 ≤ score_sz data ∧
    events_ok data (ptn_bounds data j).2 (ptn_bounds data j).2 (ptn_bounds data j).1 = true)

instance (data : List Nat) : Decidable (score_layout data) := by
  unfold score_layout
  infer_instance

/-- No empty pattern lies above offset 65530: the event the player reads at the start of an
empty pattern, at most 5 bytes long, cannot carry the `uint16_t` inner cursor past 65535. -/
def empty_patterns_low (data : List Nat) : Prop :=
  ∀ j < data.getD 2 0,
    (ptn_bounds data j).1 = (ptn_bounds data j).2 → (ptn_bounds data j).2 + 5 < 65536

instance (data : List Nat) : Decidable (empty_patterns_low data) := by
  unfold empty_patterns_low
  infer_instance

/-- Invariant of the cursors of track `i` at the head of a loop iteration, for `score_layout`
scores: the outer cursor is at or after the track start, and an inner cursor that is set and
below the end of the current pattern stands at the start of a complete event of it. -/
def layout_inv (data : List Nat) (i : Nat) (pt : PlayerTrack) : Prop :=
  (trk_bounds data i).1 ≤ pt.outer_data_i ∧
  (pt.inner_data_i ≠ 0 →
    pt.outer_data_i < (trk_bounds data i).2 ∧
    (pt.inner_data_i < (ptn_bounds data (data.getD pt.outer_data_i 0)).2 →
      Events data (ptn_bounds data (data.getD pt.outer_data_i 0)).2 pt.inner_data_i))

/-- Invariant of the player between ticks, for `score_layout` scores: 16 cursor records, and
the cursors of every played track satisfy `layout_inv` after the lazy initialisation. -/
def layout_player_inv (data : List Nat) (p : Player) : Prop :=
  p.data = data ∧ p.tracks.length = W4ON2_TRACK_COUNT ∧
  ∀ i < data.getD 3 0, layout_inv data i (lazy_pt data i (p.tracks.getD i default))

/-- The states at the head of the iterations of the event loop of track `i`, in a tick made on
a player state reachable from `w4on2_player_init data`: the loop starts from the lazily
initialised cursors with whatever runtime, and goes on after an iteration that does not
`break` while the outer cursor is below the track end. -/
inductive LoopReach (data : List Nat) (i : Nat) : LoopSt → Prop
  | start (p : Player) (rt : RT) : PReach data p →
      LoopReach data i { pt := lazy_pt data i (p.tracks.getD i default), rt := rt, log := [] }
  | step (s : LoopSt) : LoopReach data i s → s.pt.outer_data_i < (trk_bounds data i).2 →
      (track_body data i s).1 = true → LoopReach data i (track_body data i s).2

/-- The iteration leaves the loop on a delay: the opcode under the cursor is a delay opcode,
the body ends in `break`, and the cursors stay on the opcode. -/
def breaks_on_delay (data : List Nat) (i : Nat) (s : LoopSt) : Prop :=
  (track_body data i s).1 = false ∧ data.getD (eff_inner data s.pt) 0 < 0x66 ∧
  (track_body data i s).2.pt.outer_data_i = s.pt.outer_data_i ∧
  (track_body data i s).2.pt.inner_data_i = eff_inner data s.pt

/-- The iteration goes on with a strictly advanced cursor: the outer cursor has moved to the
next pattern id, or the outer cursor is the same and the inner cursor is larger. -/
def advances (data : List Nat) (i : Nat) (s : LoopSt) : Prop :=
  (track_body data i s).1 = true ∧
  ((track_body data i s).2.pt.outer_data_i = s.pt.outer_data_i + 1 ∨
    ((track_body data i s).2.pt.outer_data_i = s.pt.outer_data_i ∧
      s.pt.inner_data_i < (track_body data i s).2.pt.inner_data_i))

/-- A score with an empty pattern: pattern 0 is empty at offset 10, pattern 1 is `NOTE_ON(60),
SHORT_DELTA(1)` at offsets 10..11, and the one track plays pattern 0, then pattern 1. -/
def empty_pattern_score : List Nat :=
  [0, 14, 2, 1, 0, 10, 0, 10, 0, 12, 0x66 + 60, 0x02, 0, 1]

/-- A table of `n` big-endian offsets, all 65534 (0xFF, 0xFE). -/
def offsets_table : Nat → List Nat
  | 0 => []
  | n + 1 => 0xff :: 0xfe :: offsets_table n

/-- The header of `wrap_score`: size 65535, 232 patterns, 1 track, every pattern offset and
the track offset 65534. -/
def wrap_header : List Nat := [0xff, 0xff, 232, 1] ++ offsets_table 233

/-- A score of 65535 bytes, held in an array with one more byte, whose 232 patterns are all
empty at offset 65534 and whose one track has the body `[231]` at offset 65534; the bytes
between the header and the track body are filler. The pattern id 231 is also the opcode 0xE7
(SET_FLAGS, size 2), whose payload is the byte after the score. -/
def wrap_score : List Nat := wrap_header ++ (List.replicate 65064 0x02 ++ [0xe7, 0])

/-- The call of `w4on2_rt_feed_event` that a log entry stands for, applied to a runtime: the
event at offset `pos` of the score (the pointer `&p->data[pos]`), or the one-byte NOTES_OFF
event the player synthesizes. -/
def apply_fed (data : List Nat) (rt : RT) : Fed → RT
  | Fed.event track_i _ pos => (w4on2_rt_feed_event rt track_i (data.drop pos)).1
  | Fed.notes_off track_i => (w4on2_rt_feed_event rt track_i [W4ON2_FMT_NOTES_OFF_ID]).1

/-- The runtime obtained from `rt` by making the calls of a log in order. -/
def replay (data : List Nat) (rt : RT) (log : List Fed) : RT :=
  log.foldl (apply_fed data) rt

/-- The player after ticks `0..m` of a run from `p` (the player itself if the run does not
return). -/
def player_after (fuel : Nat) (rts : Nat → RT) (p : Player) (m : Nat) : Player :=
  match player_run fuel rts p m with
  | some st => st.p
  | none => p

/-- A score whose only pattern is `NOTE_ON(60), SHORT_DELTA(2), NOTE_ON(62), LONG_DELTA(0),
NOTE_ON(64), SHORT_DELTA(1)`, played once by one track: the long delay comes after an earlier
delay. -/
def long_after_short_score : List Nat :=
  [0, 17, 1, 1, 0, 8, 0, 16, 0x66 + 60, 0x03, 0x66 + 62, 0x00, 0, 0, 0x66 + 64, 0x02, 0]

/-! ## Basic facts about the embedding -/

/-- Values of the format constants, in the form the arithmetic decision procedure consumes. -/
theorem fmt_val :
    W4ON2_FMT_LONG_DELTA_ARG2_ID = 0 ∧ W4ON2_FMT_LONG_DELTA_NOTES_OFF_ARG2_ID = 1 ∧
    W4ON2_FMT_SHORT_DELTA_2_START = 2 ∧ W4ON2_FMT_SHORT_DELTA_2_COUNT = 50 ∧
    W4ON2_FMT_SHORT_DELTA_NOTES_OFF_3_START = 52 ∧ W4ON2_FMT_SHORT_DELTA_NOTES_OFF_3_COUNT = 50 ∧
    W4ON2_FMT_NOTE_ON_4_START = 102 ∧ W4ON2_FMT_NOTE_ON_4_COUNT = 128 ∧
    W4ON2_FMT_NOTES_OFF_ID = 230 ∧ W4ON2_FMT_SET_FLAGS_ARG1_ID = 231 ∧
    W4ON2_FMT_SET_VOLUME_ARG1_ID = 232 ∧ W4ON2_FMT_SET_PAN_8_START = 233 ∧
    W4ON2_FMT_SET_PAN_8_COUNT = 3 ∧ W4ON2_FMT_SET_VELOCITY_ARG1_ID = 236 ∧
    W4ON2_FMT_SET_ADSR_ARG4_ID = 237 ∧ W4ON2_FMT_SET_A_ARG1_ID = 238 ∧
    W4ON2_FMT_SET_D_ARG1_ID = 239 ∧ W4ON2_FMT_SET_S_ARG1_ID = 240 ∧
    W4ON2_FMT_SET_R_ARG1_ID = 241 ∧ W4ON2_FMT_SET_PITCH_ENV_ARG2_ID = 242 ∧
    W4ON2_FMT_SET_ARP_RATE_ARG1_ID = 243 ∧ W4ON2_FMT_SET_PORTAMENTO_ARG1_ID = 244 ∧
    W4ON2_FMT_SET_VIBRATO_ARG2_ID = 245 := by decide

theorem getD_set_self {α : Type} (l : List α) (i : Nat) (x d : α) (h : i < l.length) :
    (l.set i x).getD i d = x := by
  simp [List.getD_eq_getElem?_getD, List.getElem?_set, h]

theorem getD_set_other {α : Type} (l : List α) (i j : Nat) (x d : α) (h : i ≠ j) :
    (l.set i x).getD j d = l.getD j d := by
  simp [List.getD_eq_getElem?_getD, List.getElem?_set, h]

theorem land3_lt (n : Nat) : n &&& 0x3 < 4 := by
  have h : n &&& 3 ≤ 3 := Nat.and_le_right
  omega

/-- A delay opcode fed to the runtime changes nothing. -/
theorem feed_delay (rt : RT) (track_i cmd : Nat) (rest : List Nat) (h : cmd < 0x66) :
    w4on2_rt_feed_event rt track_i (cmd :: rest) = (rt, if cmd ≤ 1 then 3 else 1) := by
  have hc := fmt_val
  unfold w4on2_rt_feed_event
  simp only [List.getD_cons_zero]
  by_cases h0 : cmd = 0
  · simp (disch := omega) only [if_neg, if_pos, if_true, if_false]
  by_cases h1 : cmd = 1
  · simp (disch := omega) only [if_neg, if_pos, if_true, if_false]
  by_cases h2 : cmd < 52
  · simp (disch := omega) only [if_neg, if_pos, if_true, if_false]
  · simp (disch := omega) only [if_neg, if_pos, if_true, if_false]

/-- The NOTE_ON branch. -/
theorem feed_note_on (rt : RT) (track_i cmd : Nat) (rest : List Nat)
    (h1 : 0x66 ≤ cmd) (h2 : cmd < 0xe6) :
    w4on2_rt_feed_event rt track_i (cmd :: rest) =
      ({ rt with
          channels := rt.channels.set ((rt.tracks.getD track_i default).flags &&& 0x3)
            (note_on (rt.channels.getD ((rt.tracks.getD track_i default).flags &&& 0x3) default)
              track_i cmd) }, 1) := by
  have hc := fmt_val
  unfold w4on2_rt_feed_event
  simp (disch := omega) only [List.getD_cons_zero, if_neg, if_pos, if_true, if_false]

/-- The NOTES_OFF branch. -/
theorem feed_notes_off (rt : RT) (track_i : Nat) (rest : List Nat) :
    w4on2_rt_feed_event rt track_i (0xe6 :: rest) =
      ({ rt with
          channels := rt.channels.set ((rt.tracks.getD track_i default).flags &&& 0x3)
            (notes_off (rt.tracks.getD track_i default)
              (rt.channels.getD ((rt.tracks.getD track_i default).flags &&& 0x3) default)) },
        1) := by
  have hc := fmt_val
  unfold w4on2_rt_feed_event
  simp (disch := omega) only [List.getD_cons_zero, if_neg, if_pos, if_true, if_false]

/-- The SET events and the reserved bytes leave the channels alone. -/
theorem feed_set_channels (rt : RT) (track_i cmd : Nat) (rest : List Nat) (h : 0xe7 ≤ cmd) :
    (w4on2_rt_feed_event rt track_i (cmd :: rest)).1.channels = rt.channels := by
  have hc := fmt_val
  unfold w4on2_rt_feed_event
  simp only [List.getD_cons_zero]
  have hb : cmd = 0xe7 ∨ cmd = 0xe8 ∨ (0xe9 ≤ cmd ∧ cmd ≤ 0xeb) ∨ cmd = 0xec ∨ cmd = 0xed
      ∨ cmd = 0xee ∨ cmd = 0xef ∨ cmd = 0xf0 ∨ cmd = 0xf1 ∨ cmd = 0xf2 ∨ cmd = 0xf3
      ∨ cmd = 0xf4 ∨ cmd = 0xf5 ∨ 0xf6 ≤ cmd := by omega
  rcases hb with h | h | h | h | h | h | h | h | h | h | h | h | h | h <;>
    simp (disch := omega) only [if_neg, if_pos, if_true, if_false]

/-- The size returned by `w4on2_rt_feed_event` depends on the opcode only and is the size of
the table. -/
theorem feed_size (rt : RT) (track_i b : Nat) (payload : List Nat) :
    (w4on2_rt_feed_event rt track_i (b :: payload)).2 = opcode_table_size b := by
  by_cases hb : b < 256
  · interval_cases b <;> rfl
  · have hc := fmt_val
    unfold w4on2_rt_feed_event opcode_table_size
    simp (disch := omega) only [List.getD_cons_zero, if_neg, if_pos, if_true, if_false]

theorem lim_val :
    W4ON2_TRACK_COUNT = 16 ∧ W4ON2_CHANNEL_COUNT = 4 ∧ W4ON2_MAX_NOTES = 8 := by decide

theorem shift_keys_eight (k0 k1 k2 k3 k4 k5 k6 k7 : Nat) :
    shift_keys [k0, k1, k2, k3, k4, k5, k6, k7] = [k1, k2, k3, k4, k5, k6, k7, k7] := by
  rfl

theorem shift_keys_length (ks : List Nat) : (shift_keys ks).length = ks.length := by
  unfold shift_keys
  generalize List.range (W4ON2_MAX_NOTES - 1) = is
  induction is generalizing ks with
  | nil => rfl
  | cons i is ih => simp only [List.foldl_cons]; rw [ih]; simp

theorem note_on_count (ch : Channel) (track_i cmd : Nat) (h : ch.active_key_count ≤ 8) :
    (note_on ch track_i cmd).active_key_count ≤ 8 := by
  have hl := lim_val
  unfold note_on
  simp only []
  split_ifs <;> (try simp only []) <;> omega

theorem note_on_keys_length (ch : Channel) (track_i cmd : Nat) :
    (note_on ch track_i cmd).note_keys.length = ch.note_keys.length := by
  unfold note_on
  simp only []
  split_ifs <;> simp [shift_keys_length]

theorem notes_off_count (t : Track) (ch : Channel) : (notes_off t ch).active_key_count = 0 := by
  unfold notes_off
  split_ifs <;> simp_all

theorem notes_off_keys_length (t : Track) (ch : Channel) :
    (notes_off t ch).note_keys.length = ch.note_keys.length := by
  unfold notes_off
  split_ifs <;> simp

theorem channel_advance_count (ch : Channel) :
    (channel_advance ch).active_key_count = ch.active_key_count ∧
    (channel_advance ch).note_keys = ch.note_keys ∧
    (channel_advance ch).active_track_i = ch.active_track_i := by
  unfold channel_advance
  simp only []
  split_ifs <;> simp

/-! ## Claim C1: returned sizes -/

/-- C1: for every leading byte, every track index and every runtime state,
`w4on2_rt_feed_event` returns the size the opcode table gives: 3 for 0x00 and 0x01, 1 for
0x02..0xE6 and 0xE9..0xEB, 2 for 0xE7, 0xE8, 0xEC, 0xEE..0xF1, 0xF3, 0xF4, 5 for 0xED, 3 for 0xF2
and 0xF5, and 0 for the reserved bytes 0xF6..0xFF. -/
theorem feed_event_size (rt : RT) (track_i b : Nat) (payload : List Nat) :
    ((b = 0x00 ∨ b = 0x01) → (w4on2_rt_feed_event rt track_i (b :: payload)).2 = 3) ∧
    (((0x02 ≤ b ∧ b ≤ 0xe6) ∨ (0xe9 ≤ b ∧ b ≤ 0xeb)) →
      (w4on2_rt_feed_event rt track_i (b :: payload)).2 = 1) ∧
    ((b = 0xe7 ∨ b = 0xe8 ∨ b = 0xec ∨ (0xee ≤ b ∧ b ≤ 0xf1) ∨ b = 0xf3 ∨ b = 0xf4) →
      (w4on2_rt_feed_event rt track_i (b :: payload)).2 = 2) ∧
    (b = 0xed → (w4on2_rt_feed_event rt track_i (b :: payload)).2 = 5) ∧
    ((b = 0xf2 ∨ b = 0xf5) → (w4on2_rt_feed_event rt track_i (b :: payload)).2 = 3) ∧
    ((0xf6 ≤ b ∧ b ≤ 0xff) → (w4on2_rt_feed_event rt track_i (b :: payload)).2 = 0) := by
  rw [feed_size]
  unfold opcode_table_size
  refine ⟨?_, ?_, ?_, ?_, ?_, ?_⟩ <;> intro h <;>
    simp (disch := omega) only [if_neg, if_pos, if_true, if_false]

theorem rt_tick_four (tracks : List Track) (c0 c1 c2 c3 : Channel) :
    w4on2_rt_tick { tracks := tracks, channels := [c0, c1, c2, c3] } =
      ({ tracks := tracks, channels := [tick_channel_state c0, tick_channel_state c1,
          tick_channel_state c2, tick_channel_state c3] },
        (tick_channel_tones ⟨tracks, [c0, c1, c2, c3]⟩ c0).map (fun c => (0, c)) ++
        (tick_channel_tones ⟨tracks, [c0, c1, c2, c3]⟩ c1).map (fun c => (1, c)) ++
        (tick_channel_tones ⟨tracks, [c0, c1, c2, c3]⟩ c2).map (fun c => (2, c)) ++
        (tick_channel_tones ⟨tracks, [c0, c1, c2, c3]⟩ c3).map (fun c => (3, c))) := by
  have hr : List.range W4ON2_CHANNEL_COUNT = [0, 1, 2, 3] := by decide
  unfold w4on2_rt_tick
  rw [hr]
  simp only [List.foldl_cons, List.foldl_nil, w4on2_rt_tick_channel, tick_channel_state,
    tick_channel_tones]
  by_cases h0 : c0.active_track_i ≥ W4ON2_TRACK_COUNT <;>
  by_cases h1 : c1.active_track_i ≥ W4ON2_TRACK_COUNT <;>
  by_cases h2 : c2.active_track_i ≥ W4ON2_TRACK_COUNT <;>
  by_cases h3 : c3.active_track_i ≥ W4ON2_TRACK_COUNT <;>
  simp [h0, h1, h2, h3]

theorem length_four {α : Type} (l : List α) (h : l.length = 4) :
    ∃ a b c d, l = [a, b, c, d] := by
  match l, h with
  | [a, b, c, d], _ => exact ⟨a, b, c, d, rfl⟩

theorem rt_tick_state (rt : RT) (h : rt.channels.length = 4) :
    (w4on2_rt_tick rt).1 = { rt with channels := rt.channels.map tick_channel_state } := by
  obtain ⟨tracks, channels⟩ := rt
  obtain ⟨c0, c1, c2, c3, rfl⟩ := length_four channels h
  rw [rt_tick_four]
  rfl

theorem filter_map_tag (c i : Nat) (l : List ToneCall) :
    ((l.map (fun x => (i, x))).filter (fun e => decide (e.1 = c))).map (fun e => e.2) =
      if i = c then l else [] := by
  induction l with
  | nil => simp
  | cons x xs ih =>
    by_cases hic : i = c
    · simp only [hic, if_true] at ih ⊢
      simp [ih]
    · simp only [hic, if_false] at ih ⊢
      simp [hic, ih]

theorem rt_tick_tones (rt : RT) (h : rt.channels.length = 4) (c : Nat) (hc : c < 4) :
    tones_of c (w4on2_rt_tick rt).2 = tick_channel_tones rt (rt.channels.getD c default) := by
  obtain ⟨tracks, channels⟩ := rt
  obtain ⟨c0, c1, c2, c3, rfl⟩ := length_four channels h
  rw [rt_tick_four]
  simp only [tones_of, List.filter_append, List.map_append, filter_map_tag]
  interval_cases c <;> simp

theorem feed_nil (rt : RT) (track_i : Nat) :
    w4on2_rt_feed_event rt track_i [] = (rt, 3) := by
  rfl

theorem feed_set_tracks_length (rt : RT) (track_i cmd : Nat) (rest : List Nat) (h : 0xe7 ≤ cmd) :
    (w4on2_rt_feed_event rt track_i (cmd :: rest)).1.tracks.length = rt.tracks.length := by
  have hc := fmt_val
  unfold w4on2_rt_feed_event
  simp only [List.getD_cons_zero]
  have hb : cmd = 0xe7 ∨ cmd = 0xe8 ∨ (0xe9 ≤ cmd ∧ cmd ≤ 0xeb) ∨ cmd = 0xec ∨ cmd = 0xed
      ∨ cmd = 0xee ∨ cmd = 0xef ∨ cmd = 0xf0 ∨ cmd = 0xf1 ∨ cmd = 0xf2 ∨ cmd = 0xf3
      ∨ cmd = 0xf4 ∨ cmd = 0xf5 ∨ 0xf6 ≤ cmd := by omega
  rcases hb with h | h | h | h | h | h | h | h | h | h | h | h | h | h <;>
    simp (disch := omega) only [if_neg, if_pos, if_true, if_false, List.length_set]


theorem key_inv_set (rt : RT) (i : Nat) (ch : Channel) (h : key_inv rt)
    (h1 : ch.active_key_count ≤ 8) (h2 : ch.note_keys.length = 8) :
    key_inv { rt with channels := rt.channels.set i ch } := by
  obtain ⟨⟨ht, hcl, hk⟩, hn⟩ := h
  refine ⟨⟨ht, ?_, ?_⟩, ?_⟩
  · simpa using hcl
  · intro c hc
    rcases List.mem_or_eq_of_mem_set hc with h | h
    · exact hk c h
    · rw [h]; exact h2
  · intro c hc
    rcases List.mem_or_eq_of_mem_set hc with h | h
    · exact hn c h
    · rw [h]; exact h1

theorem getD_inv (rt : RT) (i : Nat) (h : key_inv rt) :
    (rt.channels.getD i default).active_key_count ≤ 8 ∧
    (i < 4 → (rt.channels.getD i default).note_keys.length = 8) := by
  obtain ⟨⟨_, hcl, hk⟩, hn⟩ := h
  by_cases hi : i < rt.channels.length
  · have hm : rt.channels.getD i default ∈ rt.channels := by
      rw [List.getD_eq_getElem _ _ hi]
      exact List.getElem_mem hi
    exact ⟨hn _ hm, fun _ => hk _ hm⟩
  · have : rt.channels.getD i default = default := by
      rw [List.getD_eq_default]
      omega
    rw [this]
    refine ⟨by decide, fun h4 => ?_⟩
    have : W4ON2_CHANNEL_COUNT = 4 := rfl
    omega

theorem key_inv_feed (rt : RT) (track_i : Nat) (data : List Nat) (h : key_inv rt) :
    key_inv (w4on2_rt_feed_event rt track_i data).1 := by
  cases data with
  | nil => rw [feed_nil]; exact h
  | cons cmd rest =>
    have hg := getD_inv rt ((rt.tracks.getD track_i default).flags &&& 0x3) h
    have h4 := land3_lt (rt.tracks.getD track_i default).flags
    by_cases h1 : cmd < 0x66
    · rw [feed_delay rt track_i cmd rest h1]; exact h
    by_cases h2 : cmd < 0xe6
    · rw [feed_note_on rt track_i cmd rest (by omega) h2]
      apply key_inv_set rt _ _ h
      · exact note_on_count _ _ _ hg.1
      · rw [note_on_keys_length]; exact hg.2 h4
    by_cases h3 : cmd = 0xe6
    · subst h3
      rw [feed_notes_off]
      apply key_inv_set rt _ _ h
      · rw [notes_off_count]; omega
      · rw [notes_off_keys_length]; exact hg.2 h4
    · have hch := feed_set_channels rt track_i cmd rest (by omega)
      have htl := feed_set_tracks_length rt track_i cmd rest (by omega)
      obtain ⟨⟨ht, hcl, hk⟩, hn⟩ := h
      refine ⟨⟨?_, ?_, ?_⟩, ?_⟩
      · rw [htl]; exact ht
      · rw [hch]; exact hcl
      · rw [hch]; exact hk
      · rw [hch]; exact hn

theorem tick_channel_state_same (ch : Channel) :
    (tick_channel_state ch).active_key_count = ch.active_key_count ∧
    (tick_channel_state ch).note_keys = ch.note_keys ∧
    (tick_channel_state ch).active_track_i = ch.active_track_i := by
  unfold tick_channel_state
  split_ifs
  · exact ⟨rfl, rfl, rfl⟩
  · exact channel_advance_count ch

theorem key_inv_tick (rt : RT) (h : key_inv rt) : key_inv (w4on2_rt_tick rt).1 := by
  obtain ⟨⟨ht, hcl, hk⟩, hn⟩ := h
  rw [rt_tick_state rt hcl]
  refine ⟨⟨ht, by simpa using hcl, ?_⟩, ?_⟩
  · intro c hc
    obtain ⟨c0, hc0, rfl⟩ := List.mem_map.1 hc
    rw [(tick_channel_state_same c0).2.1]
    exact hk c0 hc0
  · intro c hc
    obtain ⟨c0, hc0, rfl⟩ := List.mem_map.1 hc
    rw [(tick_channel_state_same c0).1]
    exact hn c0 hc0

theorem key_inv_init : key_inv w4on2_rt_init := by
  unfold key_inv
  decide

theorem reachable_key_inv (rt : RT) (h : Reachable rt) : key_inv rt := by
  induction h with
  | init => exact key_inv_init
  | feed rt track_i data _ _ ih => exact key_inv_feed rt track_i data ih
  | tick rt _ ih => exact key_inv_tick rt ih

/-! ## Claim C6: the key-count bound -/

/-- C6: in every runtime state reachable from `w4on2_rt_init` through any sequence of
`w4on2_rt_feed_event` calls (track index below 16, any event bytes) and `w4on2_rt_tick` calls,
there are exactly 4 channels and each of them has `active_key_count ≤ 8`. -/
theorem reachable_key_count_le (rt : RT) (h : Reachable rt) :
    rt.channels.length = 4 ∧
    ∀ c, c < 4 → (rt.channels.getD c default).active_key_count ≤ 8 := by
  have hi := reachable_key_inv rt h
  exact ⟨hi.1.2.1, fun c _ => (getD_inv rt c hi).1⟩

/-- Witness for C6: the state reached by nine NOTE_ON events on track 0 and one tick. -/
theorem reachable_key_count_le_witness :
    Reachable (w4on2_rt_tick (feed_all w4on2_rt_init 0
      [[0x66 + 60], [0x66 + 61], [0x66 + 62], [0x66 + 63], [0x66 + 64], [0x66 + 65],
       [0x66 + 66], [0x66 + 67], [0x66 + 68]])).1 ∧
    (w4on2_rt_tick (feed_all w4on2_rt_init 0
      [[0x66 + 60], [0x66 + 61], [0x66 + 62], [0x66 + 63], [0x66 + 64], [0x66 + 65],
       [0x66 + 66], [0x66 + 67], [0x66 + 68]])).1.channels.length = 4 ∧
    ∀ c, c < 4 → ((w4on2_rt_tick (feed_all w4on2_rt_init 0
      [[0x66 + 60], [0x66 + 61], [0x66 + 62], [0x66 + 63], [0x66 + 64], [0x66 + 65],
       [0x66 + 66], [0x66 + 67], [0x66 + 68]])).1.channels.getD c default).active_key_count
        ≤ 8 :=
  have hr : Reachable (w4on2_rt_tick (feed_all w4on2_rt_init 0
      [[0x66 + 60], [0x66 + 61], [0x66 + 62], [0x66 + 63], [0x66 + 64], [0x66 + 65],
       [0x66 + 66], [0x66 + 67], [0x66 + 68]])).1 := by
    apply Reachable.tick
    simp only [feed_all]
    repeat (first | exact Reachable.init | (apply Reachable.feed _ _ _ _ (by decide)))
  ⟨hr, reachable_key_count_le _ hr⟩

/-! ## Claim C7: key overflow -/

/-- C7 as stated fails: channel 0 of `overflow_state` holds 8 keys and is owned by track 0, yet
NOTE_ON(68) on track 0 leaves its keys untouched, because the event is routed by the flags of
track 0, which select channel 1. -/
theorem note_on_overflow_counterexample :
    (overflow_state.channels.getD 0 default).active_track_i = 0 ∧
    (overflow_state.channels.getD 0 default).active_key_count = 8 ∧
    (overflow_state.channels.getD 0 default).note_keys = [60, 61, 62, 63, 64, 65, 66, 67] ∧
    ((w4on2_rt_feed_event overflow_state 0 [0x66 + 68]).1.channels.getD 0 default).note_keys
      = [60, 61, 62, 63, 64, 65, 66, 67] ∧
    ((w4on2_rt_feed_event overflow_state 0 [0x66 + 68]).1.channels.getD 0 default).note_keys
      ≠ [61, 62, 63, 64, 65, 66, 67, 68] := by
  decide

/-- C7 (amended): if the channel addressed by track `t` (`tracks[t].flags & 3`) is owned by `t`
and holds the 8 keys `[k0, ..., k7]`, then NOTE_ON(`key`) on `t` leaves that channel with
`active_key_count = 8`, `note_keys = [k1, ..., k7, key]`, `first_trigger_ticks` unchanged and
`last_trigger_ticks = 0`. -/
theorem note_on_overflow (rt : RT) (t key : Nat) (rest : List Nat)
    (k0 k1 k2 k3 k4 k5 k6 k7 : Nat)
    (hlen : rt.channels.length = 4) (hkey : key < 128)
    (hown : (rt.channels.getD ((rt.tracks.getD t default).flags &&& 0x3) default).active_track_i
      = t)
    (hcnt : (rt.channels.getD ((rt.tracks.getD t default).flags &&& 0x3) default).active_key_count
      = 8)
    (hkeys : (rt.channels.getD ((rt.tracks.getD t default).flags &&& 0x3) default).note_keys
      = [k0, k1, k2, k3, k4, k5, k6, k7]) :
    ((w4on2_rt_feed_event rt t ((0x66 + key) :: rest)).1.channels.getD
        ((rt.tracks.getD t default).flags &&& 0x3) default).active_key_count = 8 ∧
    ((w4on2_rt_feed_event rt t ((0x66 + key) :: rest)).1.channels.getD
        ((rt.tracks.getD t default).flags &&& 0x3) default).note_keys
      = [k1, k2, k3, k4, k5, k6, k7, key] ∧
    ((w4on2_rt_feed_event rt t ((0x66 + key) :: rest)).1.channels.getD
        ((rt.tracks.getD t default).flags &&& 0x3) default).first_trigger_ticks
      = (rt.channels.getD ((rt.tracks.getD t default).flags &&& 0x3)
          default).first_trigger_ticks ∧
    ((w4on2_rt_feed_event rt t ((0x66 + key) :: rest)).1.channels.getD
        ((rt.tracks.getD t default).flags &&& 0x3) default).last_trigger_ticks = 0 := by
  have h4 := land3_lt (rt.tracks.getD t default).flags
  rw [feed_note_on rt t (0x66 + key) rest (by omega) (by omega)]
  simp only []
  rw [getD_set_self _ _ _ _ (by omega)]
  generalize rt.channels.getD ((rt.tracks.getD t default).flags &&& 0x3) default = ch at *
  obtain ⟨ftt, ltt, ati, akc, nk⟩ := ch
  simp only [] at hown hcnt hkeys
  subst hown hcnt hkeys
  have hk : (102 + key - 102) % 256 = key := by omega
  simp [note_on, shift_keys_eight, hk]
  omega

/-- Witness for C7 (amended): the ninth NOTE_ON of scenario S4 on a fresh runtime. -/
theorem note_on_overflow_witness :
    ((w4on2_rt_feed_event (feed_all w4on2_rt_init 0
        [[0x66 + 60], [0x66 + 61], [0x66 + 62], [0x66 + 63], [0x66 + 64], [0x66 + 65],
         [0x66 + 66], [0x66 + 67]]) 0 [0x66 + 68]).1.channels.getD 0 default).active_key_count
      = 8 ∧
    ((w4on2_rt_feed_event (feed_all w4on2_rt_init 0
        [[0x66 + 60], [0x66 + 61], [0x66 + 62], [0x66 + 63], [0x66 + 64], [0x66 + 65],
         [0x66 + 66], [0x66 + 67]]) 0 [0x66 + 68]).1.channels.getD 0 default).note_keys
      = [61, 62, 63, 64, 65, 66, 67, 68] :=
  have h := note_on_overflow (feed_all w4on2_rt_init 0
        [[0x66 + 60], [0x66 + 61], [0x66 + 62], [0x66 + 63], [0x66 + 64], [0x66 + 65],
         [0x66 + 66], [0x66 + 67]]) 0 68 [] 60 61 62 63 64 65 66 67
        (by decide) (by decide) (by decide) (by decide) (by decide)
  ⟨h.1, h.2.1⟩

/-! ## Claim C8: channel take-over -/

/-- C8: if the channel `c = tracks[t].flags & 3` addressed by track `t` is not owned by `t`,
NOTE_ON(`key`) on `t` leaves channel `c` with `active_track_i = t`, `active_key_count = 1`,
`note_keys[0] = key`, both tick counters 0, and leaves the other channels and all tracks
unchanged. -/
theorem note_on_takeover (rt : RT) (t key : Nat) (rest : List Nat)
    (hwf : rt.wf) (hkey : key < 128)
    (hne : (rt.channels.getD ((rt.tracks.getD t default).flags &&& 0x3) default).active_track_i
      ≠ t) :
    ((w4on2_rt_feed_event rt t ((0x66 + key) :: rest)).1.channels.getD
        ((rt.tracks.getD t default).flags &&& 0x3) default).active_track_i = t ∧
    ((w4on2_rt_feed_event rt t ((0x66 + key) :: rest)).1.channels.getD
        ((rt.tracks.getD t default).flags &&& 0x3) default).active_key_count = 1 ∧
    ((w4on2_rt_feed_event rt t ((0x66 + key) :: rest)).1.channels.getD
        ((rt.tracks.getD t default).flags &&& 0x3) default).note_keys.getD 0 0 = key ∧
    ((w4on2_rt_feed_event rt t ((0x66 + key) :: rest)).1.channels.getD
        ((rt.tracks.getD t default).flags &&& 0x3) default).first_trigger_ticks = 0 ∧
    ((w4on2_rt_feed_event rt t ((0x66 + key) :: rest)).1.channels.getD
        ((rt.tracks.getD t default).flags &&& 0x3) default).last_trigger_ticks = 0 ∧
    (w4on2_rt_feed_event rt t ((0x66 + key) :: rest)).1.channels.length = 4 ∧
    (∀ c, c ≠ ((rt.tracks.getD t default).flags &&& 0x3) →
      (w4on2_rt_feed_event rt t ((0x66 + key) :: rest)).1.channels.getD c default
        = rt.channels.getD c default) ∧
    (w4on2_rt_feed_event rt t ((0x66 + key) :: rest)).1.tracks = rt.tracks := by
  have h4 := land3_lt (rt.tracks.getD t default).flags
  obtain ⟨_, hcl, hk⟩ := hwf
  have hcl4 : rt.channels.length = 4 := hcl
  have hm : rt.channels.getD ((rt.tracks.getD t default).flags &&& 0x3) default
      ∈ rt.channels := by
    rw [List.getD_eq_getElem _ _ (by omega)]
    exact List.getElem_mem _
  have hkl := hk _ hm
  rw [feed_note_on rt t (0x66 + key) rest (by omega) (by omega)]
  simp only []
  rw [getD_set_self _ _ _ _ (by omega)]
  refine ⟨?_, ?_, ?_, ?_, ?_, ?_, ?_, trivial⟩
  case refine_6 => simpa using hcl4
  case refine_7 =>
    intro c hc
    exact getD_set_other _ _ _ _ _ (Ne.symm hc)
  all_goals
    generalize rt.channels.getD ((rt.tracks.getD t default).flags &&& 0x3) default = ch at *
    obtain ⟨ftt, ltt, ati, akc, nk⟩ := ch
    simp only [] at hne hkl
    have hk : (102 + key - 102) % 256 = key := by omega
    have hne2 : ¬ t = ati := fun h => hne h.symm
    have hnk : 0 < nk.length := by rw [hkl]; decide
    simp [note_on, hk, hne2, hnk] <;> omega

/-- Witness for C8: track 1 (flags still 0) takes channel 0 from track 0. -/
theorem note_on_takeover_witness :
    ((w4on2_rt_feed_event (feed_all w4on2_rt_init 0 [[0x66 + 60], [0x66 + 64]]) 1
        [0x66 + 72]).1.channels.getD 0 default).active_track_i = 1 ∧
    ((w4on2_rt_feed_event (feed_all w4on2_rt_init 0 [[0x66 + 60], [0x66 + 64]]) 1
        [0x66 + 72]).1.channels.getD 0 default).active_key_count = 1 ∧
    ((w4on2_rt_feed_event (feed_all w4on2_rt_init 0 [[0x66 + 60], [0x66 + 64]]) 1
        [0x66 + 72]).1.channels.getD 0 default).note_keys.getD 0 0 = 72 :=
  have h := note_on_takeover (feed_all w4on2_rt_init 0 [[0x66 + 60], [0x66 + 64]]) 1 72 []
    (by decide) (by decide) (by decide)
  ⟨h.1, h.2.1, h.2.2.1⟩

/-! ## Claim C9: NOTES_OFF -/

theorem notes_off_idem (t : Track) (ch : Channel) :
    notes_off t (notes_off t ch) = notes_off t ch := by
  have h := notes_off_count t ch
  generalize notes_off t ch = c1 at h
  unfold notes_off
  simp [h]

theorem notes_off_ticks (t : Track) (ch : Channel) (h : 0 < ch.active_key_count) :
    (notes_off t ch).first_trigger_ticks = 0 := by
  unfold notes_off
  simp [h]

/-- C9: NOTES_OFF on track `t` leaves the addressed channel (`tracks[t].flags & 3`) with
`active_key_count = 0`, and with `first_trigger_ticks = 0` if it held a key before; a second
NOTES_OFF on `t` right after it leaves the runtime state as the first one left it. -/
theorem notes_off_twice (rt : RT) (t : Nat) (rest rest2 : List Nat)
    (hlen : rt.channels.length = 4) :
    ((w4on2_rt_feed_event rt t (0xe6 :: rest)).1.channels.getD
        ((rt.tracks.getD t default).flags &&& 0x3) default).active_key_count = 0 ∧
    (0 < (rt.channels.getD ((rt.tracks.getD t default).flags &&& 0x3) default).active_key_count →
      ((w4on2_rt_feed_event rt t (0xe6 :: rest)).1.channels.getD
        ((rt.tracks.getD t default).flags &&& 0x3) default).first_trigger_ticks = 0) ∧
    (w4on2_rt_feed_event (w4on2_rt_feed_event rt t (0xe6 :: rest)).1 t (0xe6 :: rest2)).1
      = (w4on2_rt_feed_event rt t (0xe6 :: rest)).1 := by
  have h4 := land3_lt (rt.tracks.getD t default).flags
  rw [feed_notes_off rt t rest, feed_notes_off _ t rest2]
  simp only []
  rw [getD_set_self _ _ _ _ (by omega)]
  refine ⟨notes_off_count _ _, notes_off_ticks _ _, ?_⟩
  rw [notes_off_idem]
  simp

/-- Witness for C9: NOTES_OFF after two NOTE_ON events on a fresh runtime. -/
theorem notes_off_twice_witness :
    ((w4on2_rt_feed_event (feed_all w4on2_rt_init 0 [[0x66 + 60], [0x66 + 64]]) 0
        [0xe6]).1.channels.getD 0 default).active_key_count = 0 ∧
    (w4on2_rt_feed_event (w4on2_rt_feed_event (feed_all w4on2_rt_init 0
        [[0x66 + 60], [0x66 + 64]]) 0 [0xe6]).1 0 [0xe6]).1
      = (w4on2_rt_feed_event (feed_all w4on2_rt_init 0 [[0x66 + 60], [0x66 + 64]]) 0
          [0xe6]).1 :=
  have h := notes_off_twice (feed_all w4on2_rt_init 0 [[0x66 + 60], [0x66 + 64]]) 0 [] []
    (by decide)
  ⟨h.1, h.2.2⟩

/-! ## Claim C10: the release tone is triggered once -/

theorem getD_map_channel (l : List Channel) (f : Channel → Channel) (c : Nat)
    (h : c < l.length) : (l.map f).getD c default = f (l.getD c default) := by
  rw [List.getD_eq_getElem _ _ (by simpa using h), List.getD_eq_getElem _ _ h]
  simp

theorem notes_off_owner (t : Track) (ch : Channel) :
    (notes_off t ch).active_track_i = ch.active_track_i := by
  unfold notes_off
  split_ifs <;> rfl

theorem tick_channel_state_ticks (ch : Channel) (h : ch.active_track_i < 16) :
    1 ≤ (tick_channel_state ch).first_trigger_ticks := by
  have hl := lim_val
  unfold tick_channel_state channel_advance
  simp only []
  split_ifs <;> (try simp only []) <;> omega

theorem tick_channel_state_ticks_mono (ch : Channel) (h : 1 ≤ ch.first_trigger_ticks) :
    1 ≤ (tick_channel_state ch).first_trigger_ticks := by
  have hl := lim_val
  unfold tick_channel_state channel_advance
  simp only []
  split_ifs <;> (try simp only []) <;> omega

/-- A released channel whose release counter has left 0 makes no tone call, and stays so. -/
theorem released_quiet (rt : RT) (c : Nat) (hc : c < 4) (hlen : rt.channels.length = 4)
    (hcnt : (rt.channels.getD c default).active_key_count = 0)
    (hftt : 1 ≤ (rt.channels.getD c default).first_trigger_ticks) :
    tones_of c (w4on2_rt_tick rt).2 = [] ∧
    (w4on2_rt_tick rt).1.channels.length = 4 ∧
    ((w4on2_rt_tick rt).1.channels.getD c default).active_key_count = 0 ∧
    1 ≤ ((w4on2_rt_tick rt).1.channels.getD c default).first_trigger_ticks := by
  rw [rt_tick_tones rt hlen c hc, rt_tick_state rt hlen]
  simp only []
  rw [getD_map_channel _ _ _ (by omega)]
  refine ⟨?_, by simpa using hlen, ?_, tick_channel_state_ticks_mono _ hftt⟩
  · unfold tick_channel_tones channel_tones
    by_cases h16 : (rt.channels.getD c default).active_track_i ≥ W4ON2_TRACK_COUNT
    · rw [if_pos h16]
    · rw [if_neg h16]
      simp (disch := omega) only [if_neg, if_pos, if_true, if_false]
  · rw [(tick_channel_state_same _).1]; exact hcnt

theorem released_quiet_n (n : Nat) (rt : RT) (c : Nat) (hc : c < 4)
    (hlen : rt.channels.length = 4)
    (hcnt : (rt.channels.getD c default).active_key_count = 0)
    (hftt : 1 ≤ (rt.channels.getD c default).first_trigger_ticks) :
    tones_of c (w4on2_rt_tick (rt_tick_n n rt)).2 = [] := by
  induction n generalizing rt with
  | zero => exact (released_quiet rt c hc hlen hcnt hftt).1
  | succ n ih =>
    have h := released_quiet rt c hc hlen hcnt hftt
    exact ih (w4on2_rt_tick rt).1 h.2.1 h.2.2.1 h.2.2.2

/-- C10: if channel `c` is owned by track `t`, `tracks[t].flags & 3 = c` and `c` holds a key,
then after NOTES_OFF on `t` the first `w4on2_rt_tick` makes exactly one tone call for `c`,
`tone(note_keys[0], r << 8, sus_amp, flags | 0x40)`, and after any number `n` of further ticks
the next tick makes no tone call for `c`. -/
theorem release_tone_once (rt : RT) (t c : Nat) (rest : List Nat) (n : Nat)
    (hwf : rt.wf) (ht : t < 16)
    (hflags : (rt.tracks.getD t default).flags &&& 0x3 = c)
    (hown : (rt.channels.getD c default).active_track_i = t)
    (hheld : 0 < (rt.channels.getD c default).active_key_count) :
    tones_of c (w4on2_rt_tick (w4on2_rt_feed_event rt t (0xe6 :: rest)).1).2 =
      [{ frequency := ((w4on2_rt_feed_event rt t (0xe6 :: rest)).1.channels.getD c
            default).note_keys.getD 0 0,
         duration := (rt.tracks.getD t default).r <<< 8,
         volume := sus_amp (rt.tracks.getD t default),
         flags := (rt.tracks.getD t default).flags ||| 0x40 }] ∧
    tones_of c (w4on2_rt_tick (rt_tick_n n
      (w4on2_rt_tick (w4on2_rt_feed_event rt t (0xe6 :: rest)).1).1)).2 = [] := by
  have h4 := land3_lt (rt.tracks.getD t default).flags
  have hc : c < 4 := by omega
  have hlen : rt.channels.length = 4 := hwf.2.1
  rw [feed_notes_off rt t rest, hflags]
  have hl1 : (rt.channels.set c (notes_off (rt.tracks.getD t default)
      (rt.channels.getD c default))).length = 4 := by simpa using hlen
  have hg : (rt.channels.set c (notes_off (rt.tracks.getD t default)
      (rt.channels.getD c default))).getD c default
        = notes_off (rt.tracks.getD t default) (rt.channels.getD c default) :=
    getD_set_self _ _ _ _ (by omega)
  have hcnt := notes_off_count (rt.tracks.getD t default) (rt.channels.getD c default)
  have hftt := notes_off_ticks (rt.tracks.getD t default) (rt.channels.getD c default) hheld
  have ho := notes_off_owner (rt.tracks.getD t default) (rt.channels.getD c default)
  rw [hown] at ho
  constructor
  · rw [rt_tick_tones _ hl1 c hc]
    simp only []
    rw [hg]
    unfold tick_channel_tones channel_tones
    have hl := lim_val
    rw [ho]
    simp (disch := omega) only [if_neg, if_pos, if_true, if_false]
  · apply released_quiet_n n _ c hc
    · rw [rt_tick_state _ hl1]; simpa using hlen
    · rw [rt_tick_state _ hl1]
      simp only []
      rw [getD_map_channel _ _ _ (by omega), hg, (tick_channel_state_same _).1]
      exact hcnt
    · rw [rt_tick_state _ hl1]
      simp only []
      rw [getD_map_channel _ _ _ (by omega), hg]
      exact tick_channel_state_ticks _ (by rw [ho]; exact ht)

/-- Witness for C10: keys 60 and 64 on track 0, NOTES_OFF, then 1 + 5 + 1 ticks. -/
theorem release_tone_once_witness :
    tones_of 0 (w4on2_rt_tick (w4on2_rt_feed_event
        (feed_all w4on2_rt_init 0 [[0x66 + 60], [0x66 + 64]]) 0 [0xe6]).1).2 =
      [{ frequency := 64, duration := 0, volume := 100, flags := 0x40 }] ∧
    tones_of 0 (w4on2_rt_tick (rt_tick_n 5 (w4on2_rt_tick (w4on2_rt_feed_event
        (feed_all w4on2_rt_init 0 [[0x66 + 60], [0x66 + 64]]) 0 [0xe6]).1).1)).2 = [] :=
  release_tone_once (feed_all w4on2_rt_init 0 [[0x66 + 60], [0x66 + 64]]) 0 0 [] 5
    (by decide) (by decide) (by decide) (by decide) (by decide)

theorem swap_key (k : Nat) (h : k < 256) :
    w4_freq_param ((k <<< 8 : Nat) : Int) ((k <<< 8 : Nat) : Int) = k ||| (k <<< 16) := by
  interval_cases k <;> rfl

theorem tdiv_between (x t dur : Int) (hx : 0 ≤ x) (ht : 0 ≤ t) (htd : t < dur) :
    0 ≤ (x * t).tdiv dur ∧ (x * t).tdiv dur ≤ x := by
  have hd : 0 < dur := by omega
  have hxt : 0 ≤ x * t := Int.mul_nonneg hx ht
  rw [Int.tdiv_eq_ediv hxt (by omega)]
  constructor
  · exact Int.ediv_nonneg hxt (by omega)
  · apply Int.ediv_le_of_le_mul hd
    nlinarith

theorem ramp_between_up (t dur a b : Int) (hab : a ≤ b) :
    a ≤ w4on2_ramp t dur a b ∧ w4on2_ramp t dur a b ≤ b := by
  unfold w4on2_ramp
  split_ifs with h1 h2
  · omega
  · omega
  · have := tdiv_between (b - a) t dur (by omega) (by omega) (by omega)
    omega

theorem ramp_between_down (t dur a b : Int) (hab : b ≤ a) :
    b ≤ w4on2_ramp t dur a b ∧ w4on2_ramp t dur a b ≤ a := by
  unfold w4on2_ramp
  split_ifs with h1 h2
  · omega
  · omega
  · have := tdiv_between (a - b) t dur (by omega) (by omega) (by omega)
    have e : (b - a) * t = -((a - b) * t) := by ring
    rw [e, Int.neg_tdiv]
    omega

/-! ## Claims C4 and C5: the tone call of a held channel -/

theorem vols_eq (track : Track) (ch : Channel) :
    vols track ch = (env_V track (key_ticks track ch) (key_ticks track ch),
      env_V track (key_ticks track ch) ((key_ticks track ch : Int) + 1)) := by
  unfold vols env_V w4on2_ramp2add
  split_ifs
  · simp
  · simp only [zero_add, Prod.mk.injEq, true_and]
    congr 1
    ring

theorem amp_lt (track : Track) : peak_amp track < 256 ∧ sus_amp track < 256 := by
  unfold peak_amp sus_amp
  constructor <;> exact Nat.mod_lt _ (by decide)

theorem env_V_bounds (track : Track) (kt : Nat) (t : Int) :
    0 ≤ env_V track kt t ∧ env_V track kt t ≤ 255 := by
  have ha := amp_lt track
  unfold env_V
  split_ifs
  · have := ramp_between_up t track.a 0 (peak_amp track) (by omega)
    omega
  · rcases le_total (peak_amp track : Int) (sus_amp track) with h | h
    · have := ramp_between_up (t - track.a) track.d (peak_amp track) (sus_amp track) h
      omega
    · have := ramp_between_down (t - track.a) track.d (peak_amp track) (sus_amp track) h
      omega

theorem vol_pack (x y : Int) (hx : 0 ≤ x ∧ x ≤ 255) (hy : 0 ≤ y ∧ y ≤ 255) :
    u32 y ||| (u32 x <<< 8) % 4294967296 = y.toNat ||| (x.toNat <<< 8) := by
  obtain ⟨a, rfl⟩ := Int.eq_ofNat_of_zero_le hx.1
  obtain ⟨b, rfl⟩ := Int.eq_ofNat_of_zero_le hy.1
  have ha : a ≤ 255 := by omega
  have hb : b ≤ 255 := by omega
  have h1 : u32 (a : Int) = a := by
    unfold u32
    omega
  have h2 : u32 (b : Int) = b := by
    unfold u32
    omega
  rw [h1, h2, Int.toNat_ofNat, Int.toNat_ofNat, Nat.shiftLeft_eq]
  have : a * 2 ^ 8 % 4294967296 = a * 2 ^ 8 := by omega
  rw [this]

/-- C4: for a channel `c` that is owned by a track (`active_track_i < 16`) and holds a key,
with `from_vol = V(key_ticks)` and `to_vol = V(key_ticks + 1)` (`V` the attack ramp
`ramp(t, a, 0, peak_amp)` when `key_ticks < a`, the decay ramp
`ramp(t - a, d, peak_amp, sus_amp)` otherwise), `w4on2_rt_tick` computes exactly these two
volumes and makes for `c`: one tone call with duration `1 << 16` and volume
`to_vol | (from_vol << 8)` if `from_vol ≠ 0`; one call with duration `1 << 24` and volume
`to_vol | (to_vol << 8)` if `from_vol = 0` and `to_vol ≠ 0`; no call if both are 0. Every call
has flags `track.flags | 0x40`. -/
theorem held_tone_volume (rt : RT) (c : Nat) (ch : Channel) (track : Track)
    (hlen : rt.channels.length = 4) (hc : c < 4)
    (hch : rt.channels.getD c default = ch)
    (htr : rt.tracks.getD ch.active_track_i default = track)
    (hown : ch.active_track_i < 16) (hheld : 0 < ch.active_key_count) :
    vols track ch = (env_V track (key_ticks track ch) (key_ticks track ch),
      env_V track (key_ticks track ch) ((key_ticks track ch : Int) + 1)) ∧
    0 ≤ env_V track (key_ticks track ch) (key_ticks track ch) ∧
    0 ≤ env_V track (key_ticks track ch) ((key_ticks track ch : Int) + 1) ∧
    tones_of c (w4on2_rt_tick rt).2 =
      if env_V track (key_ticks track ch) (key_ticks track ch) ≠ 0 then
        [{ frequency := w4_freq_param (pitches track ch).1 (pitches track ch).2,
           duration := 1 <<< 16,
           volume := (env_V track (key_ticks track ch) ((key_ticks track ch : Int) + 1)).toNat
             ||| ((env_V track (key_ticks track ch) (key_ticks track ch)).toNat <<< 8),
           flags := track.flags ||| 0x40 }]
      else if env_V track (key_ticks track ch) ((key_ticks track ch : Int) + 1) ≠ 0 then
        [{ frequency := w4_freq_param (pitches track ch).1 (pitches track ch).2,
           duration := 1 <<< 24,
           volume := (env_V track (key_ticks track ch) ((key_ticks track ch : Int) + 1)).toNat
             ||| ((env_V track (key_ticks track ch) ((key_ticks track ch : Int) + 1)).toNat
               <<< 8),
           flags := track.flags ||| 0x40 }]
      else [] := by
  have hb1 := env_V_bounds track (key_ticks track ch) (key_ticks track ch)
  have hb2 := env_V_bounds track (key_ticks track ch) ((key_ticks track ch : Int) + 1)
  refine ⟨vols_eq track ch, hb1.1, hb2.1, ?_⟩
  have hl := lim_val
  rw [rt_tick_tones rt hlen c hc, hch]
  unfold tick_channel_tones channel_tones
  rw [htr, vols_eq]
  simp (disch := omega) only [if_neg, if_pos, if_true, if_false]
  rw [vol_pack _ _ hb1 hb2, vol_pack _ _ hb2 hb2]

set_option maxRecDepth 100000 in
/-- Witness for C4 (scenario S2): at `key_ticks = 5` of a 10-tick attack the volumes are 50 and
60, so the call has volume `60 | (50 << 8)` and duration `1 << 16`. -/
theorem held_tone_volume_witness :
    key_ticks (attack_state.tracks.getD 0 default) (attack_state.channels.getD 0 default) = 5 ∧
    tones_of 0 (w4on2_rt_tick attack_state).2 =
      [{ frequency := 60 ||| (60 <<< 16), duration := 1 <<< 16, volume := 60 ||| (50 <<< 8),
         flags := 0x40 }] := by
  have h := held_tone_volume attack_state 0 (attack_state.channels.getD 0 default)
    (attack_state.tracks.getD 0 default) (by decide) (by decide) rfl (by decide) (by decide)
    (by decide)
  exact ⟨by decide, h.2.2.2.trans (by decide)⟩

theorem ramp_zero_dur (t a b : Int) : w4on2_ramp t 0 a b = b := by
  unfold w4on2_ramp
  simp

theorem ramp_zero_zero (t dur : Int) : w4on2_ramp t dur 0 0 = 0 := by
  unfold w4on2_ramp
  split_ifs <;> simp

theorem triangle_zero (phase : Nat) : w4on2_triangle phase 0 = 0 := by
  unfold w4on2_triangle
  have h : u32 (2 * 0) = 0 := by decide
  rw [h]
  split_ifs <;> simp [i32]

theorem plain_pitches (track : Track) (ch : Channel) (hp : track.portamento = 0)
    (hpe : track.pe_offset = 0) (hv : track.vib_depth = 0) :
    pitches track ch = (((ch.note_keys.getD (key_i track ch) 0 <<< 8 : Nat) : Int),
      ((ch.note_keys.getD (key_i track ch) 0 <<< 8 : Nat) : Int)) := by
  unfold pitches w4on2_ramp2add
  simp only [hp, hpe, hv, Nat.cast_zero, ramp_zero_dur, zero_mul, ramp_zero_zero,
    Nat.zero_shiftLeft, triangle_zero, add_zero, zero_add]

theorem key_i_eq (track : Track) (ch : Channel) (h0 : 0 < ch.active_key_count)
    (h : ch.active_key_count < 256) :
    key_i track ch = if track.arp_rate > 0 then
      (ch.first_trigger_ticks / track.arp_rate) % ch.active_key_count
      else ch.active_key_count - 1 := by
  unfold key_i
  split_ifs
  · have := Nat.mod_lt (ch.first_trigger_ticks / track.arp_rate) h0
    omega
  · omega

theorem getD_lt (l : List Nat) (i : Nat) (h : ∀ k ∈ l, k < 256) : l.getD i 0 < 256 := by
  by_cases hi : i < l.length
  · rw [List.getD_eq_getElem _ _ hi]
    exact h _ (List.getElem_mem hi)
  · rw [List.getD_eq_default _ _ (by omega)]
    decide

/-- C5: for a held channel (`n = active_key_count > 0`) whose owning track has
`portamento = 0`, `pe_offset = 0` and `vib_depth = 0`, every tone call `w4on2_rt_tick` makes
for the channel has frequency `k | (k << 16)`, `k` being the selected key:
`note_keys[(first_trigger_ticks / arp_rate) mod n]` when `arp_rate > 0`, `note_keys[n - 1]` when
`arp_rate = 0`. The count and the keys are bytes, as their C types say. -/
theorem plain_pitch_frequency (rt : RT) (c : Nat) (ch : Channel) (track : Track)
    (hlen : rt.channels.length = 4) (hc : c < 4)
    (hch : rt.channels.getD c default = ch)
    (htr : rt.tracks.getD ch.active_track_i default = track)
    (hheld : 0 < ch.active_key_count) (hcnt : ch.active_key_count < 256)
    (hkeys : ∀ k ∈ ch.note_keys, k < 256)
    (hp : track.portamento = 0) (hpe : track.pe_offset = 0) (hv : track.vib_depth = 0) :
    ∀ call ∈ tones_of c (w4on2_rt_tick rt).2,
      call.frequency =
        (ch.note_keys.getD (if track.arp_rate > 0 then
            (ch.first_trigger_ticks / track.arp_rate) % ch.active_key_count
          else ch.active_key_count - 1) 0)
        ||| ((ch.note_keys.getD (if track.arp_rate > 0 then
            (ch.first_trigger_ticks / track.arp_rate) % ch.active_key_count
          else ch.active_key_count - 1) 0) <<< 16) := by
  intro call hcall
  rw [rt_tick_tones rt hlen c hc, hch] at hcall
  unfold tick_channel_tones channel_tones at hcall
  rw [htr, plain_pitches track ch hp hpe hv, key_i_eq track ch hheld hcnt] at hcall
  have hk := getD_lt ch.note_keys (if track.arp_rate > 0 then
    (ch.first_trigger_ticks / track.arp_rate) % ch.active_key_count
    else ch.active_key_count - 1) hkeys
  generalize ch.note_keys.getD (if track.arp_rate > 0 then
    (ch.first_trigger_ticks / track.arp_rate) % ch.active_key_count
    else ch.active_key_count - 1) 0 = k at hcall hk ⊢
  by_cases h16 : ch.active_track_i ≥ W4ON2_TRACK_COUNT
  · rw [if_pos h16] at hcall
    simp at hcall
  · rw [if_neg h16, if_pos hheld] at hcall
    simp only [] at hcall
    rw [swap_key k hk] at hcall
    split_ifs at hcall <;> simp at hcall <;> rw [hcall]

set_option maxRecDepth 100000 in
/-- Witness for C5 (scenario S1): key 69 alone with the default envelope gives frequency
`69 | (69 << 16)` (low 16 bits 0x0045) and volume `100 | (100 << 8)`. -/
theorem plain_pitch_frequency_witness :
    tones_of 0 (w4on2_rt_tick sustain_state).2 =
      [{ frequency := 0x45 ||| (0x45 <<< 16), duration := 1 <<< 16,
         volume := 100 ||| (100 <<< 8), flags := 0x40 }] ∧
    ∀ call ∈ tones_of 0 (w4on2_rt_tick sustain_state).2,
      call.frequency = 0x45 ||| (0x45 <<< 16) :=
  ⟨by decide,
   plain_pitch_frequency sustain_state 0 (sustain_state.channels.getD 0 default)
    (sustain_state.tracks.getD 0 default) (by decide) (by decide) rfl rfl (by decide)
    (by decide) (by decide) (by decide) (by decide) (by decide)⟩

set_option maxRecDepth 100000 in
/-- Scenario S3 evaluated: with `arp_rate = 4` and keys 60, 64, 67 held, the ticks 0, 4, 8 and
12 sound the keys 60, 64, 67 and 60. -/
theorem arp_scenario :
    (tones_of 0 (w4on2_rt_tick (arp_state 0)).2).map (fun t => t.frequency % 65536) = [60] ∧
    (tones_of 0 (w4on2_rt_tick (arp_state 4)).2).map (fun t => t.frequency % 65536) = [64] ∧
    (tones_of 0 (w4on2_rt_tick (arp_state 8)).2).map (fun t => t.frequency % 65536) = [67] ∧
    (tones_of 0 (w4on2_rt_tick (arp_state 12)).2).map (fun t => t.frequency % 65536) = [60] := by
  decide

/-! ## Score player: basic facts -/

theorem s5_score_wf : score_wf s5_score ∧ score_wf note_delay_score := by
  decide

theorem events_ok_sound (data : List Nat) (e : Nat) :
    ∀ fuel pos, events_ok data e fuel pos = true → Events data e pos := by
  intro fuel
  induction fuel with
  | zero =>
    intro pos h
    simp only [events_ok, beq_iff_eq] at h
    subst h
    exact Events.done
  | succ n ih =>
    intro pos h
    simp only [events_ok] at h
    by_cases hp : pos = e
    · subst hp
      exact Events.done
    · rw [if_neg hp] at h
      simp only [Bool.and_eq_true, decide_eq_true_eq] at h
      exact Events.step pos h.1.1.1 h.1.1.2 h.1.2 (ih _ h.2)

theorem events_le (data : List Nat) (e pos : Nat) (h : Events data e pos) : pos ≤ e := by
  induction h with
  | done => exact Nat.le_refl _
  | step pos hlt _ _ _ _ => exact Nat.le_of_lt hlt

theorem events_next (data : List Nat) (e pos : Nat) (h : Events data e pos) (hlt : pos < e) :
    data.getD pos 0 ≤ 0xf5 ∧ pos + opcode_table_size (data.getD pos 0) ≤ e ∧
    Events data e (pos + opcode_table_size (data.getD pos 0)) := by
  cases h with
  | done => omega
  | step _ _ h2 h3 h4 => exact ⟨h2, h3, h4⟩

theorem size_delay (c : Nat) (h : c < 0x66) :
    opcode_table_size c = if c ≤ 1 then 3 else 1 := by
  unfold opcode_table_size
  by_cases h1 : c ≤ 1
  · simp (disch := omega) only [if_neg, if_pos, if_true, if_false]
  · simp (disch := omega) only [if_neg, if_pos, if_true, if_false]

theorem size_pos (c : Nat) (h : c ≤ 0xf5) :
    1 ≤ opcode_table_size c ∧ opcode_table_size c ≤ 5 := by
  interval_cases c <;> decide

theorem drop_cons_getD (data : List Nat) (i : Nat) (h : i < data.length) :
    data.drop i = data.getD i 0 :: data.drop (i + 1) := by
  rw [List.getD_eq_getElem _ _ h]
  exact List.drop_eq_getElem_cons h

theorem body_switch (data : List Nat) (i : Nat) (s : LoopSt)
    (h : s.pt.inner_data_i ≥ (ptn_bounds data (data.getD s.pt.outer_data_i 0)).2) :
    track_body data i s =
      (true, { s with pt := { s.pt with inner_data_i := 0,
                                        outer_data_i := (s.pt.outer_data_i + 1) % 65536 } }) := by
  unfold track_body
  simp only []
  rw [if_pos h]

theorem body_delay (data : List Nat) (i : Nat) (s : LoopSt)
    (h : ¬ s.pt.inner_data_i ≥ (ptn_bounds data (data.getD s.pt.outer_data_i 0)).2)
    (hc : data.getD (eff_inner data s.pt) 0 < 0x66) :
    track_body data i s =
      delay_branch s i (eff_inner data s.pt) (delay_ticks data (eff_inner data s.pt))
        (opcode_table_size (data.getD (eff_inner data s.pt) 0))
        (delay_off (data.getD (eff_inner data s.pt) 0)) := by
  have hv := fmt_val
  unfold track_body
  simp only []
  rw [if_neg h]
  unfold eff_inner at hc ⊢
  generalize (if s.pt.inner_data_i = 0 then (ptn_bounds data (data.getD s.pt.outer_data_i 0)).1
    else s.pt.inner_data_i) = inner at hc ⊢
  rw [size_delay _ hc]
  unfold delay_ticks delay_off
  generalize data.getD inner 0 = cmd at hc ⊢
  by_cases h0 : cmd = 0
  · subst h0
    simp (disch := omega) only [if_neg, if_pos, if_true, if_false]
    rfl
  by_cases h1 : cmd = 1
  · subst h1
    simp (disch := omega) only [if_neg, if_pos, if_true, if_false]
    rfl
  by_cases h2 : cmd < 0x34
  · simp (disch := omega) only [if_neg, if_pos, if_true, if_false]
    have : decide (cmd = 1 ∨ 52 ≤ cmd) = false := by
      rw [decide_eq_false_iff_not]; omega
    rw [this]
  · simp (disch := omega) only [if_neg, if_pos, if_true, if_false]
    have : decide (cmd = 1 ∨ 52 ≤ cmd) = true := by
      rw [decide_eq_true_iff]; omega
    rw [this]

theorem body_feed (data : List Nat) (i : Nat) (s : LoopSt)
    (h : ¬ s.pt.inner_data_i ≥ (ptn_bounds data (data.getD s.pt.outer_data_i 0)).2)
    (hc : 0x66 ≤ data.getD (eff_inner data s.pt) 0) :
    track_body data i s =
      (true, { pt := { s.pt with inner_data_i := (eff_inner data s.pt
                  + (w4on2_rt_feed_event s.rt i (data.drop (eff_inner data s.pt))).2) % 65536 }
               rt := (w4on2_rt_feed_event s.rt i (data.drop (eff_inner data s.pt))).1
               log := s.log ++ [Fed.event i (data.getD s.pt.outer_data_i 0)
                 (eff_inner data s.pt)] }) := by
  have hv := fmt_val
  unfold track_body
  simp only []
  rw [if_neg h]
  unfold eff_inner at hc ⊢
  generalize (if s.pt.inner_data_i = 0 then (ptn_bounds data (data.getD s.pt.outer_data_i 0)).1
    else s.pt.inner_data_i) = inner at hc ⊢
  simp (disch := omega) only [if_neg, if_pos, if_true, if_false]

theorem score_sz_lt (data : List Nat) : score_sz data < 65536 := by
  unfold score_sz
  exact Nat.or_lt_two_pow (n := 16) (Nat.mod_lt _ (by decide)) (Nat.mod_lt _ (by decide))

/-- The facts the loop body can rely on at the head of an iteration of a well-formed score. -/
theorem head_facts (data : List Nat) (i : Nat) (pt : PlayerTrack)
    (hwf : score_wf data) (hi : i < data.getD 3 0) (hinv : track_inv data i pt)
    (ho : pt.outer_data_i ≠ 0) (hlt : pt.outer_data_i < (trk_bounds data i).2) :
    data.length < 65536 ∧ (trk_bounds data i).2 ≤ data.length ∧
    0 < (ptn_bounds data (data.getD pt.outer_data_i 0)).1 ∧
    (ptn_bounds data (data.getD pt.outer_data_i 0)).2 ≤ data.length ∧
    eff_inner data pt ≠ 0 ∧ pt.inner_data_i ≤ eff_inner data pt ∧
    (ptn_bounds data (data.getD pt.outer_data_i 0)).1 ≤ eff_inner data pt ∧
    Events data (ptn_bounds data (data.getD pt.outer_data_i 0)).2 (eff_inner data pt) ∧
    (¬ pt.inner_data_i ≥ (ptn_bounds data (data.getD pt.outer_data_i 0)).2 →
      eff_inner data pt < (ptn_bounds data (data.getD pt.outer_data_i 0)).2) := by
  obtain ⟨hlen, _, _, htr, hpt⟩ := hwf
  obtain ⟨_, h2, h3, _⟩ := hinv
  have hsz := score_sz_lt data
  obtain ⟨_, _, hte, hid⟩ := htr i hi
  have hj := hid pt.outer_data_i hlt (h2 ho).1
  obtain ⟨hs0, hse, hel, hev⟩ := hpt _ hj
  have hEv := events_ok_sound data _ _ _ hev
  refine ⟨by omega, hte, hs0, hel, ?_, ?_, ?_, ?_, ?_⟩
  all_goals unfold eff_inner
  · split_ifs <;> omega
  · split_ifs <;> omega
  · split_ifs with h0
    · exact Nat.le_refl _
    · exact (h3 h0).2.1
  · split_ifs with h0
    · exact hEv
    · exact (h3 h0).2.2
  · intro hn
    split_ifs with h0
    · exact hse
    · omega

theorem measure_switch (data : List Nat) (i : Nat) (pt : PlayerTrack)
    (hlt : pt.outer_data_i < (trk_bounds data i).2) :
    track_measure data i { pt with inner_data_i := 0, outer_data_i := pt.outer_data_i + 1 }
      < track_measure data i pt := by
  unfold track_measure
  simp only []
  have : ((trk_bounds data i).2 - pt.outer_data_i) * (data.length + 1)
      = ((trk_bounds data i).2 - (pt.outer_data_i + 1)) * (data.length + 1)
        + (data.length + 1) := by
    have e : (trk_bounds data i).2 - pt.outer_data_i
        = ((trk_bounds data i).2 - (pt.outer_data_i + 1)) + 1 := by omega
    rw [e]
    simp [Nat.add_mul]
  omega

theorem measure_advance (data : List Nat) (i : Nat) (pt : PlayerTrack) (n d : Nat)
    (h1 : pt.inner_data_i < n) (h2 : n ≤ data.length) :
    track_measure data i { pt with inner_data_i := n, delay := d }
      < track_measure data i pt := by
  unfold track_measure
  simp only []
  omega

theorem inv_stay (data : List Nat) (i : Nat) (pt : PlayerTrack) (d : Nat)
    (hwf : score_wf data) (hi : i < data.getD 3 0) (hinv : track_inv data i pt)
    (ho : pt.outer_data_i ≠ 0) (hlt : pt.outer_data_i < (trk_bounds data i).2)
    (hd : d ≠ 0 → eff_inner data pt < (ptn_bounds data (data.getD pt.outer_data_i 0)).2 ∧
      data.getD (eff_inner data pt) 0 < 0x66) :
    track_inv data i { pt with inner_data_i := eff_inner data pt, delay := d } := by
  obtain ⟨_, _, _, _, he0, _, hse, hev, _⟩ := head_facts data i pt hwf hi hinv ho hlt
  refine ⟨fun h => absurd h ho, hinv.2.1, fun _ => ⟨hlt, hse, hev⟩, fun h => ?_⟩
  exact ⟨he0, (hd h).1, (hd h).2⟩

theorem inv_adv (data : List Nat) (i : Nat) (pt : PlayerTrack)
    (hwf : score_wf data) (hi : i < data.getD 3 0) (hinv : track_inv data i pt)
    (ho : pt.outer_data_i ≠ 0) (hlt : pt.outer_data_i < (trk_bounds data i).2)
    (hn : ¬ pt.inner_data_i ≥ (ptn_bounds data (data.getD pt.outer_data_i 0)).2) :
    track_inv data i { pt with
      inner_data_i := eff_inner data pt + opcode_table_size (data.getD (eff_inner data pt) 0),
      delay := 0 } ∧
    pt.inner_data_i
      < eff_inner data pt + opcode_table_size (data.getD (eff_inner data pt) 0) ∧
    eff_inner data pt + opcode_table_size (data.getD (eff_inner data pt) 0)
      ≤ (ptn_bounds data (data.getD pt.outer_data_i 0)).2 ∧
    eff_inner data pt + opcode_table_size (data.getD (eff_inner data pt) 0) < 65536 := by
  obtain ⟨hL, _, _, hel, _, hle, hse, hev, hlt2⟩ := head_facts data i pt hwf hi hinv ho hlt
  obtain ⟨hc, hsz, hev2⟩ := events_next data _ _ hev (hlt2 hn)
  have hp := size_pos _ hc
  refine ⟨⟨fun h => absurd h ho, hinv.2.1, fun _ => ⟨hlt, by simp only []; omega, hev2⟩,
    fun h => absurd rfl h⟩, by omega, hsz, by omega⟩

theorem feed_size_drop (data : List Nat) (rt : RT) (i pos : Nat) (h : pos < data.length) :
    (w4on2_rt_feed_event rt i (data.drop pos)).2 = opcode_table_size (data.getD pos 0) := by
  rw [drop_cons_getD data pos h, feed_size]

/-- One iteration of the event loop keeps the cursor invariant, and when the loop goes on the
termination measure has dropped. -/
theorem body_inv (data : List Nat) (i : Nat) (s : LoopSt)
    (hwf : score_wf data) (hi : i < data.getD 3 0) (hinv : track_inv data i s.pt)
    (ho : s.pt.outer_data_i ≠ 0) (hlt : s.pt.outer_data_i < (trk_bounds data i).2) :
    track_inv data i (track_body data i s).2.pt ∧
    (track_body data i s).2.pt.outer_data_i ≠ 0 ∧
    ((track_body data i s).1 = true →
      track_measure data i (track_body data i s).2.pt < track_measure data i s.pt) := by
  obtain ⟨hL, hte, _, hel, he0, hle, hse, hev, hlt2⟩ :=
    head_facts data i s.pt hwf hi hinv ho hlt
  by_cases hsw : s.pt.inner_data_i ≥ (ptn_bounds data (data.getD s.pt.outer_data_i 0)).2
  · rw [body_switch _ _ _ hsw]
    simp only []
    have hm : (s.pt.outer_data_i + 1) % 65536 = s.pt.outer_data_i + 1 :=
      Nat.mod_eq_of_lt (by omega)
    rw [hm]
    refine ⟨⟨fun h => by simp only [] at h; omega, fun _ => ?_, fun h => absurd rfl h,
      fun h => ?_⟩, by omega, fun _ => measure_switch data i s.pt hlt⟩
    · have := hinv.2.1 ho
      simp only []
      omega
    · have := (hinv.2.2.2 h).2.1
      omega
  · obtain ⟨hinvA, hA1, hA2, hA3⟩ := inv_adv data i s.pt hwf hi hinv ho hlt hsw
    by_cases hc : data.getD (eff_inner data s.pt) 0 < 0x66
    · rw [body_delay _ _ _ hsw hc]
      unfold delay_branch
      by_cases h1 : s.pt.delay = 0
      · simp only [if_pos h1]
        exact ⟨inv_stay data i s.pt _ hwf hi hinv ho hlt (fun _ => ⟨hlt2 hsw, hc⟩), ho,
          fun h => by simp at h⟩
      · by_cases h2 : (s.pt.delay - 1) % 65536 = 0
        · simp only [if_neg h1, if_pos h2]
          rw [Nat.mod_eq_of_lt hA3]
          exact ⟨hinvA, ho, fun _ => measure_advance data i s.pt _ 0 hA1 (by omega)⟩
        · simp only [if_neg h1, if_neg h2]
          exact ⟨inv_stay data i s.pt _ hwf hi hinv ho hlt (fun _ => ⟨hlt2 hsw, hc⟩), ho,
            fun h => by simp at h⟩
    · rw [body_feed _ _ _ hsw (by omega)]
      simp only []
      rw [feed_size_drop data s.rt i _ (by have := hlt2 hsw; omega), Nat.mod_eq_of_lt hA3]
      have hd0 : s.pt.delay = 0 := by
        by_contra hd
        obtain ⟨hi0, _, hlt66⟩ := hinv.2.2.2 hd
        have : eff_inner data s.pt = s.pt.inner_data_i := by
          unfold eff_inner
          rw [if_neg hi0]
        rw [this] at hc
        exact hc hlt66
      have hpt : ({ s.pt with inner_data_i := eff_inner data s.pt
            + opcode_table_size (data.getD (eff_inner data s.pt) 0) } : PlayerTrack)
          = { s.pt with inner_data_i := eff_inner data s.pt
            + opcode_table_size (data.getD (eff_inner data s.pt) 0), delay := 0 } := by
        rw [← hd0]
      rw [hpt]
      exact ⟨hinvA, ho, fun _ => measure_advance data i s.pt _ 0 hA1 (by omega)⟩

theorem track_loop_step (data : List Nat) (i te fuel : Nat) (s : LoopSt) :
    track_loop data i te (fuel + 1) s =
      if s.pt.outer_data_i < te then
        (if (track_body data i s).1 = true then track_loop data i te fuel (track_body data i s).2
         else some (track_body data i s).2)
      else some s := by
  rw [track_loop]
  split_ifs with h1 h2
  · rcases hb : track_body data i s with ⟨b, s1⟩
    rw [hb] at h2
    simp only [] at h2
    subst h2
    rfl
  · rcases hb : track_body data i s with ⟨b, s1⟩
    rw [hb] at h2
    simp only [] at h2
    have : b = false := by simpa using h2
    subst this
    rfl
  · rfl

/-- On a well-formed score the event loop of a track returns, given fuel above the measure. -/
theorem track_loop_some (data : List Nat) (i : Nat)
    (hwf : score_wf data) (hi : i < data.getD 3 0) :
    ∀ fuel s, track_inv data i s.pt → s.pt.outer_data_i ≠ 0 →
      track_measure data i s.pt < fuel →
      ∃ s1, track_loop data i (trk_bounds data i).2 fuel s = some s1 ∧
        track_inv data i s1.pt ∧ s1.pt.outer_data_i ≠ 0 := by
  intro fuel
  induction fuel with
  | zero => intro s _ _ h; omega
  | succ n ih =>
    intro s hinv ho hm
    rw [track_loop_step]
    by_cases hlt : s.pt.outer_data_i < (trk_bounds data i).2
    · rw [if_pos hlt]
      obtain ⟨h1, h2, h3⟩ := body_inv data i s hwf hi hinv ho hlt
      by_cases hb : (track_body data i s).1 = true
      · rw [if_pos hb]
        exact ih _ h1 h2 (by have := h3 hb; omega)
      · rw [if_neg hb]
        exact ⟨_, rfl, h1, h2⟩
    · rw [if_neg hlt]
      exact ⟨_, rfl, hinv, ho⟩

theorem lazy_pt_outer (data : List Nat) (i : Nat) (pt : PlayerTrack) :
    (lazy_pt data i pt).outer_data_i = lazy_outer data i pt := by
  unfold lazy_pt lazy_outer
  split_ifs <;> rfl

theorem lazy_pt_inv (data : List Nat) (i : Nat) (pt : PlayerTrack)
    (hwf : score_wf data) (hi : i < data.getD 3 0) (hinv : track_inv data i pt) :
    track_inv data i (lazy_pt data i pt) ∧ (lazy_pt data i pt).outer_data_i ≠ 0 := by
  obtain ⟨hs0, hse, _, _⟩ := hwf.2.2.2.1 i hi
  unfold lazy_pt
  split_ifs with h0
  · obtain ⟨hin, hd⟩ := hinv.1 h0
    refine ⟨⟨fun h => ?_, fun _ => ⟨Nat.le_refl _, hse⟩, fun h => absurd hin h,
      fun h => absurd hd h⟩, ?_⟩
    · simp only [] at h
      omega
    · simp only []
      omega
  · exact ⟨hinv, h0⟩

theorem measure_lt_fuel (data : List Nat) (i : Nat) (pt : PlayerTrack)
    (hte : (trk_bounds data i).2 ≤ data.length) :
    track_measure data i pt < player_fuel data := by
  unfold track_measure player_fuel
  have h1 : ((trk_bounds data i).2 - pt.outer_data_i) * (data.length + 1)
      ≤ data.length * (data.length + 1) := Nat.mul_le_mul_right _ (by omega)
  have h2 : (data.length + 1) * (data.length + 2)
      = data.length * (data.length + 1) + 2 * data.length + 2 := by ring
  omega

/-- What the `for` body does for track `i` on a well-formed score: the loop returns, the
count goes up when the lazily initialised outer cursor is below the track end, and only the
cursors of track `i` are written. -/
theorem tick_track_some (data : List Nat) (i fuel : Nat) (st : TickSt)
    (hwf : score_wf data) (hi : i < data.getD 3 0) (hinv : player_inv data st.p)
    (hf : player_fuel data ≤ fuel) :
    ∃ s1, track_loop data i (trk_bounds data i).2 fuel
        { pt := lazy_pt data i (st.p.tracks.getD i default), rt := st.rt, log := [] } = some s1 ∧
      tick_track fuel i st = some
        { p := { st.p with tracks := st.p.tracks.set i s1.pt }, rt := s1.rt,
          active_tracks := if lazy_outer data i (st.p.tracks.getD i default)
              < (trk_bounds data i).2 then (st.active_tracks + 1) % 256
            else st.active_tracks,
          log := st.log ++ s1.log } ∧
      player_inv data { st.p with tracks := st.p.tracks.set i s1.pt } := by
  obtain ⟨hd, hl, htr⟩ := hinv
  obtain ⟨_, _, hT, hwt, _⟩ := id hwf
  obtain ⟨h1, h2⟩ := lazy_pt_inv data i _ hwf hi (htr i hi)
  obtain ⟨s1, hs1, hi1, _⟩ := track_loop_some data i hwf hi fuel
    { pt := lazy_pt data i (st.p.tracks.getD i default), rt := st.rt, log := [] } h1 h2
    (by have := measure_lt_fuel data i (lazy_pt data i (st.p.tracks.getD i default))
          (hwt i hi).2.2.1
        simp only []
        omega)
  refine ⟨s1, hs1, ?_, hd, by simpa using hl, ?_⟩
  · unfold tick_track
    simp only [hd, lazy_pt_outer]
    rw [hs1]
  · intro k hk
    simp only []
    by_cases hki : i = k
    · subst hki
      rw [getD_set_self _ _ _ _ (by rw [hl]; omega)]
      exact hi1
    · rw [getD_set_other _ _ _ _ _ hki]
      exact htr k hk

theorem body_log (data : List Nat) (i : Nat) (s : LoopSt) :
    ∀ f ∈ (track_body data i s).2.log, f ∈ s.log ∨ f.track = i := by
  intro f hf
  by_cases hsw : s.pt.inner_data_i ≥ (ptn_bounds data (data.getD s.pt.outer_data_i 0)).2
  · rw [body_switch _ _ _ hsw] at hf
    exact Or.inl hf
  · by_cases hc : data.getD (eff_inner data s.pt) 0 < 0x66
    · rw [body_delay _ _ _ hsw hc] at hf
      unfold delay_branch at hf
      split_ifs at hf
      · exact Or.inl hf
      · simp only [List.mem_append, List.mem_singleton] at hf
        rcases hf with h | h
        · exact Or.inl h
        · right; rw [h]; rfl
      · exact Or.inl hf
      · exact Or.inl hf
    · rw [body_feed _ _ _ hsw (by omega)] at hf
      simp only [List.mem_append, List.mem_singleton] at hf
      rcases hf with h | h
      · exact Or.inl h
      · right; rw [h]; rfl

theorem loop_log_track (data : List Nat) (i te : Nat) :
    ∀ fuel s s1, track_loop data i te fuel s = some s1 →
      (∀ f ∈ s.log, f.track = i) → ∀ f ∈ s1.log, f.track = i := by
  intro fuel
  induction fuel with
  | zero => intro s s1 h; simp [track_loop] at h
  | succ n ih =>
    intro s s1 h hs
    rw [track_loop_step] at h
    have hb : ∀ f ∈ (track_body data i s).2.log, f.track = i := by
      intro f hf
      rcases body_log data i s f hf with h1 | h1
      · exact hs f h1
      · exact h1
    split_ifs at h with h1 h2
    · exact ih _ _ h hb
    · simp only [Option.some.injEq] at h
      rw [← h]
      exact hb
    · simp only [Option.some.injEq] at h
      rw [← h]
      exact hs

theorem filter_track_self (i : Nat) (l : List Fed) (h : ∀ f ∈ l, f.track = i) :
    l.filter (fun f => decide (f.track = i)) = l := by
  rw [List.filter_eq_self]
  intro f hf
  simpa using h f hf

theorem filter_track_other (i k : Nat) (l : List Fed) (h : ∀ f ∈ l, f.track = i)
    (hk : i ≠ k) : l.filter (fun f => decide (f.track = k)) = [] := by
  rw [List.filter_eq_nil_iff]
  intro f hf
  have := h f hf
  simp only [decide_eq_true_eq]
  omega

/-- The `for` loop over a list of distinct track indices of a well-formed score: it returns,
keeps the invariant, counts the tracks that start the tick below their end, and for every
track the new cursors and the calls logged for it are those of that track's event loop. -/
theorem tick_tracks_some (data : List Nat) (fuel : Nat)
    (hwf : score_wf data) (hf : player_fuel data ≤ fuel) :
    ∀ (is : List Nat) (st : TickSt), is.Nodup → (∀ i ∈ is, i < data.getD 3 0) →
      player_inv data st.p →
      ∃ st1, tick_tracks fuel is st = some st1 ∧ player_inv data st1.p ∧
        (st.active_tracks + is.length < 256 →
          st1.active_tracks = st.active_tracks + (is.filter (fun i =>
            decide (lazy_outer data i (st.p.tracks.getD i default)
              < (trk_bounds data i).2))).length) ∧
        (∀ k, k ∉ is → st1.p.tracks.getD k default = st.p.tracks.getD k default ∧
          st1.log.filter (fun f => decide (f.track = k))
            = st.log.filter (fun f => decide (f.track = k))) ∧
        (∀ i ∈ is, ∃ rt_in s1,
          track_loop data i (trk_bounds data i).2 fuel
            { pt := lazy_pt data i (st.p.tracks.getD i default), rt := rt_in, log := [] }
              = some s1 ∧
          st1.p.tracks.getD i default = s1.pt ∧
          st1.log.filter (fun f => decide (f.track = i))
            = st.log.filter (fun f => decide (f.track = i)) ++ s1.log) := by
  intro is
  induction is with
  | nil =>
    intro st _ _ hinv
    exact ⟨st, rfl, hinv, fun _ => by simp, fun k _ => ⟨rfl, rfl⟩,
      fun i hi => absurd hi (List.not_mem_nil i)⟩
  | cons i rest ih =>
    intro st hnd hall hinv
    have hi : i < data.getD 3 0 := hall i (List.mem_cons_self i rest)
    obtain ⟨hirest, hndr⟩ := List.nodup_cons.1 hnd
    obtain ⟨s1, hs1, ht, hinv1⟩ := tick_track_some data i fuel st hwf hi hinv hf
    have hlen : i < st.p.tracks.length := by
      have h16 := hwf.2.2.1
      have := hinv.2.1
      omega
    have hlog1 := loop_log_track data i _ fuel _ s1 hs1 (by simp)
    obtain ⟨st1, hst1, hinvf, hcnt, hfr, hin⟩ := ih
      { p := { st.p with tracks := st.p.tracks.set i s1.pt }, rt := s1.rt,
        active_tracks := if lazy_outer data i (st.p.tracks.getD i default)
            < (trk_bounds data i).2 then (st.active_tracks + 1) % 256
          else st.active_tracks,
        log := st.log ++ s1.log } hndr
      (fun k hk => hall k (List.mem_cons_of_mem i hk)) hinv1
    refine ⟨st1, ?_, hinvf, ?_, ?_, ?_⟩
    · simp only [tick_tracks, ht]
      exact hst1
    · intro hlt
      simp only [List.length_cons] at hlt
      have hc := hcnt (by simp only []; split_ifs <;> omega)
      simp only [] at hc
      have hcongr : rest.filter (fun k => decide (lazy_outer data k
            ((st.p.tracks.set i s1.pt).getD k default) < (trk_bounds data k).2))
          = rest.filter (fun k => decide (lazy_outer data k
            (st.p.tracks.getD k default) < (trk_bounds data k).2)) := by
        apply List.filter_congr
        intro k hk
        have hne : i ≠ k := fun h => hirest (h ▸ hk)
        rw [getD_set_other _ _ _ _ _ hne]
      rw [hcongr] at hc
      rw [hc, List.filter_cons]
      by_cases hp : lazy_outer data i (st.p.tracks.getD i default) < (trk_bounds data i).2
      · simp only [hp, if_true, decide_True, List.length_cons]
        omega
      · simp only [hp, if_false, decide_False]
        simp
    · intro k hk
      have hki : i ≠ k := fun h => hk (h ▸ List.mem_cons_self i rest)
      have hkr : k ∉ rest := fun h => hk (List.mem_cons_of_mem i h)
      obtain ⟨h1, h2⟩ := hfr k hkr
      simp only [] at h1 h2
      rw [h1, h2, getD_set_other _ _ _ _ _ hki, List.filter_append,
        filter_track_other i k _ hlog1 hki, List.append_nil]
      exact ⟨rfl, rfl⟩
    · intro j hj
      rcases List.mem_cons.1 hj with hji | hjr
      · subst hji
        obtain ⟨h1, h2⟩ := hfr j hirest
        simp only [] at h1 h2
        refine ⟨st.rt, s1, hs1, ?_, ?_⟩
        · rw [h1, getD_set_self _ _ _ _ hlen]
        · rw [h2, List.filter_append, filter_track_self j _ hlog1]
      · have hne : i ≠ j := fun h => hirest (h ▸ hjr)
        obtain ⟨rt_in, sj, hsj, hpt, hlg⟩ := hin j hjr
        simp only [] at hsj hlg
        rw [getD_set_other _ _ _ _ _ hne] at hsj
        refine ⟨rt_in, sj, hsj, hpt, ?_⟩
        rw [hlg, List.filter_append, filter_track_other i j _ hlog1 hne, List.append_nil]

theorem track_loop_mono (data : List Nat) (i te : Nat) :
    ∀ fuel s s1, track_loop data i te fuel s = some s1 →
      ∀ fuel2, fuel ≤ fuel2 → track_loop data i te fuel2 s = some s1 := by
  intro fuel
  induction fuel with
  | zero => intro s s1 h; simp [track_loop] at h
  | succ n ih =>
    intro s s1 h fuel2 hle
    obtain ⟨m, rfl⟩ : ∃ m, fuel2 = m + 1 := ⟨fuel2 - 1, by omega⟩
    rw [track_loop_step] at h ⊢
    split_ifs at h ⊢ with h1 h2
    · exact ih _ _ h m (by omega)
    · exact h
    · exact h

theorem tick_track_mono (fuel fuel2 i : Nat) (st st1 : TickSt)
    (h : tick_track fuel i st = some st1) (hle : fuel ≤ fuel2) :
    tick_track fuel2 i st = some st1 := by
  unfold tick_track at h ⊢
  simp only [] at h ⊢
  cases hl : track_loop st.p.data i (trk_bounds st.p.data i).2 fuel
      { pt := lazy_pt st.p.data i (st.p.tracks.getD i default), rt := st.rt, log := [] } with
  | none => rw [hl] at h; simp at h
  | some s1 =>
    rw [hl] at h
    rw [track_loop_mono _ _ _ _ _ _ hl fuel2 hle]
    exact h

theorem tick_tracks_mono (fuel fuel2 : Nat) (hle : fuel ≤ fuel2) :
    ∀ (is : List Nat) (st st1 : TickSt), tick_tracks fuel is st = some st1 →
      tick_tracks fuel2 is st = some st1 := by
  intro is
  induction is with
  | nil => intro st st1 h; exact h
  | cons i rest ih =>
    intro st st1 h
    simp only [tick_tracks] at h ⊢
    cases ht : tick_track fuel i st with
    | none => rw [ht] at h; simp at h
    | some st2 =>
      rw [ht] at h
      rw [tick_track_mono fuel fuel2 i st st2 ht hle]
      exact ih _ _ h

theorem player_tick_mono (fuel fuel2 : Nat) (p : Player) (rt : RT) (st : TickSt)
    (h : w4on2_player_tick fuel p rt = some st) (hle : fuel ≤ fuel2) :
    w4on2_player_tick fuel2 p rt = some st :=
  tick_tracks_mono fuel fuel2 hle _ _ _ h

/-- A tick on a well-formed score, from cursors that satisfy the invariant: it returns, and
the result is described track by track. -/
theorem player_tick_some (data : List Nat) (fuel : Nat) (p : Player) (rt : RT)
    (hwf : score_wf data) (hf : player_fuel data ≤ fuel) (hinv : player_inv data p) :
    ∃ st, w4on2_player_tick fuel p rt = some st ∧ player_inv data st.p ∧
      st.active_tracks = count_active p ∧
      (∀ k, ¬ k < data.getD 3 0 → st.log.filter (fun f => decide (f.track = k)) = []) ∧
      (∀ i < data.getD 3 0, ∃ rt_in s1,
        track_loop data i (trk_bounds data i).2 fuel
          { pt := lazy_pt data i (p.tracks.getD i default), rt := rt_in, log := [] }
            = some s1 ∧
        st.p.tracks.getD i default = s1.pt ∧
        st.log.filter (fun f => decide (f.track = i)) = s1.log) := by
  have hd : p.data = data := hinv.1
  obtain ⟨st, h1, h2, h3, h4, h5⟩ := tick_tracks_some data fuel hwf hf
    (List.range (data.getD 3 0)) { p := p, rt := rt, active_tracks := 0, log := [] }
    (List.nodup_range _) (fun i hi => List.mem_range.1 hi) hinv
  refine ⟨st, ?_, h2, ?_, ?_, ?_⟩
  · unfold w4on2_player_tick
    rw [hd]
    exact h1
  · have h16 := hwf.2.2.1
    have hl := lim_val
    rw [h3 (by simp only [List.length_range]; omega)]
    unfold count_active
    rw [hd]
    simp
  · intro k hk
    have := (h4 k (fun h => hk (List.mem_range.1 h))).2
    simpa using this
  · intro i hi
    obtain ⟨rt_in, s1, ha, hb, hc⟩ := h5 i (List.mem_range.2 hi)
    exact ⟨rt_in, s1, ha, hb, by simpa using hc⟩

theorem player_inv_init (data : List Nat) : player_inv data (w4on2_player_init data) := by
  refine ⟨rfl, by simp [w4on2_player_init], fun i _ => ?_⟩
  have : (w4on2_player_init data).tracks.getD i default
      = { outer_data_i := 0, inner_data_i := 0, delay := 0 } := by
    unfold w4on2_player_init
    simp only [List.getD_eq_getElem?_getD, List.getElem?_replicate]
    split_ifs <;> rfl
  rw [this]
  exact ⟨fun _ => ⟨rfl, rfl⟩, fun h => absurd rfl h, fun h => absurd rfl h,
    fun h => absurd rfl h⟩

theorem preach_inv (data : List Nat) (p : Player) (hwf : score_wf data)
    (h : PReach data p) : player_inv data p := by
  induction h with
  | init => exact player_inv_init data
  | tick p rt fuel st _ ht ih =>
    obtain ⟨st2, h1, h2, _⟩ := player_tick_some data (max fuel (player_fuel data)) p rt hwf
      (Nat.le_max_right _ _) ih
    have := player_tick_mono fuel (max fuel (player_fuel data)) p rt st ht
      (Nat.le_max_left _ _)
    rw [this] at h1
    simp only [Option.some.injEq] at h1
    rw [h1]
    exact h2

theorem inv_delay_zero (data : List Nat) (i : Nat) (pt : PlayerTrack)
    (hinv : track_inv data i pt) (hc : 0x66 ≤ data.getD (eff_inner data pt) 0) :
    pt.delay = 0 := by
  by_contra hd
  obtain ⟨hi0, _, hlt66⟩ := hinv.2.2.2 hd
  have : eff_inner data pt = pt.inner_data_i := by
    unfold eff_inner
    rw [if_neg hi0]
  rw [this] at hc
  omega

theorem body_event_entry (data : List Nat) (i : Nat) (s : LoopSt) (j c : Nat)
    (hf : Fed.event i j c ∈ (track_body data i s).2.log) (hnf : Fed.event i j c ∉ s.log) :
    ¬ s.pt.inner_data_i ≥ (ptn_bounds data (data.getD s.pt.outer_data_i 0)).2 ∧
    0x66 ≤ data.getD (eff_inner data s.pt) 0 ∧
    j = data.getD s.pt.outer_data_i 0 ∧ c = eff_inner data s.pt := by
  by_cases hsw : s.pt.inner_data_i ≥ (ptn_bounds data (data.getD s.pt.outer_data_i 0)).2
  · rw [body_switch _ _ _ hsw] at hf
    exact absurd hf hnf
  · by_cases hc : data.getD (eff_inner data s.pt) 0 < 0x66
    · rw [body_delay _ _ _ hsw hc] at hf
      unfold delay_branch at hf
      split_ifs at hf
      · exact absurd hf hnf
      · simp only [List.mem_append, List.mem_singleton] at hf
        rcases hf with h | h
        · exact absurd h hnf
        · cases h
      · exact absurd hf hnf
      · exact absurd hf hnf
    · rw [body_feed _ _ _ hsw (by omega)] at hf
      simp only [List.mem_append, List.mem_singleton] at hf
      rcases hf with h | h
      · exact absurd h hnf
      · simp only [Fed.event.injEq] at h
        exact ⟨hsw, by omega, h.2.1, h.2.2⟩

theorem body_break_log (data : List Nat) (i : Nat) (s : LoopSt)
    (h : (track_body data i s).1 = false) : (track_body data i s).2.log = s.log := by
  by_cases hsw : s.pt.inner_data_i ≥ (ptn_bounds data (data.getD s.pt.outer_data_i 0)).2
  · rw [body_switch _ _ _ hsw]
  · by_cases hc : data.getD (eff_inner data s.pt) 0 < 0x66
    · rw [body_delay _ _ _ hsw hc] at h ⊢
      unfold delay_branch at h ⊢
      by_cases h1 : s.pt.delay = 0
      · simp only [if_pos h1]
      · by_cases h2 : (s.pt.delay - 1) % 65536 = 0
        · simp only [if_neg h1, if_pos h2] at h
          simp at h
        · simp only [if_neg h1, if_neg h2]
    · rw [body_feed _ _ _ hsw (by omega)] at h
      simp at h

/-- A short delay opcode that encodes `N` ticks. -/
theorem short_delay_facts (data : List Nat) (d N : Nat) (off : Bool)
    (hN : 1 ≤ N ∧ N ≤ 50)
    (hd : data.getD d 0 = (if off then 0x34 else 0x02) + (N - 1)) :
    data.getD d 0 < 0x66 ∧ delay_ticks data d = N ∧
    opcode_table_size (data.getD d 0) = 1 ∧ delay_off (data.getD d 0) = off := by
  have h66 : data.getD d 0 < 0x66 := by
    rw [hd]; split_ifs <;> omega
  refine ⟨h66, ?_, ?_, ?_⟩
  · unfold delay_ticks
    rw [hd]
    cases off
    · simp (disch := omega) only [if_neg, if_pos, if_true, if_false, Bool.false_eq_true]
      omega
    · simp (disch := omega) only [if_neg, if_pos, if_true, if_false]
      omega
  · rw [size_delay _ h66, hd]
    cases off
    · simp (disch := omega) only [if_neg, if_pos, if_true, if_false, Bool.false_eq_true]
    · simp (disch := omega) only [if_neg, if_pos, if_true, if_false]
  · unfold delay_off
    rw [hd]
    cases off
    · simp only [Bool.false_eq_true, if_false, decide_eq_false_iff_not]
      omega
    · simp only [if_true, decide_eq_true_eq]
      omega

/-- The loop body of a track that sits on a short delay opcode. -/
theorem body_wait (data : List Nat) (i : Nat) (s : LoopSt) (d N : Nat) (off : Bool)
    (hN : 1 ≤ N ∧ N ≤ 50)
    (hd : data.getD d 0 = (if off then 0x34 else 0x02) + (N - 1))
    (hin : s.pt.inner_data_i = d) (hd0 : d ≠ 0)
    (hlt : d < (ptn_bounds data (data.getD s.pt.outer_data_i 0)).2) :
    track_body data i s = delay_branch s i d N 1 off := by
  obtain ⟨h1, h2, h3, h4⟩ := short_delay_facts data d N off hN hd
  have he : eff_inner data s.pt = d := by
    unfold eff_inner
    rw [hin, if_neg hd0]
  have hsw : ¬ s.pt.inner_data_i ≥ (ptn_bounds data (data.getD s.pt.outer_data_i 0)).2 := by
    omega
  rw [body_delay _ _ _ hsw (by rw [he]; exact h1), he, h2, h3, h4]

/-- If the event loop of track `i` feeds the event at `c` of pattern `j` and a short delay of
`N` ticks follows it inside the pattern, the loop ends right there: cursor on the delay opcode,
`delay = N`. -/
theorem loop_fed (data : List Nat) (i j c N : Nat) (off : Bool)
    (hwf : score_wf data) (hi : i < data.getD 3 0) (hN : 1 ≤ N ∧ N ≤ 50)
    (hd : data.getD (c + opcode_table_size (data.getD c 0)) 0
      = (if off then 0x34 else 0x02) + (N - 1))
    (hE2 : c + opcode_table_size (data.getD c 0) + 1 < (ptn_bounds data j).2) :
    ∀ fuel s s1, track_inv data i s.pt → s.pt.outer_data_i ≠ 0 →
      track_loop data i (trk_bounds data i).2 fuel s = some s1 →
      Fed.event i j c ∈ s1.log → Fed.event i j c ∉ s.log →
      s1.pt.inner_data_i = c + opcode_table_size (data.getD c 0) ∧ s1.pt.delay = N ∧
      data.getD s1.pt.outer_data_i 0 = j ∧ s1.pt.outer_data_i < (trk_bounds data i).2 ∧
      s1.pt.outer_data_i ≠ 0 := by
  intro fuel
  induction fuel with
  | zero => intro s s1 _ _ h; simp [track_loop] at h
  | succ n ih =>
    intro s s1 hinv ho h hfed hnf
    rw [track_loop_step] at h
    by_cases hlt : s.pt.outer_data_i < (trk_bounds data i).2
    · rw [if_pos hlt] at h
      obtain ⟨hb1, hb2, _⟩ := body_inv data i s hwf hi hinv ho hlt
      by_cases hmem : Fed.event i j c ∈ (track_body data i s).2.log
      · obtain ⟨hsw, hcmd, hj, hc⟩ := body_event_entry data i s j c hmem hnf
        have hdz := inv_delay_zero data i s.pt hinv hcmd
        obtain ⟨hL, hte, _, hel, he0, hle, hse, hev, hlt2⟩ :=
          head_facts data i s.pt hwf hi hinv ho hlt
        obtain ⟨_, hA1, hA2, hA3⟩ := inv_adv data i s.pt hwf hi hinv ho hlt hsw
        have hbf := body_feed data i s hsw hcmd
        rw [feed_size_drop data s.rt i _ (by have := hlt2 hsw; omega),
          Nat.mod_eq_of_lt hA3, ← hc] at hbf
        have hB1 : (track_body data i s).1 = true := by rw [hbf]
        have hBo : (track_body data i s).2.pt.outer_data_i = s.pt.outer_data_i := by rw [hbf]
        have hBi : (track_body data i s).2.pt.inner_data_i
            = c + opcode_table_size (data.getD c 0) := by rw [hbf]
        have hBd : (track_body data i s).2.pt.delay = 0 := by rw [hbf]; exact hdz
        rw [if_pos hB1] at h
        generalize (track_body data i s).2 = s2 at h hBo hBi hBd
        have hp := size_pos _ (show data.getD c 0 ≤ 0xf5 by
          rw [hc]; exact (events_next data _ _ hev (hlt2 hsw)).1)
        cases n with
        | zero => simp [track_loop] at h
        | succ n2 =>
          rw [track_loop_step, if_pos (by rw [hBo]; exact hlt),
            body_wait data i s2 _ N off hN hd hBi (by omega) (by rw [hBo, ← hj]; omega)] at h
          unfold delay_branch at h
          simp only [if_pos hBd] at h
          simp only [Bool.false_eq_true, if_false, Option.some.injEq] at h
          rw [← h]
          simp only []
          refine ⟨trivial, Nat.mod_eq_of_lt (by omega), ?_, ?_, ?_⟩
          · rw [hBo, ← hj]
          · rw [hBo]; exact hlt
          · rw [hBo]; exact ho
      · by_cases hb : (track_body data i s).1 = true
        · rw [if_pos hb] at h
          exact ih _ _ hb1 hb2 h hfed hmem
        · rw [if_neg hb] at h
          simp only [Option.some.injEq] at h
          rw [← h] at hfed
          exact absurd hfed hmem
    · rw [if_neg hlt] at h
      simp only [Option.some.injEq] at h
      rw [← h] at hfed
      exact absurd hfed hnf

theorem loop_log_prefix (data : List Nat) (i te : Nat) :
    ∀ fuel s s1, track_loop data i te fuel s = some s1 → ∃ rest, s1.log = s.log ++ rest := by
  intro fuel
  induction fuel with
  | zero => intro s s1 h; simp [track_loop] at h
  | succ n ih =>
    intro s s1 h
    rw [track_loop_step] at h
    have hb : ∃ r, (track_body data i s).2.log = s.log ++ r := by
      by_cases hsw : s.pt.inner_data_i ≥ (ptn_bounds data (data.getD s.pt.outer_data_i 0)).2
      · rw [body_switch _ _ _ hsw]
        exact ⟨[], by simp⟩
      · by_cases hc : data.getD (eff_inner data s.pt) 0 < 0x66
        · rw [body_delay _ _ _ hsw hc]
          unfold delay_branch
          split_ifs
          · exact ⟨[], by simp⟩
          · exact ⟨_, rfl⟩
          · exact ⟨[], by simp⟩
          · exact ⟨[], by simp⟩
        · rw [body_feed _ _ _ hsw (by omega)]
          exact ⟨_, rfl⟩
    obtain ⟨r, hr⟩ := hb
    split_ifs at h with h1 h2
    · obtain ⟨r2, hr2⟩ := ih _ _ h
      exact ⟨r ++ r2, by rw [hr2, hr, List.append_assoc]⟩
    · simp only [Option.some.injEq] at h
      rw [← h]
      exact ⟨r, hr⟩
    · simp only [Option.some.injEq] at h
      rw [← h]
      exact ⟨[], by simp⟩

/-- A tick that finds track `i` waiting on a short delay with at least 2 ticks left only
decrements the delay. -/
theorem loop_wait (data : List Nat) (i te fuel : Nat) (s s1 : LoopSt) (d N : Nat) (off : Bool)
    (hN : 1 ≤ N ∧ N ≤ 50)
    (hd : data.getD d 0 = (if off then 0x34 else 0x02) + (N - 1))
    (hin : s.pt.inner_data_i = d) (hd0 : d ≠ 0)
    (hlt : d < (ptn_bounds data (data.getD s.pt.outer_data_i 0)).2)
    (ho : s.pt.outer_data_i < te) (hm : 2 ≤ s.pt.delay) (hm2 : s.pt.delay < 65536)
    (h : track_loop data i te fuel s = some s1) :
    s1 = { s with pt := { s.pt with inner_data_i := d, delay := s.pt.delay - 1 } } := by
  cases fuel with
  | zero => simp [track_loop] at h
  | succ n =>
    rw [track_loop_step, if_pos ho, body_wait data i s d N off hN hd hin hd0 hlt] at h
    unfold delay_branch at h
    have h1 : ¬ s.pt.delay = 0 := by omega
    have h2 : ¬ (s.pt.delay - 1) % 65536 = 0 := by omega
    simp only [if_neg h1, if_neg h2, Bool.false_eq_true, if_false, Option.some.injEq] at h
    rw [← h, Nat.mod_eq_of_lt (by omega)]

/-- A tick that finds track `i` on the last tick of a short delay leaves the delay, feeds the
synthesized NOTES_OFF of the NOTES_OFF variant, and then feeds the event that follows. -/
theorem loop_fire (data : List Nat) (i te fuel : Nat) (s s1 : LoopSt) (d N : Nat) (off : Bool)
    (hN : 1 ≤ N ∧ N ≤ 50)
    (hd : data.getD d 0 = (if off then 0x34 else 0x02) + (N - 1))
    (hin : s.pt.inner_data_i = d) (hd0 : d ≠ 0)
    (hlt : d + 1 < (ptn_bounds data (data.getD s.pt.outer_data_i 0)).2)
    (hb : (ptn_bounds data (data.getD s.pt.outer_data_i 0)).2 < 65536)
    (hop : 0x66 ≤ data.getD (d + 1) 0)
    (ho : s.pt.outer_data_i < te) (hm : s.pt.delay = 1)
    (h : track_loop data i te fuel s = some s1) :
    ∃ rest, s1.log = s.log ++ ((if off then [Fed.notes_off i] else [])
      ++ Fed.event i (data.getD s.pt.outer_data_i 0) (d + 1) :: rest) := by
  cases fuel with
  | zero => simp [track_loop] at h
  | succ n =>
    rw [track_loop_step, if_pos ho, body_wait data i s d N off hN hd hin hd0 (by omega)] at h
    unfold delay_branch at h
    have h1 : ¬ s.pt.delay = 0 := by omega
    have h2 : (s.pt.delay - 1) % 65536 = 0 := by rw [hm]
    simp only [if_neg h1, if_pos h2, if_true, Nat.mod_eq_of_lt (show d + 1 < 65536 by omega)]
      at h
    cases n with
    | zero => simp [track_loop] at h
    | succ n2 =>
      have he : eff_inner data { s.pt with inner_data_i := d + 1, delay := 0 } = d + 1 := by
        unfold eff_inner
        simp
      rw [track_loop_step, if_pos (by simpa using ho),
        body_feed _ _ _ (by simp only []; omega) (by rw [he]; exact hop)] at h
      simp only [if_true] at h
      obtain ⟨rest, hr⟩ := loop_log_prefix _ _ _ _ _ _ h
      refine ⟨rest, ?_⟩
      rw [hr]
      simp only [he]
      cases off <;> simp

/-! ## The runtime of a tick is the log of its feed calls, replayed -/

theorem replay_append (data : List Nat) (rt : RT) (l1 l2 : List Fed) :
    replay data rt (l1 ++ l2) = replay data (replay data rt l1) l2 := by
  unfold replay
  rw [List.foldl_append]

/-- One iteration of the event loop changes the runtime exactly by the calls it logs. -/
theorem body_replay (data : List Nat) (i : Nat) (s : LoopSt) (rt0 : RT)
    (h : s.rt = replay data rt0 s.log) :
    (track_body data i s).2.rt = replay data rt0 (track_body data i s).2.log := by
  by_cases hsw : s.pt.inner_data_i ≥ (ptn_bounds data (data.getD s.pt.outer_data_i 0)).2
  · rw [body_switch _ _ _ hsw]
    exact h
  · by_cases hc : data.getD (eff_inner data s.pt) 0 < 0x66
    · rw [body_delay _ _ _ hsw hc]
      unfold delay_branch
      by_cases h1 : s.pt.delay = 0
      · simp only [if_pos h1]
        exact h
      · by_cases h2 : (s.pt.delay - 1) % 65536 = 0
        · simp only [if_neg h1, if_pos h2]
          cases delay_off (data.getD (eff_inner data s.pt) 0)
          · simp only [Bool.false_eq_true, if_false]
            exact h
          · simp only [if_true]
            rw [replay_append, ← h]
            rfl
        · simp only [if_neg h1, if_neg h2]
          exact h
    · rw [body_feed _ _ _ hsw (by omega)]
      simp only []
      rw [replay_append, ← h]
      rfl

theorem loop_replay (data : List Nat) (i te : Nat) (rt0 : RT) :
    ∀ fuel s s1, track_loop data i te fuel s = some s1 → s.rt = replay data rt0 s.log →
      s1.rt = replay data rt0 s1.log := by
  intro fuel
  induction fuel with
  | zero => intro s s1 h; simp [track_loop] at h
  | succ n ih =>
    intro s s1 h hs
    rw [track_loop_step] at h
    have hb := body_replay data i s rt0 hs
    split_ifs at h with h1 h2
    · exact ih _ _ h hb
    · simp only [Option.some.injEq] at h
      rw [← h]
      exact hb
    · simp only [Option.some.injEq] at h
      rw [← h]
      exact hs

theorem tick_track_replay (fuel i : Nat) (st st1 : TickSt) (rt0 : RT)
    (h : tick_track fuel i st = some st1) (hs : st.rt = replay st.p.data rt0 st.log) :
    st1.p.data = st.p.data ∧ st1.rt = replay st.p.data rt0 st1.log := by
  unfold tick_track at h
  simp only [] at h
  cases hl : track_loop st.p.data i (trk_bounds st.p.data i).2 fuel
      { pt := lazy_pt st.p.data i (st.p.tracks.getD i default), rt := st.rt, log := [] } with
  | none =>
    rw [hl] at h
    simp at h
  | some s =>
    rw [hl] at h
    simp only [Option.some.injEq] at h
    have hr := loop_replay st.p.data i _ st.rt fuel _ s hl rfl
    rw [← h]
    simp only []
    rw [replay_append, ← hs]
    exact ⟨trivial, hr⟩

theorem tick_tracks_replay (fuel : Nat) (rt0 : RT) :
    ∀ (is : List Nat) (st st1 : TickSt), tick_tracks fuel is st = some st1 →
      st.rt = replay st.p.data rt0 st.log →
      st1.p.data = st.p.data ∧ st1.rt = replay st.p.data rt0 st1.log := by
  intro is
  induction is with
  | nil =>
    intro st st1 h hs
    simp only [tick_tracks, Option.some.injEq] at h
    rw [← h]
    exact ⟨rfl, hs⟩
  | cons i rest ih =>
    intro st st1 h hs
    simp only [tick_tracks] at h
    cases ht : tick_track fuel i st with
    | none =>
      rw [ht] at h
      simp at h
    | some st2 =>
      rw [ht] at h
      simp only [] at h
      obtain ⟨hd, hr⟩ := tick_track_replay fuel i st st2 rt0 ht hs
      rw [← hd] at hr
      obtain ⟨hd2, hr2⟩ := ih st2 st1 h hr
      rw [hd] at hd2 hr2
      exact ⟨hd2, hr2⟩

/-- The runtime a tick returns is the runtime it was given with the calls of its log made in
order, and the tick keeps the score. -/
theorem player_tick_replay (fuel : Nat) (p : Player) (rt : RT) (st : TickSt)
    (h : w4on2_player_tick fuel p rt = some st) :
    st.p.data = p.data ∧ st.rt = replay p.data rt st.log := by
  unfold w4on2_player_tick at h
  exact tick_tracks_replay fuel rt _ _ st h rfl

theorem run_data (fuel : Nat) (rts : Nat → RT) (p : Player) :
    ∀ m st, player_run fuel rts p m = some st → st.p.data = p.data := by
  intro m
  induction m with
  | zero =>
    intro st h
    exact (player_tick_replay fuel p (rts 0) st h).1
  | succ m ih =>
    intro st h
    simp only [player_run] at h
    cases hm : player_run fuel rts p m with
    | none =>
      rw [hm] at h
      simp at h
    | some st2 =>
      rw [hm] at h
      simp only [] at h
      rw [(player_tick_replay fuel st2.p (rts (m + 1)) st h).1]
      exact ih st2 hm

/-- Tick `m` of a run leaves the runtime `rts m` it was given with the calls of its log made
in order. -/
theorem run_replay (fuel : Nat) (rts : Nat → RT) (p : Player) (m : Nat) (st : TickSt)
    (h : player_run fuel rts p m = some st) : st.rt = replay p.data (rts m) st.log := by
  cases m with
  | zero => exact (player_tick_replay fuel p (rts 0) st h).2
  | succ m =>
    simp only [player_run] at h
    cases hm : player_run fuel rts p m with
    | none =>
      rw [hm] at h
      simp at h
    | some st2 =>
      rw [hm] at h
      simp only [] at h
      rw [← run_data fuel rts p m st2 hm]
      exact (player_tick_replay fuel st2.p (rts (m + 1)) st h).2

theorem preach_run (data : List Nat) (fuel : Nat) (rts : Nat → RT) (p : Player)
    (hp : PReach data p) :
    ∀ m st, player_run fuel rts p m = some st → PReach data st.p := by
  intro m
  induction m with
  | zero =>
    intro st h
    exact PReach.tick p (rts 0) fuel st hp h
  | succ m ih =>
    intro st h
    simp only [player_run] at h
    cases hm : player_run fuel rts p m with
    | none =>
      rw [hm] at h
      simp at h
    | some st2 =>
      rw [hm] at h
      simp only [] at h
      exact PReach.tick st2.p (rts (m + 1)) fuel st (ih st2 hm) h

theorem preach_after (data : List Nat) (fuel : Nat) (rts : Nat → RT) (p : Player) (m : Nat)
    (hp : PReach data p) : PReach data (player_after fuel rts p m) := by
  unfold player_after
  cases hm : player_run fuel rts p m with
  | none => exact hp
  | some st => exact preach_run data fuel rts p hp m st hm

/-! ## Claim C2: a short delay of N ticks -/

/-- C2: on a well-formed score, from a player state reachable from `w4on2_player_init`, let
tick 0 of a run of consecutive `w4on2_player_tick` calls feed, on track `i`, the event `E1`
found at offset `c` of pattern `j`, and let the pattern hold right after `E1` a short delay
opcode encoding `N` in 1..50 (`0x02 + N - 1`, or `0x34 + N - 1` for the NOTES_OFF variant) and
after it a non-delay event `E2`. Then every tick returns, ticks 1..N-1 feed nothing for track
`i`, and the calls tick `N` makes for track `i` start with `E2`, preceded for the NOTES_OFF
variant by exactly one synthesized NOTES_OFF. The calls are calls of `w4on2_rt_feed_event` on
the runtime: the runtime every one of these ticks leaves is the runtime it was given with the
calls of the tick made in order (`replay`). -/
theorem short_delay_timing (data : List Nat) (p : Player) (rts : Nat → RT)
    (fuel i j c N : Nat) (off : Bool) (st0 : TickSt)
    (hwf : score_wf data) (hp : PReach data p) (hf : player_fuel data ≤ fuel)
    (hN : 1 ≤ N ∧ N ≤ 50)
    (hd : data.getD (c + opcode_table_size (data.getD c 0)) 0
      = (if off then 0x34 else 0x02) + (N - 1))
    (hE2 : c + opcode_table_size (data.getD c 0) + 1 < (ptn_bounds data j).2)
    (hop : 0x66 ≤ data.getD (c + opcode_table_size (data.getD c 0) + 1) 0)
    (h0 : player_run fuel rts p 0 = some st0) (hfed : Fed.event i j c ∈ st0.log) :
    (∀ m, 1 ≤ m → m < N → ∃ st, player_run fuel rts p m = some st ∧
      st.log.filter (fun f => decide (f.track = i)) = [] ∧
      st.rt = replay data (rts m) st.log) ∧
    (∃ st rest, player_run fuel rts p N = some st ∧
      st.log.filter (fun f => decide (f.track = i))
        = (if off then [Fed.notes_off i] else [])
          ++ Fed.event i j (c + opcode_table_size (data.getD c 0) + 1) :: rest ∧
      st.rt = replay data (rts N) st.log) := by
  have hinv0 := preach_inv data p hwf hp
  obtain ⟨st, hst, hinvst, _, hnone, htracks⟩ :=
    player_tick_some data fuel p (rts 0) hwf hf hinv0
  have hst0 : st = st0 := by
    have : player_run fuel rts p 0 = w4on2_player_tick fuel p (rts 0) := rfl
    rw [this, hst] at h0
    simpa using h0
  subst hst0
  have hi : i < data.getD 3 0 := by
    by_contra hni
    have h1 := hnone i hni
    have h2 : Fed.event i j c ∈ st.log.filter (fun f => decide (f.track = i)) :=
      List.mem_filter.2 ⟨hfed, by simp [Fed.track]⟩
    rw [h1] at h2
    exact absurd h2 (List.not_mem_nil _)
  obtain ⟨rt_in, s1, hl, hpt, hlog⟩ := htracks i hi
  have hfed1 : Fed.event i j c ∈ s1.log := by
    rw [← hlog]
    exact List.mem_filter.2 ⟨hfed, by simp [Fed.track]⟩
  obtain ⟨hlz1, hlz2⟩ := lazy_pt_inv data i _ hwf hi (hinv0.2.2 i hi)
  obtain ⟨f1, f2, f3, f4, f5⟩ := loop_fed data i j c N off hwf hi hN hd hE2 fuel _ s1
    hlz1 hlz2 hl hfed1 (by simp)
  -- the pattern end is inside the score
  have hinv1 := hinvst.2.2 i hi
  rw [hpt] at hinv1
  have hjP : j < data.getD 2 0 := by
    rw [← f3]
    exact (hwf.2.2.2.1 i hi).2.2.2 _ f4 (hinv1.2.1 f5).1
  have hL := score_sz_lt data
  have hE : (ptn_bounds data j).2 < 65536 := by
    have := (hwf.2.2.2.2 j hjP).2.2.1
    have := hwf.1
    omega
  have hpos : c + opcode_table_size (data.getD c 0) ≠ 0 := by
    have h3 := hinv1.2.2.2 (by rw [f2]; omega)
    rw [f1] at h3
    exact h3.1
  have chain : ∀ k, k < N → ∃ stk, player_run fuel rts p k = some stk ∧
      player_inv data stk.p ∧
      stk.p.tracks.getD i default = (⟨s1.pt.outer_data_i, c + opcode_table_size (data.getD c 0), N - k⟩ : PlayerTrack) ∧
      (1 ≤ k → stk.log.filter (fun f => decide (f.track = i)) = []) := by
    intro k
    induction k with
    | zero =>
      intro _
      refine ⟨st, h0, hinvst, ?_, fun h => by omega⟩
      have e0 : s1.pt = ⟨s1.pt.outer_data_i, s1.pt.inner_data_i, s1.pt.delay⟩ := rfl
      rw [f1, f2] at e0
      rw [hpt]
      exact e0
    | succ k ih =>
      intro hk
      obtain ⟨stk, hk1, hk2, hk3, _⟩ := ih (by omega)
      obtain ⟨st2, ht2, hinv2, _, _, htr2⟩ :=
        player_tick_some data fuel stk.p (rts (k + 1)) hwf hf hk2
      obtain ⟨rt2, s2, hl2, hpt2, hlog2⟩ := htr2 i hi
      rw [hk3] at hl2
      have hlz : lazy_pt data i
          ⟨s1.pt.outer_data_i, c + opcode_table_size (data.getD c 0), N - k⟩
          = ⟨s1.pt.outer_data_i, c + opcode_table_size (data.getD c 0), N - k⟩ := by
        unfold lazy_pt
        rw [if_neg f5]
      rw [hlz] at hl2
      have hw := loop_wait data i _ fuel
        ⟨⟨s1.pt.outer_data_i, c + opcode_table_size (data.getD c 0), N - k⟩, rt2, []⟩ s2
        _ N off hN hd rfl hpos
        (by simp only []; rw [f3]; omega) f4 (by simp only []; omega)
        (by simp only []; omega) hl2
      refine ⟨st2, ?_, hinv2, ?_, fun _ => ?_⟩
      · simp only [player_run, hk1]
        exact ht2
      · rw [hpt2, hw]
        simp only [PlayerTrack.mk.injEq, true_and]
        omega
      · rw [hlog2, hw]
  have hdata : p.data = data := hinv0.1
  refine ⟨fun m hm1 hm2 => ?_, ?_⟩
  · obtain ⟨stk, hk1, _, _, hk4⟩ := chain m hm2
    exact ⟨stk, hk1, hk4 hm1, by rw [← hdata]; exact run_replay fuel rts p m stk hk1⟩
  · obtain ⟨stk, hk1, hk2, hk3, _⟩ := chain (N - 1) (by omega)
    obtain ⟨st2, ht2, _, _, _, htr2⟩ :=
      player_tick_some data fuel stk.p (rts (N - 1 + 1)) hwf hf hk2
    obtain ⟨rt2, s2, hl2, _, hlog2⟩ := htr2 i hi
    rw [hk3] at hl2
    have hlz : lazy_pt data i
        ⟨s1.pt.outer_data_i, c + opcode_table_size (data.getD c 0), N - (N - 1)⟩
        = ⟨s1.pt.outer_data_i, c + opcode_table_size (data.getD c 0), N - (N - 1)⟩ := by
      unfold lazy_pt
      rw [if_neg f5]
    rw [hlz] at hl2
    obtain ⟨rest, hrest⟩ := loop_fire data i _ fuel
      ⟨⟨s1.pt.outer_data_i, c + opcode_table_size (data.getD c 0), N - (N - 1)⟩, rt2, []⟩ s2
      _ N off hN hd rfl hpos
      (by simp only []; rw [f3]; omega) (by simp only []; rw [f3]; exact hE) hop f4
      (by simp only []; omega) hl2
    have hrun : player_run fuel rts p N = some st2 := by
      have hN1 : N = N - 1 + 1 := by omega
      rw [hN1]
      simp only [player_run, hk1]
      exact ht2
    refine ⟨st2, rest, hrun, ?_, ?_⟩
    · rw [hlog2, hrest]
      simp only [List.nil_append, f3]
    · rw [← hdata]
      exact run_replay fuel rts p N st2 hrun

set_option maxRecDepth 100000 in
/-- Witness for C2 (scenario S5, every tick given the runtime `sustain_state`, in which track 0
holds key 69 at volume 255): NOTE_ON(60) at offset 8 of pattern 0 is fed on tick 0, the
NOTES_OFF delay of 10 ticks follows, and tick 10 feeds the NOTES_OFF and then the event at
offset 10, SET_VOLUME(200), to the runtime: it leaves channel 0 with no key and track 0 with
volume 200. -/
theorem short_delay_timing_witness :
    (∀ m, 1 ≤ m → m < 10 → ∃ st, player_run (player_fuel s5_score) (fun _ => sustain_state)
        (w4on2_player_init s5_score) m = some st ∧
      st.log.filter (fun f => decide (f.track = 0)) = [] ∧
      st.rt = replay s5_score sustain_state st.log) ∧
    (∃ st rest, player_run (player_fuel s5_score) (fun _ => sustain_state)
        (w4on2_player_init s5_score) 10 = some st ∧
      st.log.filter (fun f => decide (f.track = 0))
        = [Fed.notes_off 0] ++ Fed.event 0 0 10 :: rest ∧
      st.rt = replay s5_score sustain_state st.log) ∧
    ((sustain_state.channels.getD 0 default).active_key_count = 1 ∧
      (player_run (player_fuel s5_score) (fun _ => sustain_state)
        (w4on2_player_init s5_score) 10).map
          (fun st => ((st.rt.channels.getD 0 default).active_key_count,
            (st.rt.tracks.getD 0 default).volume)) = some (0, 200)) := by
  cases h0 : player_run (player_fuel s5_score) (fun _ => sustain_state)
      (w4on2_player_init s5_score) 0 with
  | none => exact absurd h0 (by decide)
  | some st0 =>
    have hall : (player_run (player_fuel s5_score) (fun _ => sustain_state)
        (w4on2_player_init s5_score) 0).all
          (fun st => decide (Fed.event 0 0 8 ∈ st.log)) = true := by decide
    rw [h0] at hall
    have hfed : Fed.event 0 0 8 ∈ st0.log := by simpa using hall
    have h := short_delay_timing s5_score (w4on2_player_init s5_score)
      (fun _ => sustain_state) (player_fuel s5_score) 0 0 8 10 true st0 (by decide)
      PReach.init (Nat.le_refl _) (by decide) (by decide) (by decide) (by decide) h0 hfed
    exact ⟨h.1, h.2, by decide⟩

set_option maxRecDepth 100000 in
/-- Scenario S5 with the host loop: after host tick 0 channel 0 holds key 60; ten host ticks
later it still holds it and `first_trigger_ticks` has reached 10; player tick 10 feeds the
NOTES_OFF: `active_key_count` becomes 0 and `first_trigger_ticks` is reset to 0. -/
theorem s5_scenario :
    (host_run (player_fuel s5_score) 1 (w4on2_player_init s5_score) w4on2_rt_init).map
      (fun r => ((r.2.channels.getD 0 default).active_key_count,
        (r.2.channels.getD 0 default).note_keys.getD 0 0)) = some (1, 60) ∧
    (host_run (player_fuel s5_score) 10 (w4on2_player_init s5_score) w4on2_rt_init).map
      (fun r => ((r.2.channels.getD 0 default).active_key_count,
        (r.2.channels.getD 0 default).first_trigger_ticks)) = some (1, 10) ∧
    ((host_run (player_fuel s5_score) 10 (w4on2_player_init s5_score) w4on2_rt_init).bind
      (fun r => w4on2_player_tick (player_fuel s5_score) r.1 r.2)).map
      (fun st => ((st.rt.channels.getD 0 default).active_key_count,
        (st.rt.channels.getD 0 default).first_trigger_ticks)) = some (0, 0) := by
  decide

/-! ## Claim C3: the value returned by a tick -/

set_option maxRecDepth 100000 in
/-- C3 as stated fails: on `note_delay_score` the second tick returns 1, but after it the
outer cursor of the only track has reached the track end, so no track is below its end. -/
theorem tick_count_counterexample :
    score_wf note_delay_score ∧
    (player_run (player_fuel note_delay_score) (fun _ => w4on2_rt_init)
      (w4on2_player_init note_delay_score) 1).map
        (fun st => (st.active_tracks, count_below_end st.p)) = some (1, 0) := by
  decide

/-- C3 (amended): on a well-formed score, from every player state reachable from
`w4on2_player_init`, `w4on2_player_tick` returns, and the value it returns is the number of
tracks `i < track_count` whose outer cursor, after the lazy initialisation to the track
start, is below the track's end when the call starts, before the events of this call are
handled. -/
theorem tick_count (data : List Nat) (p : Player) (rt : RT) (fuel : Nat)
    (hwf : score_wf data) (hp : PReach data p) (hf : player_fuel data ≤ fuel) :
    ∃ st, w4on2_player_tick fuel p rt = some st ∧ st.active_tracks = count_active p := by
  obtain ⟨st, h1, _, h3, _⟩ :=
    player_tick_some data fuel p rt hwf hf (preach_inv data p hwf hp)
  exact ⟨st, h1, h3⟩

set_option maxRecDepth 100000 in
/-- Witness for C3 (amended): the first tick on `note_delay_score`. -/
theorem tick_count_witness :
    ∃ st, w4on2_player_tick (player_fuel note_delay_score)
        (w4on2_player_init note_delay_score) w4on2_rt_init = some st ∧
      st.active_tracks = count_active (w4on2_player_init note_delay_score) :=
  tick_count note_delay_score (w4on2_player_init note_delay_score) w4on2_rt_init
    (player_fuel note_delay_score) (by decide) PReach.init (Nat.le_refl _)

/-! ## Claim C11: at most one tone call per channel and tick -/

theorem channel_tones_length (track : Track) (ch : Channel) :
    (channel_tones track ch).length ≤ 1 := by
  unfold channel_tones
  simp only []
  split_ifs <;> simp

theorem tick_channel_tones_length (rt : RT) (ch : Channel) :
    (tick_channel_tones rt ch).length ≤ 1 := by
  unfold tick_channel_tones
  split_ifs
  · simp
  · exact channel_tones_length _ _

/-- C11: a single `w4on2_rt_tick` call makes at most one tone call for each of the 4 channel
slots, at most 4 tone calls in total, and none for a channel whose `active_track_i` is not a
track index (16 or more). -/
theorem tick_one_call_per_channel (rt : RT) (hlen : rt.channels.length = 4) :
    (∀ c, c < 4 → (tones_of c (w4on2_rt_tick rt).2).length ≤ 1) ∧
    (w4on2_rt_tick rt).2.length ≤ 4 ∧
    (∀ e ∈ (w4on2_rt_tick rt).2, e.1 < 4) ∧
    (∀ c, c < 4 → (rt.channels.getD c default).active_track_i ≥ 16 →
      tones_of c (w4on2_rt_tick rt).2 = []) := by
  refine ⟨fun c hc => ?_, ?_, ?_, fun c hc h16 => ?_⟩
  · rw [rt_tick_tones rt hlen c hc]
    exact tick_channel_tones_length _ _
  · obtain ⟨tracks, channels⟩ := rt
    obtain ⟨c0, c1, c2, c3, rfl⟩ := length_four channels hlen
    rw [rt_tick_four]
    simp only [List.length_append, List.length_map]
    have h0 := tick_channel_tones_length ⟨tracks, [c0, c1, c2, c3]⟩ c0
    have h1 := tick_channel_tones_length ⟨tracks, [c0, c1, c2, c3]⟩ c1
    have h2 := tick_channel_tones_length ⟨tracks, [c0, c1, c2, c3]⟩ c2
    have h3 := tick_channel_tones_length ⟨tracks, [c0, c1, c2, c3]⟩ c3
    omega
  · obtain ⟨tracks, channels⟩ := rt
    obtain ⟨c0, c1, c2, c3, rfl⟩ := length_four channels hlen
    rw [rt_tick_four]
    intro e he
    simp only [List.mem_append, List.mem_map] at he
    rcases he with ((⟨_, _, rfl⟩ | ⟨_, _, rfl⟩) | ⟨_, _, rfl⟩) | ⟨_, _, rfl⟩ <;> simp
  · rw [rt_tick_tones rt hlen c hc]
    unfold tick_channel_tones
    rw [if_pos h16]

set_option maxRecDepth 100000 in
/-- Witness for C11: the arpeggio state of scenario S3, where channel 0 sounds and channels
1..3 have no owner. -/
theorem tick_one_call_per_channel_witness :
    (w4on2_rt_tick (arp_state 0)).2.length ≤ 4 ∧
    (tones_of 0 (w4on2_rt_tick (arp_state 0)).2).length = 1 ∧
    tones_of 1 (w4on2_rt_tick (arp_state 0)).2 = [] :=
  have h := tick_one_call_per_channel (arp_state 0) (by decide)
  ⟨h.2.1, by decide, h.2.2.2 1 (by decide) (by decide)⟩

/-! ## Claim C13: saturation of the tick counters -/

theorem rt_tick_n_state (n : Nat) (rt : RT) (h : rt.channels.length = 4) :
    rt_tick_n n rt = { rt with channels := rt.channels.map (tick_channel_state^[n]) } := by
  induction n generalizing rt with
  | zero => simp [rt_tick_n]
  | succ n ih =>
    rw [rt_tick_n, ih _ (by rw [rt_tick_state rt h]; simpa using h), rt_tick_state rt h]
    simp only [List.map_map, RT.mk.injEq, true_and]
    apply List.map_congr_left
    intro ch _
    simp [Function.iterate_succ_apply]

theorem tick_channel_state_unowned (n : Nat) (ch : Channel) (h : ch.active_track_i ≥ 16) :
    tick_channel_state^[n] ch = ch := by
  have h1 : tick_channel_state ch = ch := by
    unfold tick_channel_state
    rw [if_pos h]
  induction n with
  | zero => rfl
  | succ n ih => rw [Function.iterate_succ_apply, h1, ih]

theorem adv_ftt (ch : Channel) : (channel_advance ch).first_trigger_ticks
        = if ch.first_trigger_ticks < 0xffff then ch.first_trigger_ticks + 1
          else ch.first_trigger_ticks := by
  unfold channel_advance
  simp only []
  split_ifs <;> rfl

theorem adv_ltt (ch : Channel) : (channel_advance ch).last_trigger_ticks
        = if ch.last_trigger_ticks < 0xff then ch.last_trigger_ticks + 1
          else ch.last_trigger_ticks := by
  unfold channel_advance
  simp only []
  split_ifs <;> rfl

theorem min_step (x n : Nat) (h : x ≤ 0xffff) :
    min ((if x < 0xffff then x + 1 else x) + n) 0xffff = min (x + (n + 1)) 0xffff := by
  split_ifs <;> omega

theorem min_step_byte (x n : Nat) (h : x ≤ 0xff) :
    min ((if x < 0xff then x + 1 else x) + n) 0xff = min (x + (n + 1)) 0xff := by
  split_ifs <;> omega

theorem tick_channel_state_owned (n : Nat) :
    ∀ ch : Channel, ch.active_track_i < 16 → ch.first_trigger_ticks ≤ 0xffff →
      ch.last_trigger_ticks ≤ 0xff →
      (tick_channel_state^[n] ch).first_trigger_ticks
        = min (ch.first_trigger_ticks + n) 0xffff ∧
      (tick_channel_state^[n] ch).last_trigger_ticks
        = min (ch.last_trigger_ticks + n) 0xff := by
  induction n with
  | zero =>
    intro ch _ h1 h2
    exact ⟨(Nat.min_eq_left h1).symm, (Nat.min_eq_left h2).symm⟩
  | succ n ih =>
    intro ch h h1 h2
    rw [Function.iterate_succ_apply]
    have hs : tick_channel_state ch = channel_advance ch := by
      unfold tick_channel_state
      rw [if_neg (by have := lim_val; omega)]
    have ha := channel_advance_count ch
    rw [hs]
    obtain ⟨e1, e2⟩ := ih (channel_advance ch) (by rw [ha.2.2]; exact h)
      (by rw [adv_ftt]; split_ifs <;> omega) (by rw [adv_ltt]; split_ifs <;> omega)
    rw [e1, e2, adv_ftt, adv_ltt]
    exact ⟨min_step _ _ h1, min_step_byte _ _ h2⟩

/-- C13 as stated fails: the channels of a fresh runtime have no owner (`active_track_i` is
0xff), `w4on2_rt_tick` skips them, and after 70000 ticks both counters are still 0. -/
theorem saturation_counterexample :
    ((rt_tick_n 70000 w4on2_rt_init).channels.getD 0 default).first_trigger_ticks = 0 ∧
    ((rt_tick_n 70000 w4on2_rt_init).channels.getD 0 default).last_trigger_ticks = 0 := by
  rw [rt_tick_n_state 70000 _ (by decide)]
  simp only []
  rw [getD_map_channel _ _ _ (by decide),
    tick_channel_state_unowned _ _ (by decide)]
  decide

/-- C13 (amended): for every runtime state, after 70000 consecutive `w4on2_rt_tick` calls with
no event fed in between, every channel that has an owning track (`active_track_i < 16`) has
`first_trigger_ticks = 0xFFFF` and `last_trigger_ticks = 0xFF`; the counters are a `uint16_t`
and a `uint8_t`. -/
theorem saturation (rt : RT) (c : Nat) (hlen : rt.channels.length = 4) (hc : c < 4)
    (hown : (rt.channels.getD c default).active_track_i < 16)
    (h1 : (rt.channels.getD c default).first_trigger_ticks ≤ 0xffff)
    (h2 : (rt.channels.getD c default).last_trigger_ticks ≤ 0xff) :
    ((rt_tick_n 70000 rt).channels.getD c default).first_trigger_ticks = 0xffff ∧
    ((rt_tick_n 70000 rt).channels.getD c default).last_trigger_ticks = 0xff := by
  rw [rt_tick_n_state 70000 rt hlen]
  simp only []
  rw [getD_map_channel _ _ _ (by omega)]
  obtain ⟨e1, e2⟩ := tick_channel_state_owned 70000 _ hown h1 h2
  rw [e1, e2]
  omega

/-- Witness for C13 (amended): channel 0 after NOTE_ON(69) on track 0. -/
theorem saturation_witness :
    ((rt_tick_n 70000 sustain_state).channels.getD 0 default).first_trigger_ticks = 0xffff ∧
    ((rt_tick_n 70000 sustain_state).channels.getD 0 default).last_trigger_ticks = 0xff :=
  saturation sustain_state 0 (by decide) (by decide) (by decide) (by decide) (by decide)

/-! ## SET events -/

/-- A SET event writes the addressed track and nothing else. -/
theorem feed_set_eq (rt : RT) (track_i cmd : Nat) (rest : List Nat)
    (h1 : 0xe7 ≤ cmd) (h2 : cmd ≤ 0xf5) :
    w4on2_rt_feed_event rt track_i (cmd :: rest) =
      ({ rt with
          tracks := rt.tracks.set track_i
            (set_event_effect cmd (cmd :: rest) (rt.tracks.getD track_i default)) },
        opcode_table_size cmd) := by
  have hb : cmd = 0xe7 ∨ cmd = 0xe8 ∨ cmd = 0xe9 ∨ cmd = 0xea ∨ cmd = 0xeb ∨ cmd = 0xec
      ∨ cmd = 0xed ∨ cmd = 0xee ∨ cmd = 0xef ∨ cmd = 0xf0 ∨ cmd = 0xf1 ∨ cmd = 0xf2
      ∨ cmd = 0xf3 ∨ cmd = 0xf4 ∨ cmd = 0xf5 := by omega
  rcases hb with h | h | h | h | h | h | h | h | h | h | h | h | h | h | h <;>
    (subst h; rfl)

theorem feed_reserved (rt : RT) (track_i cmd : Nat) (rest : List Nat) (h : 0xf6 ≤ cmd) :
    w4on2_rt_feed_event rt track_i (cmd :: rest) = (rt, 0) := by
  have hc := fmt_val
  unfold w4on2_rt_feed_event
  simp (disch := omega) only [List.getD_cons_zero, if_neg, if_pos, if_true, if_false]

theorem set_effect_flags (cmd : Nat) (data : List Nat) (t : Track) (h : cmd ≠ 0xe7) :
    (set_event_effect cmd data t).flags &&& 3 = t.flags &&& 3 := by
  unfold set_event_effect
  rw [if_neg h]
  by_cases hp : 0xe9 ≤ cmd ∧ cmd ≤ 0xeb
  · have h8 : ¬ cmd = 0xe8 := by omega
    rw [if_neg h8, if_pos hp]
    simp only []
    have e3 : ∀ x : Nat, x &&& 3 = x % 4 := fun x => Nat.and_pow_two_sub_one_eq_mod x 2
    rw [e3 (_ % 256), Nat.mod_mod_of_dvd _ (by decide : 4 ∣ 256), ← e3,
      Nat.and_distrib_right, Nat.and_assoc]
    have hz : ((cmd - 0xe9) <<< 4) &&& 3 = 0 := by
      have : cmd - 0xe9 = 0 ∨ cmd - 0xe9 = 1 ∨ cmd - 0xe9 = 2 := by omega
      rcases this with h | h | h <;> rw [h] <;> decide
    have h207 : (207 &&& 3 : Nat) = 3 := by decide
    rw [hz, h207]
    simp
  · have hb : cmd = 0xe8 ∨ cmd = 0xec ∨ cmd = 0xed ∨ cmd = 0xee ∨ cmd = 0xef ∨ cmd = 0xf0
        ∨ cmd = 0xf1 ∨ cmd = 0xf2 ∨ cmd = 0xf3 ∨ cmd = 0xf4 ∨ cmd = 0xf5
        ∨ (cmd < 0xe7 ∨ 0xf6 ≤ cmd) := by omega
    rcases hb with h | h | h | h | h | h | h | h | h | h | h | h
    all_goals first
      | (subst h; rfl)
      | simp (disch := omega) only [if_neg, if_pos, if_true, if_false]

/-! ## Claim C12: oscillator indices of the tone calls of one tick -/

theorem note_on_owner (ch : Channel) (track_i cmd : Nat) :
    (note_on ch track_i cmd).active_track_i = track_i := by
  unfold note_on
  simp only []
  split_ifs with h <;> simp_all

theorem reachable_of_aligned (rt : RT) (h : ReachableAligned rt) : Reachable rt := by
  induction h with
  | init => exact Reachable.init
  | feed rt t data _ ht _ ih => exact Reachable.feed rt t data ih ht
  | tick rt _ ih => exact Reachable.tick rt ih

theorem aligned_set_channel (rt : RT) (c0 : Nat) (ch : Channel) (h : osc_aligned rt)
    (hlen : rt.channels.length = 4) (hc0 : c0 < 4)
    (hch : ch.active_track_i < 16 → (rt.tracks.getD ch.active_track_i default).flags &&& 3 = c0) :
    osc_aligned { rt with channels := rt.channels.set c0 ch } := by
  intro c hc
  simp only []
  by_cases hcc : c0 = c
  · subst hcc
    rw [getD_set_self _ _ _ _ (by omega)]
    exact hch
  · rw [getD_set_other _ _ _ _ _ hcc]
    exact h c hc

theorem aligned_feed (rt : RT) (t : Nat) (data : List Nat) (h : osc_aligned rt)
    (hwf : rt.wf) (ht : t < 16)
    (hside : data.getD 0 0 = 0xe7 → ∀ c, c < 4 →
      (rt.channels.getD c default).active_track_i = t → data.getD 1 0 &&& 3 = c) :
    osc_aligned (w4on2_rt_feed_event rt t data).1 := by
  have hlen : rt.channels.length = 4 := hwf.2.1
  have htl : rt.tracks.length = 16 := hwf.1
  have h4 := land3_lt (rt.tracks.getD t default).flags
  cases data with
  | nil => rw [feed_nil]; exact h
  | cons cmd rest =>
    by_cases h1 : cmd < 0x66
    · rw [feed_delay rt t cmd rest h1]; exact h
    by_cases h2 : cmd < 0xe6
    · rw [feed_note_on rt t cmd rest (by omega) h2]
      apply aligned_set_channel rt _ _ h hlen h4
      intro _
      rw [note_on_owner]
    by_cases h3 : cmd = 0xe6
    · subst h3
      rw [feed_notes_off]
      apply aligned_set_channel rt _ _ h hlen h4
      rw [notes_off_owner]
      exact h _ h4
    by_cases h5 : cmd ≤ 0xf5
    · rw [feed_set_eq rt t cmd rest (by omega) h5]
      intro c hc hown
      simp only [] at hown ⊢
      by_cases hk : (rt.channels.getD c default).active_track_i = t
      · rw [hk, getD_set_self _ _ _ _ (by omega)]
        by_cases h7 : cmd = 0xe7
        · have hs := hside (by simpa using h7) c hc hk
          subst h7
          simpa [set_event_effect] using hs
        · rw [set_effect_flags _ _ _ h7, ← hk]
          exact h c hc hown
      · rw [getD_set_other _ _ _ _ _ (Ne.symm hk)]
        exact h c hc hown
    · rw [feed_reserved rt t cmd rest (by omega)]; exact h

theorem aligned_tick (rt : RT) (h : osc_aligned rt) (hlen : rt.channels.length = 4) :
    osc_aligned (w4on2_rt_tick rt).1 := by
  rw [rt_tick_state rt hlen]
  intro c hc
  simp only []
  rw [getD_map_channel _ _ _ (by omega), (tick_channel_state_same _).2.2]
  exact h c hc

theorem aligned_init : osc_aligned w4on2_rt_init := by
  unfold osc_aligned
  decide

theorem reachable_aligned_inv (rt : RT) (h : ReachableAligned rt) : osc_aligned rt := by
  induction h with
  | init => exact aligned_init
  | feed rt t data hr ht hside ih =>
    exact aligned_feed rt t data ih (reachable_key_inv rt (reachable_of_aligned rt hr)).1 ht hside
  | tick rt hr ih =>
    exact aligned_tick rt ih (reachable_key_inv rt (reachable_of_aligned rt hr)).1.2.1

theorem or_bit6_and3 (x : Nat) : (x ||| 0x40) &&& 3 = x &&& 3 := by
  rw [Nat.and_distrib_right]
  have : (0x40 &&& 3 : Nat) = 0 := by decide
  rw [this, Nat.or_zero]

theorem tick_tones_flags (rt : RT) (ch : Channel) :
    ∀ call ∈ tick_channel_tones rt ch, ch.active_track_i < 16 ∧
      call.flags &&& 3 = (rt.tracks.getD ch.active_track_i default).flags &&& 3 := by
  intro call hcall
  have hl := lim_val
  unfold tick_channel_tones at hcall
  by_cases h16 : ch.active_track_i ≥ W4ON2_TRACK_COUNT
  · rw [if_pos h16] at hcall
    exact absurd hcall (List.not_mem_nil _)
  · rw [if_neg h16] at hcall
    refine ⟨by omega, ?_⟩
    unfold channel_tones at hcall
    simp only [] at hcall
    split_ifs at hcall <;> simp only [List.mem_singleton, List.not_mem_nil] at hcall <;>
      (rw [hcall]; exact or_bit6_and3 _)

theorem map_osc (c : Nat) (l : List ToneCall) (h : ∀ call ∈ l, call.flags &&& 3 = c) :
    (l.map (fun x => (c, x))).map (fun e => e.2.flags &&& 3) = List.replicate l.length c := by
  induction l with
  | nil => rfl
  | cons x xs ih =>
    simp only [List.map_cons, List.length_cons, List.replicate_succ, List.cons.injEq]
    exact ⟨h x (List.mem_cons_self x xs), ih (fun y hy => h y (List.mem_cons_of_mem x hy))⟩

theorem aligned_distinct (rt : RT) (hlen : rt.channels.length = 4) (h : osc_aligned rt) :
    ((w4on2_rt_tick rt).2.map (fun e => e.2.flags &&& 3)).Nodup := by
  have key : ∀ c, c < 4 → ∀ call ∈ tick_channel_tones rt (rt.channels.getD c default),
      call.flags &&& 3 = c := by
    intro c hc call hcall
    obtain ⟨h16, hf⟩ := tick_tones_flags rt _ call hcall
    rw [hf]
    exact h c hc h16
  obtain ⟨tracks, channels⟩ := rt
  obtain ⟨c0, c1, c2, c3, rfl⟩ := length_four channels hlen
  rw [rt_tick_four]
  simp only [List.map_append]
  rw [map_osc 0 (tick_channel_tones ⟨tracks, [c0, c1, c2, c3]⟩ c0) (key 0 (by decide)),
    map_osc 1 (tick_channel_tones ⟨tracks, [c0, c1, c2, c3]⟩ c1) (key 1 (by decide)),
    map_osc 2 (tick_channel_tones ⟨tracks, [c0, c1, c2, c3]⟩ c2) (key 2 (by decide)),
    map_osc 3 (tick_channel_tones ⟨tracks, [c0, c1, c2, c3]⟩ c3) (key 3 (by decide))]
  have h0 := tick_channel_tones_length ⟨tracks, [c0, c1, c2, c3]⟩ c0
  have h1 := tick_channel_tones_length ⟨tracks, [c0, c1, c2, c3]⟩ c1
  have h2 := tick_channel_tones_length ⟨tracks, [c0, c1, c2, c3]⟩ c2
  have h3 := tick_channel_tones_length ⟨tracks, [c0, c1, c2, c3]⟩ c3
  generalize (tick_channel_tones ⟨tracks, [c0, c1, c2, c3]⟩ c0).length = n0 at h0
  generalize (tick_channel_tones ⟨tracks, [c0, c1, c2, c3]⟩ c1).length = n1 at h1
  generalize (tick_channel_tones ⟨tracks, [c0, c1, c2, c3]⟩ c2).length = n2 at h2
  generalize (tick_channel_tones ⟨tracks, [c0, c1, c2, c3]⟩ c3).length = n3 at h3
  interval_cases n0 <;> interval_cases n1 <;> interval_cases n2 <;> interval_cases n3 <;>
    decide

theorem shared_osc_state_reachable : Reachable shared_osc_state := by
  unfold shared_osc_state
  simp only [feed_all]
  repeat (first | exact Reachable.init | (apply Reachable.feed _ _ _ _ (by decide)))

set_option maxRecDepth 100000 in
/-- C12 as stated fails: `shared_osc_state` is reachable, channels 0 and 1 are both owned by
track 0, and one tick makes two tone calls that both carry oscillator index 1. -/
theorem distinct_oscillators_counterexample :
    Reachable shared_osc_state ∧
    (w4on2_rt_tick shared_osc_state).2.map (fun e => (e.1, e.2.flags &&& 3))
      = [(0, 1), (1, 1)] ∧
    ¬ ((w4on2_rt_tick shared_osc_state).2.map (fun e => e.2.flags &&& 3)).Nodup :=
  ⟨shared_osc_state_reachable, by decide, by decide⟩

/-- C12 (amended): in every runtime state reachable from `w4on2_rt_init` through
`w4on2_rt_feed_event` and `w4on2_rt_tick` calls in which no SET_FLAGS event changes bits 0-1
of the flags of a track that owns a channel, every owned channel is the one its owner's flags
address, and the tone calls made by one `w4on2_rt_tick` call carry pairwise distinct
oscillator indices (bits 0-1 of the flags argument). -/
theorem distinct_oscillators (rt : RT) (h : ReachableAligned rt) :
    osc_aligned rt ∧ ((w4on2_rt_tick rt).2.map (fun e => e.2.flags &&& 3)).Nodup := by
  have hinv := reachable_aligned_inv rt h
  exact ⟨hinv, aligned_distinct rt
    (reachable_key_inv rt (reachable_of_aligned rt h)).1.2.1 hinv⟩

/-- Witness for C12 (amended): NOTE_ON(60) on track 0, SET_FLAGS(1) on track 1, NOTE_ON(64)
on track 1, one tick. -/
theorem distinct_oscillators_witness :
    ((w4on2_rt_tick (w4on2_rt_tick (feed_all (feed_all w4on2_rt_init 0 [[0x66 + 60]]) 1
      [[0xe7, 1], [0x66 + 64]])).1).2.map (fun e => e.2.flags &&& 3)).Nodup :=
  have hr : ReachableAligned (w4on2_rt_tick (feed_all (feed_all w4on2_rt_init 0 [[0x66 + 60]]) 1
      [[0xe7, 1], [0x66 + 64]])).1 := by
    apply ReachableAligned.tick
    simp only [feed_all]
    repeat first
      | exact ReachableAligned.init
      | apply ReachableAligned.feed _ _ _ _ (by decide) (by decide)
  (distinct_oscillators _ hr).2

/-! ## Claim C14: frame of the SET events and of the delay opcodes -/

theorem pan_byte (f p : Nat) (hf : f < 256) (hp : p ≤ 2) :
    ((f &&& 0xcf) ||| (p <<< 4)) % 256 = (f &&& 0xcf) ||| (p <<< 4) := by
  apply Nat.mod_eq_of_lt
  apply Nat.or_lt_two_pow (n := 8)
  · exact Nat.lt_of_le_of_lt Nat.and_le_left hf
  · have : p = 0 ∨ p = 1 ∨ p = 2 := by omega
    rcases this with h | h | h <;> rw [h] <;> decide

/-- C14: for a runtime state with 16 tracks and a track index `t < 16`, a SET event
(0xE7..0xF5) leaves the channels and every track other than `t` unchanged and writes in track
`t` only the fields the opcode names, from the payload bytes (`set_event_effect` lists them;
`pe_offset` takes the payload byte as a signed byte). In particular SET_ADSR leaves
`a, d, s, r` equal to the four payload bytes and SET_PAN(p) leaves
`flags = (flags & 0xCF) | (p << 4)` (`flags` being a byte, `& 0xCF` is `& ~0x30`), all other
fields untouched. A delay opcode (0x00..0x65) leaves the whole runtime state unchanged. -/
theorem set_events_frame (rt : RT) (t cmd : Nat) (payload : List Nat)
    (hwf : rt.wf) (ht : t < 16) :
    (0xe7 ≤ cmd → cmd ≤ 0xf5 →
      (w4on2_rt_feed_event rt t (cmd :: payload)).1.channels = rt.channels ∧
      (w4on2_rt_feed_event rt t (cmd :: payload)).1.tracks.length = 16 ∧
      (∀ k, k ≠ t → (w4on2_rt_feed_event rt t (cmd :: payload)).1.tracks.getD k default
        = rt.tracks.getD k default) ∧
      (w4on2_rt_feed_event rt t (cmd :: payload)).1.tracks.getD t default
        = set_event_effect cmd (cmd :: payload) (rt.tracks.getD t default)) ∧
    (cmd = 0xed →
      (w4on2_rt_feed_event rt t (cmd :: payload)).1.tracks.getD t default
        = { rt.tracks.getD t default with
            a := payload.getD 0 0, d := payload.getD 1 0, s := payload.getD 2 0,
            r := payload.getD 3 0 }) ∧
    (0xe9 ≤ cmd → cmd ≤ 0xeb → (rt.tracks.getD t default).flags < 256 →
      (w4on2_rt_feed_event rt t (cmd :: payload)).1.tracks.getD t default
        = { rt.tracks.getD t default with
            flags := ((rt.tracks.getD t default).flags &&& 0xcf) ||| ((cmd - 0xe9) <<< 4) }) ∧
    (cmd < 0x66 → (w4on2_rt_feed_event rt t (cmd :: payload)).1 = rt) := by
  have htl : rt.tracks.length = 16 := hwf.1
  have hset : 0xe7 ≤ cmd → cmd ≤ 0xf5 →
      (w4on2_rt_feed_event rt t (cmd :: payload)).1.tracks.getD t default
        = set_event_effect cmd (cmd :: payload) (rt.tracks.getD t default) := by
    intro h1 h2
    rw [feed_set_eq rt t cmd payload h1 h2]
    exact getD_set_self _ _ _ _ (by omega)
  refine ⟨fun h1 h2 => ⟨?_, ?_, ?_, hset h1 h2⟩, fun h => ?_, fun h1 h2 hf => ?_, fun h => ?_⟩
  · rw [feed_set_eq rt t cmd payload h1 h2]
  · rw [feed_set_eq rt t cmd payload h1 h2]
    simpa using htl
  · intro k hk
    rw [feed_set_eq rt t cmd payload h1 h2]
    exact getD_set_other _ _ _ _ _ (Ne.symm hk)
  · rw [hset (by omega) (by omega)]
    subst h
    rfl
  · rw [hset (by omega) (by omega)]
    have hp := pan_byte (rt.tracks.getD t default).flags (cmd - 0xe9) hf (by omega)
    unfold set_event_effect
    simp (disch := omega) only [if_neg, if_pos, if_true, if_false, and_self]
    rw [hp]
  · rw [feed_delay rt t cmd payload h]

/-- Witness for C14: SET_ADSR(10, 20, 30, 40) on track 3 of a fresh runtime. -/
theorem set_events_frame_witness :
    (w4on2_rt_feed_event w4on2_rt_init 3 [0xed, 10, 20, 30, 40]).1.tracks.getD 3 default
      = { w4on2_rt_init.tracks.getD 3 default with a := 10, d := 20, s := 30, r := 40 } ∧
    (w4on2_rt_feed_event w4on2_rt_init 3 [0xed, 10, 20, 30, 40]).1.channels
      = w4on2_rt_init.channels :=
  have h := set_events_frame w4on2_rt_init 3 0xed [10, 20, 30, 40] (by decide) (by decide)
  ⟨h.2.1 rfl, (h.1 (by decide) (by decide)).1⟩

/-! ## Claim C16: a finished player stays finished -/

theorem list_set_getD {α : Type} (l : List α) (i : Nat) (d : α) :
    l.set i (l.getD i d) = l := by
  induction l generalizing i with
  | nil => rfl
  | cons x xs ih =>
    cases i with
    | zero => rfl
    | succ j =>
      simp only [List.set_cons_succ, List.getD_cons_succ, List.cons.injEq, true_and]
      exact ih j

theorem tick_track_idle (fuel i : Nat) (st : TickSt) (hwf : score_wf st.p.data)
    (hf : 1 ≤ fuel) (hi : i < st.p.data.getD 3 0)
    (hend : (trk_bounds st.p.data i).2 ≤ (st.p.tracks.getD i default).outer_data_i) :
    tick_track fuel i st = some st := by
  obtain ⟨n, rfl⟩ : ∃ n, fuel = n + 1 := ⟨fuel - 1, by omega⟩
  obtain ⟨hs0, hse, _, _⟩ := hwf.2.2.2.1 i hi
  have ho : ¬ (st.p.tracks.getD i default).outer_data_i = 0 := by omega
  have hlz : lazy_pt st.p.data i (st.p.tracks.getD i default) = st.p.tracks.getD i default := by
    unfold lazy_pt
    rw [if_neg ho]
  have hnl : ¬ (st.p.tracks.getD i default).outer_data_i < (trk_bounds st.p.data i).2 := by
    omega
  unfold tick_track
  simp only [hlz, track_loop_step, if_neg hnl, List.append_nil, list_set_getD]

theorem tick_tracks_idle (fuel : Nat) (st : TickSt) (hwf : score_wf st.p.data) (hf : 1 ≤ fuel)
    (hend : ∀ i, i < st.p.data.getD 3 0 →
      (trk_bounds st.p.data i).2 ≤ (st.p.tracks.getD i default).outer_data_i) :
    ∀ is : List Nat, (∀ i ∈ is, i < st.p.data.getD 3 0) → tick_tracks fuel is st = some st := by
  intro is
  induction is with
  | nil => intro _; rfl
  | cons i rest ih =>
    intro h
    simp only [tick_tracks]
    rw [tick_track_idle fuel i st hwf hf (h i (List.mem_cons_self i rest))
      (hend i (h i (List.mem_cons_self i rest)))]
    exact ih (fun k hk => h k (List.mem_cons_of_mem i hk))

/-- C16: on a well-formed score, if every track's outer cursor has reached its track end,
`w4on2_player_tick` returns 0, makes no call of `w4on2_rt_feed_event`, and leaves the player
and the runtime unchanged; so does every later call. -/
theorem finished_player_idle (p : Player) (fuel : Nat) (hwf : score_wf p.data) (hf : 1 ≤ fuel)
    (hend : ∀ i, i < p.data.getD 3 0 →
      (trk_bounds p.data i).2 ≤ (p.tracks.getD i default).outer_data_i) :
    (∀ rt, w4on2_player_tick fuel p rt
      = some { p := p, rt := rt, active_tracks := 0, log := [] }) ∧
    (∀ (rts : Nat → RT) (m : Nat), player_run fuel rts p m
      = some { p := p, rt := rts m, active_tracks := 0, log := [] }) := by
  have h1 : ∀ rt, w4on2_player_tick fuel p rt
      = some { p := p, rt := rt, active_tracks := 0, log := [] } := by
    intro rt
    unfold w4on2_player_tick
    exact tick_tracks_idle fuel ⟨p, rt, 0, []⟩ hwf hf hend _
      (fun i hi => List.mem_range.1 hi)
  refine ⟨h1, fun rts m => ?_⟩
  induction m with
  | zero => exact h1 (rts 0)
  | succ m ih =>
    simp only [player_run, ih]
    exact h1 (rts (m + 1))

set_option maxRecDepth 100000 in
/-- The player of `note_delay_score` after its first two ticks: the track has ended. -/
theorem note_delay_finished :
    (player_run (player_fuel note_delay_score) (fun _ => w4on2_rt_init)
      (w4on2_player_init note_delay_score) 1).map (fun st => st.p.tracks.getD 0 default)
      = some ⟨11, 0, 0⟩ := by
  decide

set_option maxRecDepth 100000 in
/-- Witness for C16: `note_delay_score` with the cursor of its track at the track end. -/
theorem finished_player_idle_witness :
    w4on2_player_tick 1
        { data := note_delay_score, tracks := List.replicate 16 ⟨11, 0, 0⟩ } w4on2_rt_init
      = some { p := { data := note_delay_score, tracks := List.replicate 16 ⟨11, 0, 0⟩ },
               rt := w4on2_rt_init, active_tracks := 0, log := [] } :=
  (finished_player_idle { data := note_delay_score, tracks := List.replicate 16 ⟨11, 0, 0⟩ } 1
    (by decide) (by decide) (by decide)).1 w4on2_rt_init

/-! ## Claim C18: the vibrato term of `to_pitch` -/

/-- The two pitches of `w4on2_rt_tick` are the pitches without vibrato plus `vibrato_from`
and `vibrato_to`. -/
theorem pitches_vibrato (track : Track) (ch : Channel) :
    (pitches track ch).1 = (pitches { track with vib_depth := 0 } ch).1
      + vibrato_from (porta_ticks track ch) track.vib_speed track.vib_depth ∧
    (pitches track ch).2 = (pitches { track with vib_depth := 0 } ch).2
      + vibrato_to (porta_ticks track ch) track.vib_speed track.vib_depth := by
  have hk : key_ticks { track with vib_depth := 0 } ch = key_ticks track ch := rfl
  have hp : porta_ticks { track with vib_depth := 0 } ch = porta_ticks track ch := rfl
  have hi : key_i { track with vib_depth := 0 } ch = key_i track ch := rfl
  unfold pitches vibrato_from vibrato_to
  simp only [hk, hp, hi, Nat.zero_shiftLeft, Nat.cast_zero, triangle_zero, add_zero]
  exact ⟨trivial, trivial⟩

/-- The `from_pitch` term is the formula of the specification. -/
theorem vibrato_from_spec (porta_ticks vib_speed vib_depth : Nat) :
    vibrato_from porta_ticks vib_speed vib_depth
      = vibrato_spec porta_ticks vib_speed vib_depth := by
  unfold vibrato_from vibrato_spec
  have e : ∀ x : Nat, x % 4294967296 &&& 0xffff = x % 0x10000 := by
    intro x
    have := Nat.and_pow_two_sub_one_eq_mod (x % 4294967296) 16
    rw [show (0xffff : Nat) = 2 ^ 16 - 1 by decide, this]
    exact Nat.mod_mod_of_dvd x (by decide)
  rw [e, Nat.shiftLeft_eq, Nat.shiftLeft_eq]

set_option maxRecDepth 100000 in
/-- C18 fails on the code: with `porta_ticks = 12`, `vib_speed = 64`, `vib_depth = 32` the
term added to `to_pitch` is -96 (phase reduced `% 0xffff`), while the formula of the claim,
the `from_pitch` formula one tick later (phase reduced mod 0x10000), gives -97. In
`vibrato_state`, reached by SET_VIBRATO(64, 32), NOTE_ON(60) and 12 ticks, `to_pitch` is
`60 * 256 - 96`. -/
theorem vibrato_to_divergence :
    vibrato_to 12 64 32 = -96 ∧ vibrato_spec 13 64 32 = -97 ∧
    vibrato_from 13 64 32 = -97 ∧
    porta_ticks (vibrato_state.tracks.getD 0 default) (vibrato_state.channels.getD 0 default)
      = 12 ∧
    (pitches (vibrato_state.tracks.getD 0 default) (vibrato_state.channels.getD 0 default)).2
      = 60 * 256 - 96 := by
  decide

/-! ## Claim C19: the key kept by NOTES_OFF -/

set_option maxRecDepth 100000 in
/-- C19 as stated fails: in `arp_state 4` channel 0 is owned by track 0 (`arp_rate = 4`) and
holds the keys 60, 64, 67 with `first_trigger_ticks = 4`, so the tick selects key 64. Track 1
addresses channel 0 as well and has `arp_rate = 0`; NOTES_OFF fed on track 1 stores the newest
key 67 in `note_keys[0]`. -/
theorem notes_off_key_counterexample :
    ((arp_state 4).tracks.getD 1 default).flags &&& 3 = 0 ∧
    ((arp_state 4).channels.getD 0 default).active_track_i = 0 ∧
    ((arp_state 4).channels.getD 0 default).active_key_count = 3 ∧
    ((arp_state 4).channels.getD 0 default).note_keys.getD
      (key_i ((arp_state 4).tracks.getD 0 default) ((arp_state 4).channels.getD 0 default)) 0
      = 64 ∧
    ((w4on2_rt_feed_event (arp_state 4) 1 [0xe6]).1.channels.getD 0 default).note_keys.getD 0 0
      = 67 := by
  decide

/-- C19 (amended): if the channel addressed by track `t` (`tracks[t].flags & 3`) holds
`n ≥ 1` keys, NOTES_OFF on `t` stores in `note_keys[0]` the key
`note_keys[(first_trigger_ticks / arp_rate) mod n]` if the `arp_rate` of track `t` is positive
and `note_keys[n - 1]` otherwise; when `t` owns the channel this is the key the per-tick key
selection of `w4on2_rt_tick` picks for the channel in the same state. -/
theorem notes_off_key (rt : RT) (t : Nat) (rest : List Nat) (hwf : rt.wf)
    (hn : 0 < (rt.channels.getD ((rt.tracks.getD t default).flags &&& 0x3)
      default).active_key_count)
    (hn2 : (rt.channels.getD ((rt.tracks.getD t default).flags &&& 0x3)
      default).active_key_count < 256) :
    ((w4on2_rt_feed_event rt t (0xe6 :: rest)).1.channels.getD
        ((rt.tracks.getD t default).flags &&& 0x3) default).note_keys.getD 0 0
      = (rt.channels.getD ((rt.tracks.getD t default).flags &&& 0x3) default).note_keys.getD
          (if (rt.tracks.getD t default).arp_rate > 0 then
            ((rt.channels.getD ((rt.tracks.getD t default).flags &&& 0x3)
                default).first_trigger_ticks / (rt.tracks.getD t default).arp_rate)
              % (rt.channels.getD ((rt.tracks.getD t default).flags &&& 0x3)
                default).active_key_count
          else (rt.channels.getD ((rt.tracks.getD t default).flags &&& 0x3)
            default).active_key_count - 1) 0 ∧
    ((rt.channels.getD ((rt.tracks.getD t default).flags &&& 0x3) default).active_track_i = t →
      ((w4on2_rt_feed_event rt t (0xe6 :: rest)).1.channels.getD
          ((rt.tracks.getD t default).flags &&& 0x3) default).note_keys.getD 0 0
        = (rt.channels.getD ((rt.tracks.getD t default).flags &&& 0x3)
            default).note_keys.getD
          (key_i (rt.tracks.getD (rt.channels.getD ((rt.tracks.getD t default).flags &&& 0x3)
              default).active_track_i default)
            (rt.channels.getD ((rt.tracks.getD t default).flags &&& 0x3) default)) 0) := by
  have h4 := land3_lt (rt.tracks.getD t default).flags
  obtain ⟨_, hcl, hk⟩ := hwf
  have hcl4 : rt.channels.length = 4 := hcl
  have hm : rt.channels.getD ((rt.tracks.getD t default).flags &&& 0x3) default
      ∈ rt.channels := by
    rw [List.getD_eq_getElem _ _ (by omega)]
    exact List.getElem_mem _
  have hkl : (rt.channels.getD ((rt.tracks.getD t default).flags &&& 0x3)
      default).note_keys.length = 8 := hk _ hm
  rw [feed_notes_off rt t rest]
  simp only []
  rw [getD_set_self _ _ _ _ (by omega)]
  generalize rt.channels.getD ((rt.tracks.getD t default).flags &&& 0x3) default = ch at *
  have first : (notes_off (rt.tracks.getD t default) ch).note_keys.getD 0 0
      = ch.note_keys.getD (if (rt.tracks.getD t default).arp_rate > 0 then
          (ch.first_trigger_ticks / (rt.tracks.getD t default).arp_rate) % ch.active_key_count
        else ch.active_key_count - 1) 0 := by
    unfold notes_off
    rw [if_pos hn]
    simp only []
    rw [getD_set_self _ _ _ _ (by omega)]
    split_ifs <;> rfl
  refine ⟨first, fun hown => ?_⟩
  rw [first, hown, key_i_eq _ _ hn hn2]

set_option maxRecDepth 100000 in
/-- Witness for C19 (amended): NOTES_OFF on the owner, track 0, in `arp_state 4` keeps the
key 64 that the tick selects. -/
theorem notes_off_key_witness :
    ((w4on2_rt_feed_event (arp_state 4) 0 [0xe6]).1.channels.getD 0 default).note_keys.getD 0 0
      = ((arp_state 4).channels.getD 0 default).note_keys.getD
          (key_i ((arp_state 4).tracks.getD 0 default)
            ((arp_state 4).channels.getD 0 default)) 0 :=
  (notes_off_key (arp_state 4) 0 [] (by decide) (by decide) (by decide)).2 (by decide)

/-! ## Claim C20: amplitudes and volume bytes stay within 0..100 -/

theorem amp_bounds (track : Track) (hv : track.volume ≤ 255) (hs : track.s ≤ 255)
    (hvel : track.velocity ≤ 127) :
    sus_amp track ≤ peak_amp track ∧ peak_amp track ≤ 100 := by
  have hvv : track.volume * track.velocity ≤ 255 * 127 := Nat.mul_le_mul hv hvel
  have hp : 100 * (track.volume * track.velocity) / (255 * 127) ≤ 100 := by
    apply Nat.div_le_of_le_mul
    omega
  have hsp : 100 * (track.volume * track.velocity) * track.s / (255 * 127 * 255)
      ≤ 100 * (track.volume * track.velocity) / (255 * 127) := by
    rw [← Nat.mul_div_mul_right (100 * (track.volume * track.velocity)) (255 * 127)
      (by decide : 0 < 255)]
    exact Nat.div_le_div_right (Nat.mul_le_mul_left _ hs)
  have e1 : peak_amp track = 100 * (track.volume * track.velocity) / (255 * 127) := by
    show 100 * (track.volume * track.velocity) / (255 * 127) % 256 = _
    exact Nat.mod_eq_of_lt (by omega)
  have e2 : sus_amp track
      = 100 * (track.volume * track.velocity) * track.s / (255 * 127 * 255) := by
    show 100 * (track.volume * track.velocity) * track.s / (255 * 127 * 255) % 256 = _
    exact Nat.mod_eq_of_lt (by omega)
  rw [e1, e2]
  exact ⟨hsp, hp⟩

theorem env_V_peak (track : Track) (kt : Nat) (t : Int)
    (h : sus_amp track ≤ peak_amp track) :
    0 ≤ env_V track kt t ∧ env_V track kt t ≤ peak_amp track := by
  unfold env_V
  split_ifs
  · have := ramp_between_up t track.a 0 (peak_amp track) (by omega)
    omega
  · have := ramp_between_down (t - track.a) track.d (peak_amp track) (sus_amp track)
      (by omega)
    omega

theorem or_shift_bytes (a b : Nat) (ha : a < 256) :
    (a ||| (b <<< 8)) % 256 = a ∧ (a ||| (b <<< 8)) / 256 = b := by
  have e : a ||| (b <<< 8) = 2 ^ 8 * b + a := by
    rw [Nat.shiftLeft_eq, Nat.lor_comm, Nat.mul_comm]
    exact (Nat.mul_add_lt_is_or ha b).symm
  rw [e]
  omega

theorem channel_tones_volume (track : Track) (ch : Channel) (hv : track.volume ≤ 255)
    (hs : track.s ≤ 255) (hvel : track.velocity ≤ 127) :
    ∀ call ∈ channel_tones track ch, call.volume % 256 ≤ 100 ∧ call.volume / 256 ≤ 100 := by
  obtain ⟨hsp, hp⟩ := amp_bounds track hv hs hvel
  have h1 := env_V_peak track (key_ticks track ch) (key_ticks track ch) hsp
  have h2 := env_V_peak track (key_ticks track ch) ((key_ticks track ch : Int) + 1) hsp
  intro call hcall
  unfold channel_tones at hcall
  simp only [vols_eq] at hcall
  split_ifs at hcall <;> simp only [List.mem_singleton, List.not_mem_nil] at hcall
  · rw [hcall]
    simp only []
    rw [vol_pack _ _ (by omega) (by omega)]
    have := or_shift_bytes (env_V track (key_ticks track ch) ((key_ticks track ch : Int) + 1)).toNat
      (env_V track (key_ticks track ch) (key_ticks track ch)).toNat (by omega)
    omega
  · rw [hcall]
    simp only []
    rw [vol_pack _ _ (by omega) (by omega)]
    have := or_shift_bytes (env_V track (key_ticks track ch) ((key_ticks track ch : Int) + 1)).toNat
      (env_V track (key_ticks track ch) ((key_ticks track ch : Int) + 1)).toNat (by omega)
    omega
  · rw [hcall]
    simp only []
    omega

/-- C20: for a track with `volume`, `s` in 0..255 and `velocity` in 0..127 (whatever `a` and
`d` are), `0 ≤ sus_amp ≤ peak_amp ≤ 100`; for every channel state, hence every `key_ticks`, the
ramp values `from_vol` and `to_vol` computed by `w4on2_rt_tick` lie between 0 and `peak_amp`;
and both volume bytes of every tone call that `w4on2_rt_tick` makes for a channel owned by the
track are within 0..100. -/
theorem volume_range (track : Track) (hv : track.volume ≤ 255) (hs : track.s ≤ 255)
    (hvel : track.velocity ≤ 127) :
    sus_amp track ≤ peak_amp track ∧ peak_amp track ≤ 100 ∧
    (∀ ch : Channel, 0 ≤ (vols track ch).1 ∧ (vols track ch).1 ≤ peak_amp track ∧
      0 ≤ (vols track ch).2 ∧ (vols track ch).2 ≤ peak_amp track) ∧
    (∀ (kt : Nat) (ch : Channel), ch.first_trigger_ticks = kt → kt ≤ 65535 →
      track.arp_rate = 0 → key_ticks track ch = kt) ∧
    (∀ (rt : RT) (c : Nat), rt.channels.length = 4 → c < 4 →
      rt.tracks.getD (rt.channels.getD c default).active_track_i default = track →
      ∀ call ∈ tones_of c (w4on2_rt_tick rt).2,
        call.volume % 256 ≤ 100 ∧ call.volume / 256 ≤ 100) := by
  obtain ⟨hsp, hp⟩ := amp_bounds track hv hs hvel
  refine ⟨hsp, hp, fun ch => ?_, fun kt ch hkt hle harp => ?_, fun rt c hlen hc htr call hcall => ?_⟩
  · rw [vols_eq]
    have h1 := env_V_peak track (key_ticks track ch) (key_ticks track ch) hsp
    have h2 := env_V_peak track (key_ticks track ch) ((key_ticks track ch : Int) + 1) hsp
    exact ⟨h1.1, h1.2, h2.1, h2.2⟩
  · unfold key_ticks
    rw [if_neg (by omega), hkt]
    omega
  · rw [rt_tick_tones rt hlen c hc] at hcall
    unfold tick_channel_tones at hcall
    split_ifs at hcall
    · exact absurd hcall (List.not_mem_nil _)
    · rw [htr] at hcall
      exact channel_tones_volume track _ hv hs hvel call hcall

set_option maxRecDepth 100000 in
/-- Witness for C20: track 0 of `attack_state` (`volume = 255`, `velocity = 127`, `s = 255`)
has `peak_amp ≤ 100`. -/
theorem volume_range_witness :
    peak_amp (attack_state.tracks.getD 0 default) ≤ 100 :=
  (volume_range (attack_state.tracks.getD 0 default) (by decide) (by decide) (by decide)).2.1

/-! ## Claim C15: long delays -/

/-- A loop body that goes on leaves an idle delay field idle. -/
theorem body_cont_delay (data : List Nat) (i : Nat) (s : LoopSt) (hz : s.pt.delay = 0)
    (hb : (track_body data i s).1 = true) : (track_body data i s).2.pt.delay = 0 := by
  by_cases hsw : s.pt.inner_data_i ≥ (ptn_bounds data (data.getD s.pt.outer_data_i 0)).2
  · rw [body_switch _ _ _ hsw]
    exact hz
  · by_cases hc : data.getD (eff_inner data s.pt) 0 < 0x66
    · rw [body_delay _ _ _ hsw hc] at hb
      unfold delay_branch at hb
      rw [if_pos hz] at hb
      simp at hb
    · rw [body_feed _ _ _ hsw (by omega)]
      exact hz

/-- A loop body that breaks with an idle delay field has reached a delay opcode and armed it. -/
theorem body_break_arm (data : List Nat) (i : Nat) (s : LoopSt) (hz : s.pt.delay = 0)
    (hb : ¬ (track_body data i s).1 = true) :
    ¬ s.pt.inner_data_i ≥ (ptn_bounds data (data.getD s.pt.outer_data_i 0)).2 ∧
    data.getD (eff_inner data s.pt) 0 < 0x66 ∧
    (track_body data i s).2 = { s with pt := { s.pt with
      inner_data_i := eff_inner data s.pt,
      delay := delay_ticks data (eff_inner data s.pt) % 65536 } } := by
  by_cases hsw : s.pt.inner_data_i ≥ (ptn_bounds data (data.getD s.pt.outer_data_i 0)).2
  · rw [body_switch _ _ _ hsw] at hb
    simp at hb
  · by_cases hc : data.getD (eff_inner data s.pt) 0 < 0x66
    · refine ⟨hsw, hc, ?_⟩
      rw [body_delay _ _ _ hsw hc]
      unfold delay_branch
      rw [if_pos hz]
    · rw [body_feed _ _ _ hsw (by omega)] at hb
      simp at hb

/-- If the event loop of a track that is not delaying ends with the inner cursor inside a
pattern, the loop reached a delay opcode there and armed it. -/
theorem loop_arm (data : List Nat) (i : Nat) (hwf : score_wf data) (hi : i < data.getD 3 0) :
    ∀ fuel s s1, track_inv data i s.pt → s.pt.outer_data_i ≠ 0 → s.pt.delay = 0 →
      track_loop data i (trk_bounds data i).2 fuel s = some s1 →
      s1.pt.inner_data_i ≠ 0 →
      s1.pt.outer_data_i ≠ 0 ∧ s1.pt.outer_data_i < (trk_bounds data i).2 ∧
      data.getD s1.pt.inner_data_i 0 < 0x66 ∧
      s1.pt.delay = delay_ticks data s1.pt.inner_data_i % 65536 ∧
      s1.pt.inner_data_i < (ptn_bounds data (data.getD s1.pt.outer_data_i 0)).2 ∧
      (ptn_bounds data (data.getD s1.pt.outer_data_i 0)).2 < 65536 := by
  intro fuel
  induction fuel with
  | zero => intro s s1 _ _ _ h; simp [track_loop] at h
  | succ n ih =>
    intro s s1 hinv ho hz h hne
    rw [track_loop_step] at h
    by_cases hlt : s.pt.outer_data_i < (trk_bounds data i).2
    · rw [if_pos hlt] at h
      obtain ⟨hb1, hb2, _⟩ := body_inv data i s hwf hi hinv ho hlt
      by_cases hb : (track_body data i s).1 = true
      · rw [if_pos hb] at h
        exact ih _ _ hb1 hb2 (body_cont_delay data i s hz hb) h hne
      · rw [if_neg hb] at h
        simp only [Option.some.injEq] at h
        obtain ⟨hsw, hc, he⟩ := body_break_arm data i s hz hb
        obtain ⟨hL, _, _, hel, _, _, _, _, hlt2⟩ := head_facts data i s.pt hwf hi hinv ho hlt
        rw [← h, he]
        exact ⟨ho, hlt, hc, rfl, hlt2 hsw, show (ptn_bounds data (data.getD s.pt.outer_data_i 0)).2 < 65536 by omega⟩
    · rw [if_neg hlt] at h
      simp only [Option.some.injEq] at h
      rw [← h] at hne
      exact absurd (hinv.2.2.1 hne).1 hlt

/-- The loop body of a track that sits on a delay opcode. -/
theorem body_wait_any (data : List Nat) (i : Nat) (s : LoopSt) (d : Nat)
    (hc : data.getD d 0 < 0x66) (hin : s.pt.inner_data_i = d) (hd0 : d ≠ 0)
    (hlt : d < (ptn_bounds data (data.getD s.pt.outer_data_i 0)).2) :
    track_body data i s = delay_branch s i d (delay_ticks data d)
      (opcode_table_size (data.getD d 0)) (delay_off (data.getD d 0)) := by
  have he : eff_inner data s.pt = d := by
    unfold eff_inner
    rw [hin, if_neg hd0]
  have hsw : ¬ s.pt.inner_data_i ≥ (ptn_bounds data (data.getD s.pt.outer_data_i 0)).2 := by
    omega
  rw [body_delay _ _ _ hsw (by rw [he]; exact hc), he]

/-- A tick that finds a track waiting on a delay opcode with at least 2 ticks left only
decrements the delay. -/
theorem loop_wait_any (data : List Nat) (i te fuel : Nat) (s s1 : LoopSt) (d : Nat)
    (hc : data.getD d 0 < 0x66) (hin : s.pt.inner_data_i = d) (hd0 : d ≠ 0)
    (hlt : d < (ptn_bounds data (data.getD s.pt.outer_data_i 0)).2)
    (ho : s.pt.outer_data_i < te) (hm : 2 ≤ s.pt.delay) (hm2 : s.pt.delay < 65536)
    (h : track_loop data i te fuel s = some s1) :
    s1 = { s with pt := { s.pt with inner_data_i := d, delay := s.pt.delay - 1 } } := by
  cases fuel with
  | zero => simp [track_loop] at h
  | succ n =>
    rw [track_loop_step, if_pos ho, body_wait_any data i s d hc hin hd0 hlt] at h
    unfold delay_branch at h
    have h1 : ¬ s.pt.delay = 0 := by omega
    have h2 : ¬ (s.pt.delay - 1) % 65536 = 0 := by omega
    simp only [if_neg h1, if_neg h2, Bool.false_eq_true, if_false, Option.some.injEq] at h
    rw [← h, Nat.mod_eq_of_lt (by omega)]

/-- A tick that finds a track on the last tick of a delay leaves the delay, feeds the
synthesized NOTES_OFF of the NOTES_OFF variants, and then feeds the event that follows. -/
theorem loop_fire_any (data : List Nat) (i te fuel : Nat) (s s1 : LoopSt) (d : Nat)
    (hc : data.getD d 0 < 0x66) (hin : s.pt.inner_data_i = d) (hd0 : d ≠ 0)
    (hlt : d + opcode_table_size (data.getD d 0)
      < (ptn_bounds data (data.getD s.pt.outer_data_i 0)).2)
    (hb : (ptn_bounds data (data.getD s.pt.outer_data_i 0)).2 < 65536)
    (hop : 0x66 ≤ data.getD (d + opcode_table_size (data.getD d 0)) 0)
    (ho : s.pt.outer_data_i < te) (hm : s.pt.delay = 1)
    (h : track_loop data i te fuel s = some s1) :
    ∃ rest, s1.log = s.log ++ ((if delay_off (data.getD d 0) then [Fed.notes_off i] else [])
      ++ Fed.event i (data.getD s.pt.outer_data_i 0)
        (d + opcode_table_size (data.getD d 0)) :: rest) := by
  cases fuel with
  | zero => simp [track_loop] at h
  | succ n =>
    rw [track_loop_step, if_pos ho, body_wait_any data i s d hc hin hd0 (by omega)] at h
    unfold delay_branch at h
    have h1 : ¬ s.pt.delay = 0 := by omega
    have h2 : (s.pt.delay - 1) % 65536 = 0 := by rw [hm]
    have hsz := size_pos (data.getD d 0) (by omega)
    simp only [if_neg h1, if_pos h2, if_true,
      Nat.mod_eq_of_lt (show d + opcode_table_size (data.getD d 0) < 65536 by omega)] at h
    cases n with
    | zero => simp [track_loop] at h
    | succ n2 =>
      have he : eff_inner data { s.pt with
          inner_data_i := d + opcode_table_size (data.getD d 0), delay := 0 }
          = d + opcode_table_size (data.getD d 0) := by
        unfold eff_inner
        simp only []
        rw [if_neg (by omega)]
      rw [track_loop_step, if_pos (by simpa using ho),
        body_feed _ _ _ (by simp only []; omega) (by rw [he]; exact hop)] at h
      simp only [if_true] at h
      obtain ⟨rest, hr⟩ := loop_log_prefix _ _ _ _ _ _ h
      refine ⟨rest, ?_⟩
      rw [hr]
      simp only [he]
      cases delay_off (data.getD d 0) <;> simp

/-- A tick that finds track `i` on a delay opcode with `e ≥ 2` ticks left returns, feeds
nothing for the track and leaves `e - 1` ticks. -/
theorem wait_tick (data : List Nat) (fuel : Nat) (q : Player) (rt : RT) (i o d e : Nat)
    (hwf : score_wf data) (hf : player_fuel data ≤ fuel) (hi : i < data.getD 3 0)
    (hinv : player_inv data q)
    (hpt : q.tracks.getD i default = (⟨o, d, e⟩ : PlayerTrack)) (he : 2 ≤ e ∧ e < 65536)
    (hc : data.getD d 0 < 0x66) (ho0 : o ≠ 0) (hote : o < (trk_bounds data i).2)
    (hd0 : d ≠ 0) (hlt : d < (ptn_bounds data (data.getD o 0)).2) :
    ∃ st, w4on2_player_tick fuel q rt = some st ∧ player_inv data st.p ∧
      st.p.tracks.getD i default = (⟨o, d, e - 1⟩ : PlayerTrack) ∧
      st.log.filter (fun f => decide (f.track = i)) = [] := by
  obtain ⟨st, ht, hinv2, _, _, htr⟩ := player_tick_some data fuel q rt hwf hf hinv
  obtain ⟨rt2, s2, hl2, hpt2, hlog2⟩ := htr i hi
  rw [hpt] at hl2
  have hlz : lazy_pt data i ⟨o, d, e⟩ = ⟨o, d, e⟩ := by
    unfold lazy_pt
    rw [if_neg ho0]
  rw [hlz] at hl2
  have hw := loop_wait_any data i _ fuel ⟨⟨o, d, e⟩, rt2, []⟩ s2 d hc rfl hd0 hlt hote he.1 he.2
    hl2
  refine ⟨st, ht, hinv2, ?_, ?_⟩
  · rw [hpt2, hw]
  · rw [hlog2, hw]

/-- A tick that finds track `i` on the last tick of a delay returns and feeds, for the track,
first the synthesized NOTES_OFF of the NOTES_OFF variants and then the event that follows the
delay opcode. -/
theorem fire_tick (data : List Nat) (fuel : Nat) (q : Player) (rt : RT) (i o d : Nat)
    (hwf : score_wf data) (hf : player_fuel data ≤ fuel) (hi : i < data.getD 3 0)
    (hinv : player_inv data q)
    (hpt : q.tracks.getD i default = (⟨o, d, 1⟩ : PlayerTrack))
    (hc : data.getD d 0 < 0x66) (ho0 : o ≠ 0) (hote : o < (trk_bounds data i).2)
    (hd0 : d ≠ 0)
    (hlt : d + opcode_table_size (data.getD d 0) < (ptn_bounds data (data.getD o 0)).2)
    (hb : (ptn_bounds data (data.getD o 0)).2 < 65536)
    (hop : 0x66 ≤ data.getD (d + opcode_table_size (data.getD d 0)) 0) :
    ∃ st rest, w4on2_player_tick fuel q rt = some st ∧
      st.log.filter (fun f => decide (f.track = i))
        = (if delay_off (data.getD d 0) then [Fed.notes_off i] else [])
          ++ Fed.event i (data.getD o 0) (d + opcode_table_size (data.getD d 0)) :: rest := by
  obtain ⟨st, ht, _, _, _, htr⟩ := player_tick_some data fuel q rt hwf hf hinv
  obtain ⟨rt2, s2, hl2, _, hlog2⟩ := htr i hi
  rw [hpt] at hl2
  have hlz : lazy_pt data i ⟨o, d, 1⟩ = ⟨o, d, 1⟩ := by
    unfold lazy_pt
    rw [if_neg ho0]
  rw [hlz] at hl2
  obtain ⟨rest, hrest⟩ := loop_fire_any data i _ fuel ⟨⟨o, d, 1⟩, rt2, []⟩ s2 d hc rfl hd0
    hlt hb hop hote rfl hl2
  refine ⟨st, rest, ht, ?_⟩
  rw [hlog2, hrest]
  simp only [List.nil_append]

/-- From a player whose track `i` has just armed a delay of `D` ticks (`1 ≤ D < 65536`) on
the delay opcode at `d`: the next `D - 1` ticks feed nothing for the track, and the `D`-th
feeds the event that follows the opcode. -/
theorem delay_chain (data : List Nat) (fuel : Nat) (q : Player) (rts : Nat → RT)
    (i o d D : Nat)
    (hwf : score_wf data) (hf : player_fuel data ≤ fuel) (hi : i < data.getD 3 0)
    (hinv : player_inv data q)
    (hpt : q.tracks.getD i default = (⟨o, d, D⟩ : PlayerTrack)) (hD : 1 ≤ D ∧ D < 65536)
    (hc : data.getD d 0 < 0x66) (ho0 : o ≠ 0) (hote : o < (trk_bounds data i).2)
    (hd0 : d ≠ 0)
    (hlt : d + opcode_table_size (data.getD d 0) < (ptn_bounds data (data.getD o 0)).2)
    (hb : (ptn_bounds data (data.getD o 0)).2 < 65536)
    (hop : 0x66 ≤ data.getD (d + opcode_table_size (data.getD d 0)) 0) :
    (∀ m, m + 1 < D → ∃ st, player_run fuel rts q m = some st ∧
      st.log.filter (fun f => decide (f.track = i)) = []) ∧
    (∃ st rest, player_run fuel rts q (D - 1) = some st ∧
      st.log.filter (fun f => decide (f.track = i))
        = (if delay_off (data.getD d 0) then [Fed.notes_off i] else [])
          ++ Fed.event i (data.getD o 0) (d + opcode_table_size (data.getD d 0)) :: rest) := by
  have chain : ∀ k, k + 1 < D → ∃ st, player_run fuel rts q k = some st ∧
      player_inv data st.p ∧
      st.p.tracks.getD i default = (⟨o, d, D - (k + 1)⟩ : PlayerTrack) ∧
      st.log.filter (fun f => decide (f.track = i)) = [] := by
    intro k
    induction k with
    | zero =>
      intro hk
      exact wait_tick data fuel q (rts 0) i o d D hwf hf hi hinv hpt ⟨by omega, hD.2⟩ hc ho0
        hote hd0 (by omega)
    | succ k ih =>
      intro hk
      obtain ⟨stk, hk1, hk2, hk3, _⟩ := ih (by omega)
      obtain ⟨st2, ht2, hinv2, hpt2, hlog2⟩ := wait_tick data fuel stk.p (rts (k + 1)) i o d
        (D - (k + 1)) hwf hf hi hk2 hk3 ⟨by omega, by omega⟩ hc ho0 hote hd0 (by omega)
      refine ⟨st2, ?_, hinv2, ?_, hlog2⟩
      · simp only [player_run, hk1]
        exact ht2
      · rw [hpt2]
        simp only [PlayerTrack.mk.injEq, true_and]
        omega
  refine ⟨fun m hm => ?_, ?_⟩
  · obtain ⟨st, h1, _, _, h4⟩ := chain m hm
    exact ⟨st, h1, h4⟩
  · rcases Nat.lt_or_ge D 2 with h1 | h2
    · have hD1 : D = 1 := by omega
      subst hD1
      exact fire_tick data fuel q (rts 0) i o d hwf hf hi hinv hpt hc ho0 hote hd0 hlt hb hop
    · obtain ⟨stk, hk1, hk2, hk3, _⟩ := chain (D - 2) (by omega)
      have e1 : D - (D - 2 + 1) = 1 := by omega
      rw [e1] at hk3
      obtain ⟨st, rest, ht, hlog⟩ := fire_tick data fuel stk.p (rts (D - 2 + 1)) i o d hwf hf hi
        hk2 hk3 hc ho0 hote hd0 hlt hb hop
      refine ⟨st, rest, ?_, hlog⟩
      have e2 : D - 1 = D - 2 + 1 := by omega
      rw [e2]
      simp only [player_run, hk1]
      exact ht

/-- Tick `m + 1` of a run is tick `m` of the run that starts after the first tick. -/
theorem player_run_shift (fuel : Nat) (rts : Nat → RT) (p : Player) (st0 : TickSt)
    (h0 : player_run fuel rts p 0 = some st0) (m : Nat) :
    player_run fuel rts p (m + 1) = player_run fuel (fun k => rts (k + 1)) st0.p m := by
  induction m with
  | zero =>
    have h1 : w4on2_player_tick fuel p (rts 0) = some st0 := h0
    simp only [player_run, h1]
  | succ m ih =>
    rw [player_run, ih]
    rfl

theorem lazy_pt_delay (data : List Nat) (i : Nat) (pt : PlayerTrack) :
    (lazy_pt data i pt).delay = pt.delay := by
  unfold lazy_pt
  split_ifs <;> rfl

/-- A long delay opcode carrying the payload `pl`. -/
theorem long_delay_facts (data : List Nat) (d pl : Nat) (off : Bool)
    (hcmd : data.getD d 0 = if off then 1 else 0)
    (hpl : w4on2_u16be (data.drop (d + 1)) = pl) :
    data.getD d 0 < 0x66 ∧ delay_ticks data d = pl + 51 ∧
    opcode_table_size (data.getD d 0) = 3 ∧ delay_off (data.getD d 0) = off := by
  have h1 : data.getD d 0 ≤ 1 := by
    rw [hcmd]; split_ifs <;> omega
  refine ⟨by omega, ?_, ?_, ?_⟩
  · unfold delay_ticks
    rw [if_pos h1, hpl]
  · rw [size_delay _ (by omega), if_pos h1]
  · unfold delay_off
    rw [hcmd]
    cases off
    · simp
    · simp

set_option maxRecDepth 100000 in
/-- C15 as stated fails for the payloads above 65484, because `delay` is a `uint16_t`: in
`long_wrap_score` the pattern starts with LONG_DELTA carrying 65486. The first tick reaches the
opcode and arms `delay = (65486 + 51) mod 65536 = 1`, feeding nothing; the very next tick
feeds the NOTE_ON that follows the opcode, not the 65537th: it leaves the runtime it was given
with NOTE_ON(60) fed on track 0. -/
theorem long_delay_counterexample :
    score_wf long_wrap_score ∧ long_wrap_score.getD 8 0 = 0 ∧
    w4on2_u16be (long_wrap_score.drop 9) = 65486 ∧
    (player_run (player_fuel long_wrap_score) (fun _ => w4on2_rt_init)
      (w4on2_player_init long_wrap_score) 0).map
        (fun st => (st.p.tracks.getD 0 default, st.log, st.rt))
      = some ((⟨13, 8, 1⟩ : PlayerTrack), [], w4on2_rt_init) ∧
    (player_run (player_fuel long_wrap_score) (fun _ => w4on2_rt_init)
      (w4on2_player_init long_wrap_score) 1).map (fun st => (st.log, st.rt))
      = some ([Fed.event 0 0 11], (w4on2_rt_feed_event w4on2_rt_init 0 [0x66 + 60]).1) := by
  decide

/-- If the event loop of a track ends with the inner cursor inside a pattern, and the track was
not delaying when the loop started or the loop has moved the cursors, then the loop reached a
delay opcode there and armed it. -/
theorem loop_reach_arm (data : List Nat) (i : Nat) (hwf : score_wf data)
    (hi : i < data.getD 3 0) (fuel : Nat) (s s1 : LoopSt)
    (hinv : track_inv data i s.pt) (ho : s.pt.outer_data_i ≠ 0)
    (h : track_loop data i (trk_bounds data i).2 fuel s = some s1)
    (hne : s1.pt.inner_data_i ≠ 0)
    (hnew : s.pt.delay = 0 ∨ s1.pt.outer_data_i ≠ s.pt.outer_data_i ∨
      s1.pt.inner_data_i ≠ s.pt.inner_data_i) :
    s1.pt.outer_data_i ≠ 0 ∧ s1.pt.outer_data_i < (trk_bounds data i).2 ∧
    data.getD s1.pt.inner_data_i 0 < 0x66 ∧
    s1.pt.delay = delay_ticks data s1.pt.inner_data_i % 65536 ∧
    s1.pt.inner_data_i < (ptn_bounds data (data.getD s1.pt.outer_data_i 0)).2 ∧
    (ptn_bounds data (data.getD s1.pt.outer_data_i 0)).2 < 65536 := by
  by_cases hz : s.pt.delay = 0
  · exact loop_arm data i hwf hi fuel s s1 hinv ho hz h hne
  · obtain ⟨hi0, hlt, hc⟩ := hinv.2.2.2 hz
    have hote := (hinv.2.2.1 hi0).1
    cases fuel with
    | zero => simp [track_loop] at h
    | succ n =>
      obtain ⟨hb1, hb2, _⟩ := body_inv data i s hwf hi hinv ho hote
      rw [track_loop_step, if_pos hote] at h
      have hbw := body_wait_any data i s s.pt.inner_data_i hc rfl hi0 hlt
      by_cases h2 : (s.pt.delay - 1) % 65536 = 0
      · have hbd : (track_body data i s).1 = true ∧ (track_body data i s).2.pt.delay = 0 := by
          rw [hbw]
          unfold delay_branch
          simp only [if_neg hz, if_pos h2]
          exact ⟨trivial, trivial⟩
        rw [if_pos hbd.1] at h
        exact loop_arm data i hwf hi n _ s1 hb1 hb2 hbd.2 h hne
      · have hbd : (track_body data i s).1 = false ∧
            (track_body data i s).2.pt.outer_data_i = s.pt.outer_data_i ∧
            (track_body data i s).2.pt.inner_data_i = s.pt.inner_data_i := by
          rw [hbw]
          unfold delay_branch
          simp only [if_neg hz, if_neg h2]
          exact ⟨trivial, trivial, trivial⟩
        rw [if_neg (by rw [hbd.1]; simp)] at h
        simp only [Option.some.injEq] at h
        rw [← h] at hnew
        rcases hnew with h3 | h3 | h3
        · exact absurd h3 hz
        · exact absurd hbd.2.1 h3
        · exact absurd hbd.2.2 h3

/-- C15 (amended): on a well-formed score, from a reachable player state, let tick 0 of a run
of consecutive `w4on2_player_tick` calls reach a LONG_DELTA (0x00) or LONG_DELTA_NOTES_OFF
(0x01) opcode on track `i`: the tick ends with the inner cursor of the track on the opcode, at
`d`, and the track was not delaying or had its cursors elsewhere when the tick started. Let the
opcode carry the payload `pl` and a non-delay event follow it inside the pattern. With
`D = (pl + 51) mod 65536` (the `uint16_t` value the opcode arms) not 0: every tick returns,
ticks 1..D-1 feed nothing for track `i`, and the calls tick `D` makes for track `i` start with
the event after the opcode, preceded for the NOTES_OFF variant by exactly one synthesized
NOTES_OFF. The calls are calls of `w4on2_rt_feed_event` on the runtime: the runtime every one
of these ticks leaves is the runtime it was given with the calls of the tick made in order
(`replay`). For `pl ≤ 65484`, `D = pl + 51`. -/
theorem long_delay_timing (data : List Nat) (p : Player) (rts : Nat → RT)
    (fuel i d pl : Nat) (off : Bool) (st0 : TickSt)
    (hwf : score_wf data) (hp : PReach data p) (hf : player_fuel data ≤ fuel)
    (hi : i < data.getD 3 0)
    (h0 : player_run fuel rts p 0 = some st0)
    (hcur : (st0.p.tracks.getD i default).inner_data_i = d) (hd0 : d ≠ 0)
    (hnew : (p.tracks.getD i default).delay = 0 ∨
      (st0.p.tracks.getD i default).outer_data_i ≠ (p.tracks.getD i default).outer_data_i ∨
      (p.tracks.getD i default).inner_data_i ≠ d)
    (hcmd : data.getD d 0 = if off then 1 else 0)
    (hpl : w4on2_u16be (data.drop (d + 1)) = pl)
    (hD : (pl + 51) % 65536 ≠ 0)
    (hE2 : d + 3
      < (ptn_bounds data (data.getD (st0.p.tracks.getD i default).outer_data_i 0)).2)
    (hop : 0x66 ≤ data.getD (d + 3) 0) :
    (st0.p.tracks.getD i default).delay = (pl + 51) % 65536 ∧
    (∀ m, 1 ≤ m → m < (pl + 51) % 65536 → ∃ st, player_run fuel rts p m = some st ∧
      st.log.filter (fun f => decide (f.track = i)) = [] ∧
      st.rt = replay data (rts m) st.log) ∧
    (∃ st rest, player_run fuel rts p ((pl + 51) % 65536) = some st ∧
      st.log.filter (fun f => decide (f.track = i))
        = (if off then [Fed.notes_off i] else [])
          ++ Fed.event i (data.getD (st0.p.tracks.getD i default).outer_data_i 0) (d + 3)
            :: rest ∧
      st.rt = replay data (rts ((pl + 51) % 65536)) st.log) ∧
    (pl ≤ 65484 → (pl + 51) % 65536 = pl + 51) := by
  have hinv0 := preach_inv data p hwf hp
  have hdata : p.data = data := hinv0.1
  obtain ⟨st, hst, hinvst, _, _, htracks⟩ :=
    player_tick_some data fuel p (rts 0) hwf hf hinv0
  have hst0 : st = st0 := by
    have : player_run fuel rts p 0 = w4on2_player_tick fuel p (rts 0) := rfl
    rw [this, hst] at h0
    simpa using h0
  subst hst0
  obtain ⟨rt_in, s1, hl, hpt, _⟩ := htracks i hi
  have hinvi := hinv0.2.2 i hi
  obtain ⟨hlz1, hlz2⟩ := lazy_pt_inv data i _ hwf hi hinvi
  rw [hpt] at hcur hE2 hnew ⊢
  have hnew2 : (lazy_pt data i (p.tracks.getD i default)).delay = 0 ∨
      s1.pt.outer_data_i ≠ (lazy_pt data i (p.tracks.getD i default)).outer_data_i ∨
      s1.pt.inner_data_i ≠ (lazy_pt data i (p.tracks.getD i default)).inner_data_i := by
    by_cases hz : (p.tracks.getD i default).outer_data_i = 0
    · left
      rw [lazy_pt_delay]
      exact (hinvi.1 hz).2
    · have e : lazy_pt data i (p.tracks.getD i default) = p.tracks.getD i default := by
        unfold lazy_pt
        rw [if_neg hz]
      rw [e, hcur]
      rcases hnew with h3 | h3 | h3
      · exact Or.inl h3
      · exact Or.inr (Or.inl h3)
      · exact Or.inr (Or.inr (fun h4 => h3 h4.symm))
  obtain ⟨a1, a2, _, a4, _, a6⟩ := loop_reach_arm data i hwf hi fuel _ s1 hlz1 hlz2 hl
    (by rw [hcur]; exact hd0) hnew2
  obtain ⟨g1, g2, g3, g4⟩ := long_delay_facts data d pl off hcmd hpl
  rw [hcur, g2] at a4
  have hstate : st.p.tracks.getD i default
      = (⟨s1.pt.outer_data_i, d, (pl + 51) % 65536⟩ : PlayerTrack) := by
    rw [hpt, ← hcur, ← a4]
  obtain ⟨c1, c2⟩ := delay_chain data fuel st.p (fun k => rts (k + 1)) i s1.pt.outer_data_i d
    ((pl + 51) % 65536) hwf hf hi hinvst hstate ⟨by omega, Nat.mod_lt _ (by decide)⟩ g1 a1 a2
    hd0 (by rw [g3]; exact hE2) a6 (by rw [g3]; exact hop)
  rw [g3, g4] at c2
  refine ⟨a4, fun m hm1 hm2 => ?_, ?_, fun hle => Nat.mod_eq_of_lt (by omega)⟩
  · obtain ⟨m2, rfl⟩ : ∃ m2, m = m2 + 1 := ⟨m - 1, by omega⟩
    obtain ⟨stm, hrm, hlm⟩ := c1 m2 hm2
    rw [← player_run_shift fuel rts p st h0 m2] at hrm
    exact ⟨stm, hrm, hlm, by rw [← hdata]; exact run_replay fuel rts p _ stm hrm⟩
  · obtain ⟨st2, rest, hr, hlog⟩ := c2
    obtain ⟨m2, hm2⟩ : ∃ m2, (pl + 51) % 65536 = m2 + 1 := ⟨(pl + 51) % 65536 - 1, by omega⟩
    have hr2 : player_run fuel rts p ((pl + 51) % 65536) = some st2 := by
      rw [hm2] at hr ⊢
      rw [player_run_shift fuel rts p st h0 m2]
      exact hr
    exact ⟨st2, rest, hr2, hlog, by rw [← hdata]; exact run_replay fuel rts p _ st2 hr2⟩

set_option maxRecDepth 100000 in
/-- Witness for C15 (amended): in `long_after_short_score` the long delay follows an earlier
delay. After ticks 0 and 1 of a fresh player the track waits on SHORT_DELTA(2) at offset 9 with
one tick left. The next tick, tick 0 of the run below, leaves that delay, feeds NOTE_ON(62)
and reaches LONG_DELTA(0) at offset 11; ticks 1..50 feed nothing and tick 51 feeds the NOTE_ON
at offset 14: it leaves the runtime it was given with NOTE_ON(64) fed on track 0. -/
theorem long_delay_timing_witness :
    (player_after (player_fuel long_after_short_score) (fun _ => w4on2_rt_init)
      (w4on2_player_init long_after_short_score) 1).tracks.getD 0 default = ⟨16, 9, 1⟩ ∧
    (∀ m, 1 ≤ m → m < 51 → ∃ st, player_run (player_fuel long_after_short_score)
        (fun _ => w4on2_rt_init)
        (player_after (player_fuel long_after_short_score) (fun _ => w4on2_rt_init)
          (w4on2_player_init long_after_short_score) 1) m = some st ∧
      st.log.filter (fun f => decide (f.track = 0)) = [] ∧
      st.rt = replay long_after_short_score w4on2_rt_init st.log) ∧
    (∃ st rest, player_run (player_fuel long_after_short_score) (fun _ => w4on2_rt_init)
        (player_after (player_fuel long_after_short_score) (fun _ => w4on2_rt_init)
          (w4on2_player_init long_after_short_score) 1) 51 = some st ∧
      st.log.filter (fun f => decide (f.track = 0)) = Fed.event 0 0 14 :: rest ∧
      st.rt = replay long_after_short_score w4on2_rt_init st.log) ∧
    (player_run (player_fuel long_after_short_score) (fun _ => w4on2_rt_init)
        (player_after (player_fuel long_after_short_score) (fun _ => w4on2_rt_init)
          (w4on2_player_init long_after_short_score) 1) 51).map (fun st => (st.log, st.rt))
      = some ([Fed.event 0 0 14], (w4on2_rt_feed_event w4on2_rt_init 0 [0x66 + 64]).1) := by
  cases h0 : player_run (player_fuel long_after_short_score) (fun _ => w4on2_rt_init)
      (player_after (player_fuel long_after_short_score) (fun _ => w4on2_rt_init)
        (w4on2_player_init long_after_short_score) 1) 0 with
  | none => exact absurd h0 (by decide)
  | some st0 =>
    have hall : (player_run (player_fuel long_after_short_score) (fun _ => w4on2_rt_init)
        (player_after (player_fuel long_after_short_score) (fun _ => w4on2_rt_init)
          (w4on2_player_init long_after_short_score) 1) 0).all
          (fun st => decide ((st.p.tracks.getD 0 default).inner_data_i = 11 ∧
            (st.p.tracks.getD 0 default).outer_data_i = 16)) = true := by decide
    rw [h0] at hall
    have hcur : (st0.p.tracks.getD 0 default).inner_data_i = 11 ∧
        (st0.p.tracks.getD 0 default).outer_data_i = 16 := by simpa using hall
    have h := long_delay_timing long_after_short_score
      (player_after (player_fuel long_after_short_score) (fun _ => w4on2_rt_init)
        (w4on2_player_init long_after_short_score) 1)
      (fun _ => w4on2_rt_init) (player_fuel long_after_short_score) 0 11 0 false st0
      (by decide) (preach_after _ _ _ _ 1 PReach.init) (Nat.le_refl _) (by decide) h0 hcur.1
      (by decide) (Or.inr (Or.inr (by decide))) (by decide) (by decide) (by decide)
      (by rw [hcur.2]; decide) (by decide)
    rw [hcur.2] at h
    exact ⟨by decide, h.2.1, h.2.2.1, by decide⟩

/-! ## Claim C17: the events before the first delay are fed in order -/

theorem getD_take (l : List Nat) (n k : Nat) (h : k < n) :
    (l.take n).getD k 0 = l.getD k 0 := by
  rw [List.getD_eq_getElem?_getD, List.getD_eq_getElem?_getD, List.getElem?_take]
  rw [if_pos h]

/-- The effect of a SET event depends on the bytes of the event only. -/
theorem set_effect_congr (cmd : Nat) (l1 l2 : List Nat) (t : Track)
    (h1 : 0xe7 ≤ cmd) (h2 : cmd ≤ 0xf5)
    (hk : ∀ k, k < opcode_table_size cmd → l1.getD k 0 = l2.getD k 0) :
    set_event_effect cmd l1 t = set_event_effect cmd l2 t := by
  have hb : cmd = 0xe7 ∨ cmd = 0xe8 ∨ cmd = 0xe9 ∨ cmd = 0xea ∨ cmd = 0xeb ∨ cmd = 0xec
      ∨ cmd = 0xed ∨ cmd = 0xee ∨ cmd = 0xef ∨ cmd = 0xf0 ∨ cmd = 0xf1 ∨ cmd = 0xf2
      ∨ cmd = 0xf3 ∨ cmd = 0xf4 ∨ cmd = 0xf5 := by omega
  have e1 := hk 1
  have e2 := hk 2
  have e3 := hk 3
  have e4 := hk 4
  rcases hb with h | h | h | h | h | h | h | h | h | h | h | h | h | h | h <;>
    (subst h; simp [opcode_table_size] at e1 e2 e3 e4; simp [set_event_effect, *])

/-- Source `w4on2_rt_feed_event` reads only the bytes of the event it is given: feeding the
first `n` bytes at the pointer, `n` at least the size of the event, is the same. -/
theorem feed_take (rt : RT) (i : Nat) (l : List Nat) (n : Nat)
    (h1 : 0x66 ≤ l.getD 0 0) (h2 : l.getD 0 0 ≤ 0xf5)
    (hn : opcode_table_size (l.getD 0 0) ≤ n) :
    w4on2_rt_feed_event rt i (l.take n) = w4on2_rt_feed_event rt i l := by
  have hsz := size_pos _ h2
  cases l with
  | nil => simp at h1
  | cons c rest =>
    simp only [List.getD_cons_zero] at h1 h2 hn hsz
    obtain ⟨m, rfl⟩ : ∃ m, n = m + 1 := ⟨n - 1, by omega⟩
    rw [List.take_succ_cons]
    rcases Nat.lt_or_ge c 0xe6 with ha | ha
    · rw [feed_note_on _ _ _ _ h1 ha, feed_note_on _ _ _ _ h1 ha]
    · rcases Nat.eq_or_lt_of_le ha with hb | hb
      · subst hb
        rw [feed_notes_off, feed_notes_off]
      · rw [feed_set_eq _ _ _ _ (by omega) h2, feed_set_eq _ _ _ _ (by omega) h2]
        rw [set_effect_congr c (c :: rest.take m) (c :: rest) _ (by omega) h2]
        intro k hk
        have := getD_take (c :: rest) (m + 1) k (by omega)
        rw [List.take_succ_cons] at this
        exact this

theorem events_end_ge (data : List Nat) :
    ∀ k pos, nondelay_run data k pos = true → pos + k ≤ events_end data k pos := by
  intro k
  induction k with
  | zero => intro pos _; exact Nat.le_refl _
  | succ k ih =>
    intro pos h
    simp only [nondelay_run, Bool.and_eq_true, decide_eq_true_eq] at h
    have := ih _ h.2
    have := size_pos _ h.1.2
    simp only [events_end]
    omega

theorem drop_getD_zero (data : List Nat) (pos : Nat) :
    (data.drop pos).getD 0 0 = data.getD pos 0 := by
  rw [List.getD_eq_getElem?_getD, List.getD_eq_getElem?_getD, List.getElem?_drop]
  rfl

/-- The event loop of a track that stands, not delaying, before `k` non-delay events followed
by a delay opcode inside the pattern: `k + 1` iterations feed the events in order and stop on
the delay opcode. -/
theorem loop_run_events (data : List Nat) (i te o pe : Nat) (hpe : pe ≤ data.length)
    (hL : data.length < 65536) (hote : o < te)
    (hend : (ptn_bounds data (data.getD o 0)).2 = pe) :
    ∀ k pos (s : LoopSt), s.pt.outer_data_i = o → eff_inner data s.pt = pos → pos ≠ 0 →
      s.pt.inner_data_i ≤ pos → s.pt.delay = 0 →
      nondelay_run data k pos = true → data.getD (events_end data k pos) 0 < 0x66 →
      events_end data k pos < pe →
      ∃ s1, track_loop data i te (k + 1) s = some s1 ∧
        s1.pt.inner_data_i = events_end data k pos ∧
        s1.rt = feed_all s.rt i (events_from data k pos) := by
  intro k
  induction k with
  | zero =>
    intro pos s ho he hp0 hle hz _ hdl hin
    simp only [events_end] at hdl hin ⊢
    have hsw : ¬ s.pt.inner_data_i ≥ (ptn_bounds data (data.getD s.pt.outer_data_i 0)).2 := by
      rw [ho, hend]; omega
    rw [track_loop_step, if_pos (by rw [ho]; exact hote),
      body_delay _ _ _ hsw (by rw [he]; exact hdl)]
    unfold delay_branch
    rw [if_pos hz]
    simp only [Bool.false_eq_true, if_false]
    exact ⟨_, rfl, he, rfl⟩
  | succ k ih =>
    intro pos s ho he hp0 hle hz hev hdl hin
    simp only [nondelay_run, Bool.and_eq_true, decide_eq_true_eq] at hev
    simp only [events_end] at hdl hin ⊢
    have hge := events_end_ge data k _ hev.2
    have hsz := size_pos _ hev.1.2
    have hsw : ¬ s.pt.inner_data_i ≥ (ptn_bounds data (data.getD s.pt.outer_data_i 0)).2 := by
      rw [ho, hend]; omega
    have hbf := body_feed data i s hsw (by rw [he]; exact hev.1.1)
    rw [he, feed_size_drop data s.rt i pos (by omega),
      Nat.mod_eq_of_lt (show pos + opcode_table_size (data.getD pos 0) < 65536 by omega)]
      at hbf
    rw [track_loop_step, if_pos (by rw [ho]; exact hote), hbf]
    simp only [if_true]
    have hft : w4on2_rt_feed_event s.rt i (data.drop pos)
        = w4on2_rt_feed_event s.rt i (event_at data pos) := by
      unfold event_at
      rw [← drop_getD_zero data pos]
      exact (feed_take s.rt i (data.drop pos) _
        (by rw [drop_getD_zero]; exact hev.1.1) (by rw [drop_getD_zero]; exact hev.1.2)
        (Nat.le_refl _)).symm
    obtain ⟨s1, h1, h2, h3⟩ := ih (pos + opcode_table_size (data.getD pos 0))
      ⟨{ s.pt with inner_data_i := pos + opcode_table_size (data.getD pos 0) },
        (w4on2_rt_feed_event s.rt i (data.drop pos)).1,
        s.log ++ [Fed.event i (data.getD s.pt.outer_data_i 0) pos]⟩
      ho (by unfold eff_inner; simp only []; rw [if_neg (by omega)]) (by omega)
      (Nat.le_refl _) hz hev.2 hdl hin
    refine ⟨s1, h1, h2, ?_⟩
    rw [h3]
    simp only [events_from, feed_all, hft]

/-- C17: for a well-formed single-track score whose track is not empty, let the first pattern
the track plays (`data[track_start]`) start with `k ≥ 0` non-delay events (opcodes 0x66..0xF5)
followed, inside the pattern, by a delay opcode. The first `w4on2_player_tick` on a freshly
initialised player returns, leaves the runtime in the state obtained by feeding the `k` events
to track 0 in stream order with `w4on2_rt_feed_event`, and leaves the inner cursor of the track
on the delay opcode. -/
theorem first_tick_feeds (data : List Nat) (rt : RT) (fuel k : Nat)
    (hwf : score_wf data) (hT : data.getD 3 0 = 1) (hf : player_fuel data ≤ fuel)
    (hne : (trk_bounds data 0).1 < (trk_bounds data 0).2)
    (hev : nondelay_run data k (ptn_bounds data (data.getD (trk_bounds data 0).1 0)).1 = true)
    (hdl : data.getD
      (events_end data k (ptn_bounds data (data.getD (trk_bounds data 0).1 0)).1) 0 < 0x66)
    (hin : events_end data k (ptn_bounds data (data.getD (trk_bounds data 0).1 0)).1
      < (ptn_bounds data (data.getD (trk_bounds data 0).1 0)).2) :
    ∃ st, w4on2_player_tick fuel (w4on2_player_init data) rt = some st ∧
      st.rt = feed_all rt 0
        (events_from data k (ptn_bounds data (data.getD (trk_bounds data 0).1 0)).1) ∧
      (st.p.tracks.getD 0 default).inner_data_i
        = events_end data k (ptn_bounds data (data.getD (trk_bounds data 0).1 0)).1 ∧
      data.getD (st.p.tracks.getD 0 default).inner_data_i 0 < 0x66 := by
  obtain ⟨hlen, _, _, htr, hpt⟩ := hwf
  obtain ⟨hts, _, hte, hid⟩ := htr 0 (by omega)
  have hj := hid _ hne (Nat.le_refl _)
  obtain ⟨hps, _, hpe, _⟩ := hpt _ hj
  have hL : data.length < 65536 := by
    have := score_sz_lt data
    omega
  have hge := events_end_ge data k _ hev
  obtain ⟨s1, h1, h2, h3⟩ := loop_run_events data 0 (trk_bounds data 0).2 (trk_bounds data 0).1
    _ hpe hL hne rfl k (ptn_bounds data (data.getD (trk_bounds data 0).1 0)).1
    ⟨⟨(trk_bounds data 0).1, 0, 0⟩, rt, []⟩ rfl (by unfold eff_inner; simp) (by omega)
    (Nat.zero_le _) rfl hev hdl hin
  have hfuel : k + 1 ≤ fuel := by
    unfold player_fuel at hf
    nlinarith
  have h1f := track_loop_mono data 0 _ _ _ _ h1 fuel hfuel
  have hlz : lazy_pt data 0 ((w4on2_player_init data).tracks.getD 0 default)
      = ⟨(trk_bounds data 0).1, 0, 0⟩ := rfl
  have htick : w4on2_player_tick fuel (w4on2_player_init data) rt
      = some { p := { (w4on2_player_init data) with
                     tracks := (w4on2_player_init data).tracks.set 0 s1.pt }
               rt := s1.rt
               active_tracks := 1
               log := s1.log } := by
    have hd : (w4on2_player_init data).data = data := rfl
    unfold w4on2_player_tick
    simp only [hd, hT]
    have hr : List.range 1 = [0] := rfl
    rw [hr]
    simp only [tick_tracks, tick_track, hd, hlz, h1f, if_pos hne]
    simp
  have h16 : 0 < (w4on2_player_init data).tracks.length := by
    simp [w4on2_player_init]
  refine ⟨_, htick, h3, ?_, ?_⟩
  · simp only []
    rw [getD_set_self _ _ _ _ h16]
    exact h2
  · simp only []
    rw [getD_set_self _ _ _ _ h16, h2]
    exact hdl

set_option maxRecDepth 100000 in
/-- Witness for C17 (scenario S5): the pattern of `s5_score` starts with NOTE_ON(60) followed
by a delay opcode; the first tick leaves the runtime as NOTE_ON(60) fed on track 0 and the
inner cursor on offset 9. -/
theorem first_tick_feeds_witness :
    ∃ st, w4on2_player_tick (player_fuel s5_score) (w4on2_player_init s5_score) w4on2_rt_init
        = some st ∧
      st.rt = feed_all w4on2_rt_init 0 [[0x66 + 60]] ∧
      (st.p.tracks.getD 0 default).inner_data_i = 9 ∧
      s5_score.getD (st.p.tracks.getD 0 default).inner_data_i 0 < 0x66 :=
  first_tick_feeds s5_score w4on2_rt_init (player_fuel s5_score) 1 (by decide) (by decide)
    (Nat.le_refl _) (by decide) (by decide) (by decide) (by decide)

/-! ## Claim C21: termination of the player tick -/

theorem size_le_five (c : Nat) : opcode_table_size c ≤ 5 := by
  by_cases h : c ≤ 0xf5
  · exact (size_pos c h).2
  · unfold opcode_table_size
    simp (disch := omega) only [if_neg, if_pos, if_true, if_false]
    omega

theorem feed_size_any (data : List Nat) (rt : RT) (i pos : Nat) :
    (w4on2_rt_feed_event rt i (data.drop pos)).2 = opcode_table_size (data.getD pos 0) := by
  by_cases h : pos < data.length
  · exact feed_size_drop data rt i pos h
  · rw [List.drop_eq_nil_of_le (by omega), List.getD_eq_default _ _ (by omega)]
    rfl

theorem measure_inner (data : List Nat) (i : Nat) (pt pt2 : PlayerTrack)
    (ho : pt2.outer_data_i = pt.outer_data_i) (h1 : pt.inner_data_i < pt2.inner_data_i)
    (h2 : pt.inner_data_i < data.length) :
    track_measure data i pt2 < track_measure data i pt := by
  unfold track_measure
  rw [ho]
  omega

/-- The facts the loop body can rely on at the head of an iteration that does not switch to
the next pattern, on a `score_layout` score without high empty patterns. -/
theorem layout_head (data : List Nat) (i : Nat) (pt : PlayerTrack)
    (hwf : score_layout data) (hlow : empty_patterns_low data) (hi : i < data.getD 3 0)
    (hinv : layout_inv data i pt) (hlt : pt.outer_data_i < (trk_bounds data i).2)
    (hsw : ¬ pt.inner_data_i ≥ (ptn_bounds data (data.getD pt.outer_data_i 0)).2) :
    Events data (ptn_bounds data (data.getD pt.outer_data_i 0)).2 (eff_inner data pt) ∧
    pt.inner_data_i < data.length ∧
    eff_inner data pt + opcode_table_size (data.getD (eff_inner data pt) 0) < 65536 ∧
    pt.inner_data_i
      < eff_inner data pt + opcode_table_size (data.getD (eff_inner data pt) 0) ∧
    (eff_inner data pt + opcode_table_size (data.getD (eff_inner data pt) 0)
        < (ptn_bounds data (data.getD pt.outer_data_i 0)).2 →
      Events data (ptn_bounds data (data.getD pt.outer_data_i 0)).2
        (eff_inner data pt + opcode_table_size (data.getD (eff_inner data pt) 0))) := by
  obtain ⟨hlen, _, htr, hpt⟩ := hwf
  have hsz := score_sz_lt data
  obtain ⟨_, _, hid⟩ := htr i hi
  have hj := hid _ hlt hinv.1
  obtain ⟨hel, hev⟩ := hpt _ hj
  have hEv := events_ok_sound data _ _ _ hev
  have hlowj := hlow _ hj
  have hE : Events data (ptn_bounds data (data.getD pt.outer_data_i 0)).2
      (eff_inner data pt) := by
    unfold eff_inner
    split_ifs with h0
    · exact hEv
    · exact (hinv.2 h0).2 (by omega)
  have hle : pt.inner_data_i ≤ eff_inner data pt := by
    unfold eff_inner
    split_ifs <;> omega
  have hE2 := events_le _ _ _ hE
  refine ⟨hE, by omega, ?_⟩
  rcases Nat.lt_or_ge (eff_inner data pt)
    (ptn_bounds data (data.getD pt.outer_data_i 0)).2 with hA | hB
  · obtain ⟨hc, hs, hev2⟩ := events_next data _ _ hE hA
    have := size_pos _ hc
    exact ⟨by omega, by omega, fun _ => hev2⟩
  · have h0 : pt.inner_data_i = 0 := by
      by_contra h0
      have : eff_inner data pt = pt.inner_data_i := by
        unfold eff_inner
        rw [if_neg h0]
      omega
    have hps : eff_inner data pt = (ptn_bounds data (data.getD pt.outer_data_i 0)).1 := by
      unfold eff_inner
      rw [if_pos h0]
    have := hlowj (by omega)
    have := size_le_five (data.getD (eff_inner data pt) 0)
    exact ⟨by omega, by omega, fun h => by omega⟩

/-- One iteration of the event loop on a `score_layout` score without high empty patterns: the
invariant is kept, the termination measure drops when the loop goes on, and the iteration
either leaves the loop on a delay or strictly advances a cursor. -/
theorem body_layout (data : List Nat) (i : Nat) (s : LoopSt)
    (hwf : score_layout data) (hlow : empty_patterns_low data) (hi : i < data.getD 3 0)
    (hinv : layout_inv data i s.pt) (hlt : s.pt.outer_data_i < (trk_bounds data i).2) :
    layout_inv data i (track_body data i s).2.pt ∧
    ((track_body data i s).1 = true →
      track_measure data i (track_body data i s).2.pt < track_measure data i s.pt) ∧
    (breaks_on_delay data i s ∨ advances data i s) := by
  have hte : (trk_bounds data i).2 < 65536 := by
    have := (hwf.2.2.1 i hi).2.1
    have := hwf.1
    have := score_sz_lt data
    omega
  unfold breaks_on_delay advances layout_inv
  by_cases hsw : s.pt.inner_data_i ≥ (ptn_bounds data (data.getD s.pt.outer_data_i 0)).2
  · rw [body_switch _ _ _ hsw]
    simp only []
    have hm : (s.pt.outer_data_i + 1) % 65536 = s.pt.outer_data_i + 1 :=
      Nat.mod_eq_of_lt (by omega)
    rw [hm]
    exact ⟨⟨by have := hinv.1; omega, fun h => absurd rfl h⟩,
      fun _ => measure_switch data i s.pt hlt, Or.inr ⟨trivial, Or.inl rfl⟩⟩
  · obtain ⟨hE, hil, hnw, hadv, hE2⟩ := layout_head data i s.pt hwf hlow hi hinv hlt hsw
    by_cases hc : data.getD (eff_inner data s.pt) 0 < 0x66
    · rw [body_delay _ _ _ hsw hc]
      unfold delay_branch
      by_cases h1 : s.pt.delay = 0
      · simp only [if_pos h1]
        exact ⟨⟨hinv.1, fun _ => ⟨hlt, fun _ => hE⟩⟩, fun h => by simp at h,
          Or.inl ⟨trivial, hc, trivial, trivial⟩⟩
      · by_cases h2 : (s.pt.delay - 1) % 65536 = 0
        · simp only [if_neg h1, if_pos h2]
          rw [Nat.mod_eq_of_lt hnw]
          exact ⟨⟨hinv.1, fun _ => ⟨hlt, hE2⟩⟩,
            fun _ => measure_inner data i s.pt _ rfl hadv hil,
            Or.inr ⟨trivial, Or.inr ⟨trivial, hadv⟩⟩⟩
        · simp only [if_neg h1, if_neg h2]
          exact ⟨⟨hinv.1, fun _ => ⟨hlt, fun _ => hE⟩⟩, fun h => by simp at h,
            Or.inl ⟨trivial, hc, trivial, trivial⟩⟩
    · rw [body_feed _ _ _ hsw (by omega)]
      simp only []
      rw [feed_size_any, Nat.mod_eq_of_lt hnw]
      exact ⟨⟨hinv.1, fun _ => ⟨hlt, hE2⟩⟩,
        fun _ => measure_inner data i s.pt _ rfl hadv hil,
        Or.inr ⟨trivial, Or.inr ⟨trivial, hadv⟩⟩⟩

/-- On a `score_layout` score without high empty patterns the event loop of a track returns,
given fuel above the measure. -/
theorem track_loop_layout (data : List Nat) (i : Nat)
    (hwf : score_layout data) (hlow : empty_patterns_low data) (hi : i < data.getD 3 0) :
    ∀ fuel s, layout_inv data i s.pt → track_measure data i s.pt < fuel →
      ∃ s1, track_loop data i (trk_bounds data i).2 fuel s = some s1 ∧
        layout_inv data i s1.pt := by
  intro fuel
  induction fuel with
  | zero => intro s _ h; omega
  | succ n ih =>
    intro s hinv hm
    rw [track_loop_step]
    by_cases hlt : s.pt.outer_data_i < (trk_bounds data i).2
    · rw [if_pos hlt]
      obtain ⟨h1, h2, _⟩ := body_layout data i s hwf hlow hi hinv hlt
      by_cases hb : (track_body data i s).1 = true
      · rw [if_pos hb]
        exact ih _ h1 (by have := h2 hb; omega)
      · rw [if_neg hb]
        exact ⟨_, rfl, h1⟩
    · rw [if_neg hlt]
      exact ⟨_, rfl, hinv⟩

theorem lazy_pt_layout (data : List Nat) (i : Nat) (pt : PlayerTrack)
    (h : layout_inv data i pt) : lazy_pt data i pt = pt := by
  unfold lazy_pt
  split_ifs with h0
  · have h1 := h.1
    have h2 : (trk_bounds data i).1 = pt.outer_data_i := by omega
    rw [h2]
  · rfl

/-- What the `for` body does for track `i` on a `score_layout` score without high empty
patterns: the loop returns and the player invariant is kept. -/
theorem tick_track_layout (data : List Nat) (i fuel : Nat) (st : TickSt)
    (hwf : score_layout data) (hlow : empty_patterns_low data) (hi : i < data.getD 3 0)
    (hinv : layout_player_inv data st.p) (hf : player_fuel data ≤ fuel) :
    ∃ st1, tick_track fuel i st = some st1 ∧ layout_player_inv data st1.p := by
  obtain ⟨hd, hl, htr⟩ := hinv
  obtain ⟨s1, hs1, hi1⟩ := track_loop_layout data i hwf hlow hi fuel
    { pt := lazy_pt data i (st.p.tracks.getD i default), rt := st.rt, log := [] } (htr i hi)
    (by have := measure_lt_fuel data i (lazy_pt data i (st.p.tracks.getD i default))
          (Nat.le_trans (hwf.2.2.1 i hi).2.1 hwf.1)
        simp only []
        omega)
  refine ⟨⟨⟨st.p.data, st.p.tracks.set i s1.pt⟩, s1.rt,
    (if lazy_outer data i (st.p.tracks.getD i default) < (trk_bounds data i).2
      then (st.active_tracks + 1) % 256 else st.active_tracks),
    st.log ++ s1.log⟩, ?_, hd, ?_, ?_⟩
  · unfold tick_track
    simp only [hd, lazy_pt_outer]
    rw [hs1]
  · simpa using hl
  · intro k hk
    simp only []
    by_cases hki : i = k
    · subst hki
      have h16 := hwf.2.1
      have hv := lim_val
      rw [getD_set_self _ _ _ _ (by rw [hl]; omega), lazy_pt_layout data i s1.pt hi1]
      exact hi1
    · rw [getD_set_other _ _ _ _ _ hki]
      exact htr k hk

theorem tick_tracks_layout (data : List Nat) (fuel : Nat)
    (hwf : score_layout data) (hlow : empty_patterns_low data)
    (hf : player_fuel data ≤ fuel) :
    ∀ (is : List Nat) (st : TickSt), (∀ i ∈ is, i < data.getD 3 0) →
      layout_player_inv data st.p →
      ∃ st1, tick_tracks fuel is st = some st1 ∧ layout_player_inv data st1.p := by
  intro is
  induction is with
  | nil =>
    intro st _ hinv
    exact ⟨st, rfl, hinv⟩
  | cons i rest ih =>
    intro st hall hinv
    obtain ⟨st1, h1, h2⟩ := tick_track_layout data i fuel st hwf hlow
      (hall i (List.mem_cons_self i rest)) hinv hf
    obtain ⟨st2, h3, h4⟩ := ih st1 (fun k hk => hall k (List.mem_cons_of_mem i hk)) h2
    refine ⟨st2, ?_, h4⟩
    simp only [tick_tracks, h1]
    exact h3

/-- On a `score_layout` score without high empty patterns `w4on2_player_tick` returns, given
`player_fuel data` iterations for every loop, and keeps the player invariant. -/
theorem player_tick_layout (data : List Nat) (fuel : Nat) (p : Player) (rt : RT)
    (hwf : score_layout data) (hlow : empty_patterns_low data)
    (hf : player_fuel data ≤ fuel) (hinv : layout_player_inv data p) :
    ∃ st, w4on2_player_tick fuel p rt = some st ∧ layout_player_inv data st.p := by
  have hd : p.data = data := hinv.1
  obtain ⟨st, h1, h2⟩ := tick_tracks_layout data fuel hwf hlow hf
    (List.range (data.getD 3 0)) { p := p, rt := rt, active_tracks := 0, log := [] }
    (fun i hi => List.mem_range.1 hi) hinv
  refine ⟨st, ?_, h2⟩
  unfold w4on2_player_tick
  rw [hd]
  exact h1

theorem layout_inv_init (data : List Nat) :
    layout_player_inv data (w4on2_player_init data) := by
  refine ⟨rfl, by simp [w4on2_player_init], fun i _ => ?_⟩
  have : (w4on2_player_init data).tracks.getD i default
      = { outer_data_i := 0, inner_data_i := 0, delay := 0 } := by
    unfold w4on2_player_init
    simp only [List.getD_eq_getElem?_getD, List.getElem?_replicate]
    split_ifs <;> rfl
  rw [this]
  unfold lazy_pt layout_inv
  simp

theorem preach_layout (data : List Nat) (p : Player) (hwf : score_layout data)
    (hlow : empty_patterns_low data) (h : PReach data p) : layout_player_inv data p := by
  induction h with
  | init => exact layout_inv_init data
  | tick p rt fuel st _ ht ih =>
    obtain ⟨st2, h1, h2⟩ := player_tick_layout data (max fuel (player_fuel data)) p rt hwf
      hlow (Nat.le_max_right _ _) ih
    have := player_tick_mono fuel (max fuel (player_fuel data)) p rt st ht
      (Nat.le_max_left _ _)
    rw [this] at h1
    simp only [Option.some.injEq] at h1
    rw [h1]
    exact h2

theorem loop_reach_layout (data : List Nat) (i : Nat) (s : LoopSt)
    (hwf : score_layout data) (hlow : empty_patterns_low data) (hi : i < data.getD 3 0)
    (h : LoopReach data i s) : layout_inv data i s.pt := by
  induction h with
  | start p rt hp => exact (preach_layout data p hwf hlow hp).2.2 i hi
  | step s _ hlt _ ih => exact (body_layout data i s hwf hlow hi ih hlt).1

/-- The same holds for the weaker `score_layout`, as long as no empty pattern lies above offset
65530: the tick returns and every iteration leaves the loop on a delay or advances a cursor. -/
theorem layout_tick_terminates (data : List Nat) (p : Player)
    (hlay : score_layout data) (hlow : empty_patterns_low data) (hp : PReach data p) :
    (∀ fuel rt, player_fuel data ≤ fuel → ∃ st, w4on2_player_tick fuel p rt = some st) ∧
    (∀ i s, i < data.getD 3 0 → LoopReach data i s →
      s.pt.outer_data_i < (trk_bounds data i).2 →
      breaks_on_delay data i s ∨ advances data i s) := by
  refine ⟨fun fuel rt hf => ?_, fun i s hi hr hlt => ?_⟩
  · obtain ⟨st, h, _⟩ := player_tick_layout data fuel p rt hlay hlow hf
      (preach_layout data p hlay hlow hp)
    exact ⟨st, h⟩
  · exact (body_layout data i s hlay hlow hi (loop_reach_layout data i s hlay hlow hi hr)
      hlt).2.2

set_option maxRecDepth 100000 in
/-- On `empty_pattern_score`, which has an empty pattern and so is not `score_wf`, the first
tick returns. -/
theorem empty_pattern_tick_returns :
    ¬ score_wf empty_pattern_score ∧
    ∃ st, w4on2_player_tick (player_fuel empty_pattern_score)
      (w4on2_player_init empty_pattern_score) w4on2_rt_init = some st :=
  ⟨by decide,
    (layout_tick_terminates empty_pattern_score (w4on2_player_init empty_pattern_score)
      (by decide) (by decide) PReach.init).1 _ _ (Nat.le_refl _)⟩

/-! ### Outside `score_wf`: a score with empty patterns on which the tick does not return -/

theorem offsets_getD (n j : Nat) (h : j < n) :
    (offsets_table n).getD (2 * j) 0 = 0xff ∧ (offsets_table n).getD (2 * j + 1) 0 = 0xfe := by
  induction n generalizing j with
  | zero => omega
  | succ n ih =>
    cases j with
    | zero => exact ⟨rfl, rfl⟩
    | succ j =>
      have e : 2 * (j + 1) = 2 * j + 1 + 1 := by ring
      rw [e]
      exact ih j (by omega)

theorem offsets_length (n : Nat) : (offsets_table n).length = 2 * n := by
  induction n with
  | zero => rfl
  | succ n ih =>
    simp only [offsets_table, List.length_cons, ih]
    ring

theorem wrap_header_length : wrap_header.length = 470 := by
  unfold wrap_header
  rw [List.length_append, offsets_length]
  rfl

theorem wrap_length : wrap_score.length = 65536 := by
  unfold wrap_score
  rw [List.length_append, List.length_append, List.length_replicate, wrap_header_length]
  rfl

theorem wrap_low (k : Nat) (hk : k < 470) : wrap_score.getD k 0 = wrap_header.getD k 0 := by
  unfold wrap_score
  exact List.getD_append _ _ _ _ (by rw [wrap_header_length]; exact hk)

theorem wrap_offsets (j : Nat) (h : j < 233) :
    wrap_score.getD (4 + 2 * j) 0 = 0xff ∧ wrap_score.getD (4 + 2 * j + 1) 0 = 0xfe := by
  rw [wrap_low _ (by omega), wrap_low _ (by omega)]
  have e1 : 4 + 2 * j = 2 * j + 1 + 1 + 1 + 1 := by ring
  rw [e1]
  exact offsets_getD 233 j h

theorem wrap_top : wrap_score.getD 65534 0 = 0xe7 := by
  unfold wrap_score
  have h1 : wrap_header.length ≤ 65534 := by rw [wrap_header_length]; omega
  rw [List.getD_append_right _ _ _ _ h1, wrap_header_length]
  have h2 : (List.replicate 65064 2).length ≤ 65534 - 470 :=
    Nat.le_of_eq (List.length_replicate _ _)
  rw [List.getD_append_right _ _ _ _ h2, List.length_replicate]
  rfl

theorem wrap_counts : wrap_score.getD 2 0 = 232 ∧ wrap_score.getD 3 0 = 1 := by
  rw [wrap_low 2 (by omega), wrap_low 3 (by omega)]
  exact ⟨rfl, rfl⟩

theorem wrap_sz : score_sz wrap_score = 65535 := by
  unfold score_sz
  rw [wrap_low 0 (by omega), wrap_low 1 (by omega)]
  rfl

theorem drop_getD (data : List Nat) (n k : Nat) :
    (data.drop n).getD k 0 = data.getD (n + k) 0 := by
  rw [List.getD_eq_getElem?_getD, List.getD_eq_getElem?_getD, List.getElem?_drop]

theorem wrap_u16 (j : Nat) (h : j < 233) :
    w4on2_u16be (wrap_score.drop (4 + 2 * j)) = 65534 := by
  unfold w4on2_u16be
  rw [drop_getD, drop_getD, Nat.add_zero, (wrap_offsets j h).1, (wrap_offsets j h).2]
  rfl

theorem wrap_ptn (j : Nat) (h : j < 232) : ptn_bounds wrap_score j = (65534, 65534) := by
  unfold ptn_bounds
  simp only [wrap_counts.1]
  have e1 : (4 + 232 * 2) % 65536 = 4 + 2 * 232 := by decide
  have e2 : (4 + j * 2) % 65536 = 4 + 2 * j := by omega
  have e3 : 4 + 2 * j + 2 = 4 + 2 * (j + 1) := by ring
  rw [e1, e2, e3, wrap_u16 j (by omega), wrap_u16 (j + 1) (by omega),
    wrap_u16 232 (by omega)]
  simp

theorem wrap_trk : trk_bounds wrap_score 0 = (65534, 65535) := by
  unfold trk_bounds
  simp only [wrap_counts.1, wrap_counts.2, wrap_sz]
  have e1 : (4 + 232 * 2 + 0 * 2) % 65536 = 4 + 2 * 232 := by decide
  rw [e1, wrap_u16 232 (by omega)]
  simp

theorem events_ok_self (data : List Nat) (e fuel : Nat) : events_ok data e fuel e = true := by
  cases fuel <;> simp [events_ok]

theorem wrap_score_layout : score_layout wrap_score := by
  have hv := lim_val
  refine ⟨by rw [wrap_length, wrap_sz]; omega, by rw [wrap_counts.2]; omega, fun i hi => ?_,
    fun j hj => ?_⟩
  · rw [wrap_counts.2] at hi
    obtain rfl : i = 0 := by omega
    rw [wrap_trk, wrap_sz, wrap_counts.1]
    refine ⟨by omega, by omega, fun o h1 h2 => ?_⟩
    obtain rfl : o = 65534 := by
      simp only [] at h1 h2
      omega
    rw [wrap_top]
    omega
  · rw [wrap_counts.1] at hj
    rw [wrap_ptn j hj, wrap_sz]
    exact ⟨by simp only []; omega, events_ok_self _ _ _⟩

/-- An event loop whose body goes on and returns to the same cursors never returns. -/
theorem loop_spin (data : List Nat) (i te : Nat) (pt0 : PlayerTrack)
    (hlt : pt0.outer_data_i < te)
    (hb : ∀ s : LoopSt, s.pt = pt0 →
      (track_body data i s).1 = true ∧ (track_body data i s).2.pt = pt0) :
    ∀ fuel (s : LoopSt), s.pt = pt0 → track_loop data i te fuel s = none := by
  intro fuel
  induction fuel with
  | zero => intro s _; rfl
  | succ n ih =>
    intro s h
    rw [track_loop_step, if_pos (by rw [h]; exact hlt), if_pos (hb s h).1]
    exact ih _ (hb s h).2

/-- On `wrap_score` the iteration that starts with the cursors `(65534, 0)` reads the event at
offset 65534, of size 2, and the 16-bit inner cursor wraps around to 0. -/
theorem wrap_body (s : LoopSt) (h : s.pt = ⟨65534, 0, 0⟩) :
    (track_body wrap_score 0 s).1 = true ∧ (track_body wrap_score 0 s).2.pt = ⟨65534, 0, 0⟩ := by
  have ho : s.pt.outer_data_i = 65534 := by rw [h]
  have hin : s.pt.inner_data_i = 0 := by rw [h]
  have hp : ptn_bounds wrap_score (wrap_score.getD s.pt.outer_data_i 0) = (65534, 65534) := by
    rw [ho, wrap_top]
    exact wrap_ptn 231 (by omega)
  have he : eff_inner wrap_score s.pt = 65534 := by
    unfold eff_inner
    rw [if_pos hin, hp]
  have hb := body_feed wrap_score 0 s (by rw [hp, hin]; simp only []; omega)
    (by rw [he, wrap_top]; omega)
  rw [he, feed_size_any, wrap_top] at hb
  rw [hb, h]
  exact ⟨rfl, rfl⟩

/-- A one-track score on which the event loop of the track never returns makes the first tick
never return. -/
theorem tick_single_none (data : List Nat) (fuel : Nat) (rt : RT) (hT : data.getD 3 0 = 1)
    (h : track_loop data 0 (trk_bounds data 0).2 fuel
      ⟨⟨(trk_bounds data 0).1, 0, 0⟩, rt, []⟩ = none) :
    w4on2_player_tick fuel (w4on2_player_init data) rt = none := by
  have hlz : lazy_pt data 0 ((w4on2_player_init data).tracks.getD 0 default)
      = ⟨(trk_bounds data 0).1, 0, 0⟩ := rfl
  have hd : (w4on2_player_init data).data = data := rfl
  unfold w4on2_player_tick
  simp only [hd, hT]
  have hr : List.range 1 = [0] := rfl
  rw [hr]
  simp only [tick_tracks, tick_track, hd, hlz, h]

/-- The condition on empty patterns cannot be dropped: `wrap_score` satisfies `score_layout`
(it is not `score_wf`), a score of 65535 bytes with 232 empty patterns at offset 65534. The
track plays pattern 231: the player sets the inner cursor to 65534, feeds the event it finds
there (0xE7, SET_FLAGS, size 2) and the `uint16_t` inner cursor wraps around to 0, the "not
set" value, so the loop starts the same pattern again: `w4on2_player_tick` does not return,
whatever the fuel. -/
theorem wrap_score_spins :
    score_layout wrap_score ∧ score_sz wrap_score = 65535 ∧ wrap_score.length = 65536 ∧
    ptn_bounds wrap_score 231 = (65534, 65534) ∧ wrap_score.getD 65534 0 = 0xe7 ∧
    ∀ fuel rt, w4on2_player_tick fuel (w4on2_player_init wrap_score) rt = none := by
  refine ⟨wrap_score_layout, wrap_sz, wrap_length, wrap_ptn 231 (by omega), wrap_top,
    fun fuel rt => ?_⟩
  apply tick_single_none wrap_score fuel rt wrap_counts.2
  rw [wrap_trk]
  exact loop_spin wrap_score 0 65535 ⟨65534, 0, 0⟩ (by simp only []; omega) wrap_body fuel _ rfl

end W4on2
